import Mathlib

/-!
Verification development for the tedit text editor (src/tedit.c).

The editing engine is shallowly embedded: the gap buffer is modelled as the
pair of byte sequences on the two sides of the gap together with the gap
size, bytes are Int values (the C code reads unsigned chars into ints, with
-1 as the end-of-text sentinel), and every C loop becomes a structurally
recursive function or a fueled loop whose fuel provably dominates the
iteration count.  Positions, line numbers and columns are Int, matching the
C int fields.
-/

namespace Tedit

/-- MINEXTEND from tedit.c: minimal gap growth, 32 KiB. -/
def MINEXTEND : Nat := 32768

/-- The split buffer of struct editor: the bytes before the gap (start..gap),
the gap size (rest - gap) and the bytes after the gap (rest..end).  The gap
contents are unspecified in the C program and are not tracked. -/
structure Buf where
  pre : List Int
  gapLen : Nat
  suf : List Int
  deriving Repr, DecidableEq

/-- The logical content of the buffer: prefix followed by suffix, gap elided. -/
def cnt (b : Buf) : List Int := b.pre ++ b.suf

/-- text_length: number of stored bytes, (gap - start) + (end - rest). -/
def text_length (b : Buf) : Int := ((b.pre.length + b.suf.length : Nat) : Int)

/-- Indexing helper: byte at a logical index, -1 when out of range.  This is
the value get() computes through text_ptr: a physical pointer below end maps
back to a logical index, and any pointer at or past end yields -1. -/
def nth : List Int → Nat → Int
  | [], _ => -1
  | a :: _, 0 => a
  | _ :: t, n + 1 => nth t n

/-- get(ed, pos) from tedit.c: the byte at logical position pos, or -1 when
text_ptr lands at or beyond the end of the allocation.  A negative pos is
undefined behaviour in C (it reads before the allocation); it is modelled
as -1, the same sentinel the in-range overflow produces. -/
def get (b : Buf) (pos : Int) : Int :=
  if pos < 0 then -1 else nth (cnt b) pos.toNat

/-- copy(ed, buf, pos, len): reads up to len bytes starting at logical
position pos, walking the physical pointer across the gap; returns the bytes
read (the C function returns their count).  Reads stop at the end of text. -/
def copy (b : Buf) (pos len : Int) : List Int :=
  ((cnt b).drop pos.toNat).take len.toNat

/-- move_gap(ed, pos, minsize): relocates the gap to logical position pos.
When the present gap is large enough and already at pos (p == rest) nothing
happens; when large enough but elsewhere, a memmove re-splits the content at
pos; otherwise a fresh allocation is made whose gap at pos has size
max(minsize, gapsize + MINEXTEND), and the two content halves are copied
around it. -/
def move_gap (b : Buf) (pos minsize : Int) : Buf :=
  let ms : Nat := if minsize < 0 then 0 else minsize.toNat
  if ms ≤ b.gapLen then
    if pos.toNat = b.pre.length then b
    else { pre := (cnt b).take pos.toNat, gapLen := b.gapLen,
           suf := (cnt b).drop pos.toNat }
  else
    let ms' : Nat := if ms < b.gapLen + MINEXTEND then b.gapLen + MINEXTEND else ms
    { pre := (cnt b).take pos.toNat, gapLen := ms',
      suf := (cnt b).drop pos.toNat }

/-- close_gap(ed): moves the gap to the end of the text and writes a NUL
sentinel at buffer[length] (the sentinel lands inside the gap, whose bytes
this model does not track, so only the relocation is visible here). -/
def close_gap (b : Buf) : Buf :=
  move_gap b (text_length b) 1

/-- The buffer mutation performed by replace(ed, pos, len, buf, bufsize, _):
when the change is a pure deletion whose range touches the gap, the gap
boundary is simply widened; otherwise the gap is moved to pos + len (growing
it by at least bufsize - len) and the inserted bytes are written at pos,
after which the gap starts at pos + bufsize. -/
def buf_replace (b : Buf) (pos len : Int) (ins : List Int) : Buf :=
  if ins.length = 0 ∧ pos.toNat ≤ b.pre.length ∧ b.pre.length ≤ pos.toNat + len.toNat then
    { pre := b.pre.take pos.toNat, gapLen := b.gapLen + len.toNat,
      suf := b.suf.drop (pos.toNat + len.toNat - b.pre.length) }
  else
    let b' := move_gap b (pos + len) ((ins.length : Int) - len)
    { pre := b'.pre.take pos.toNat ++ ins,
      gapLen := b'.gapLen + len.toNat - ins.length,
      suf := b'.suf }

/-! ### The undo log and the editor state -/

/-- struct undo: one edit record.  The edit at position pos removed the
undobuf bytes (erased of them) and inserted the redobuf bytes (inserted of
them). -/
structure URec where
  pos : Int
  erased : Int
  inserted : Int
  undobuf : List Int
  redobuf : List Int
  deriving Repr, DecidableEq

/-- The editor-state fields of struct editor that the engine operations
touch.  The doubly linked undo list with its head, tail and undo pointers is
represented as the list of records plus a cursor index: undoIdx = 0 encodes
a NULL undo pointer (before the head) and undoIdx = k encodes a pointer to
the k-th record. -/
structure Editor where
  buf : Buf
  toppos : Int
  topline : Int
  margin : Int
  linepos : Int
  line : Int
  col : Int
  lastcol : Int
  anchor : Int
  records : List URec
  undoIdx : Nat
  refresh : Bool
  lineupdate : Bool
  dirty : Bool
  deriving Repr, DecidableEq

/-- The terminal geometry of struct env used by the engine. -/
structure Env where
  cols : Int
  lines : Int
  deriving Repr, DecidableEq

/-- The editor produced by new_file on an empty name: an all-zero state with
a MINEXTEND gap and no selection. -/
def mk_editor : Editor :=
  { buf := ⟨[], MINEXTEND, []⟩, toppos := 0, topline := 0, margin := 0,
    linepos := 0, line := 0, col := 0, lastcol := 0, anchor := -1,
    records := [], undoIdx := 0, refresh := false, lineupdate := false,
    dirty := false }

/-- reset_undo: frees all records strictly after the undo pointer and lets
the pointer coincide with the tail. -/
def reset_undo (ed : Editor) : Editor :=
  let rs := ed.records.take ed.undoIdx
  { ed with records := rs, undoIdx := rs.length }

/-- The undo-recording prefix of replace (doundo path): after reset_undo,
either coalesce the new single-byte edit into the tail record (append
insert, append erase at the same position, append erase one position to the
left) or append a fresh record whose undobuf snapshots the erased bytes. -/
def record_undo (ed0 : Editor) (pos len : Int) (ins : List Int) : Editor :=
  let ed := reset_undo ed0
  let fresh : Editor :=
    { ed with
      records := ed.records ++ [⟨pos, len, (ins.length : Int), copy ed.buf pos len, ins⟩]
      undoIdx := ed.records.length + 1 }
  match ed.records.getLast? with
  | some t =>
    if len = 0 ∧ ins.length = 1 ∧ t.erased = 0 ∧ pos = t.pos + t.inserted then
      { ed with records := ed.records.dropLast ++
          [{ t with redobuf := t.redobuf ++ ins, inserted := t.inserted + 1 }] }
    else if len = 1 ∧ ins.length = 0 ∧ t.inserted = 0 ∧ pos = t.pos then
      { ed with records := ed.records.dropLast ++
          [{ t with undobuf := t.undobuf ++ [get ed.buf pos], erased := t.erased + 1 }] }
    else if len = 1 ∧ ins.length = 0 ∧ t.inserted = 0 ∧ pos = t.pos - 1 then
      { ed with records := ed.records.dropLast ++
          [{ t with
             pos := t.pos - 1
             undobuf := get ed.buf pos :: t.undobuf
             erased := t.erased + 1 }] }
    else fresh
  | none => fresh

/-- replace(ed, pos, len, buf, bufsize, doundo): record the undo information
when requested, mutate the buffer, mark the editor dirty. -/
def replace (ed : Editor) (pos len : Int) (ins : List Int) (doundo : Bool) : Editor :=
  let ed1 := if doundo then record_undo ed pos len ins else ed
  { ed1 with buf := buf_replace ed1.buf pos len ins, dirty := true }

/-! ### Navigation helpers -/

/-- Scan core of line_length: bytes up to but excluding the next newline or
carriage return, or the end of the text. -/
def line_length_list : List Int → Nat
  | [] => 0
  | ch :: t => if ch = 10 ∨ ch = 13 then 0 else line_length_list t + 1

/-- line_length(ed, linepos). -/
def line_length (b : Buf) (linepos : Int) : Int :=
  (line_length_list ((cnt b).drop linepos.toNat) : Nat)

/-- Scan core of line_start: walk back until position 0 or a newline just
before the position. -/
def scan_start (c : List Int) : Nat → Nat
  | 0 => 0
  | p + 1 => if nth c p = 10 then p + 1 else scan_start c p

/-- line_start(ed, pos). -/
def line_start (b : Buf) (pos : Int) : Int :=
  (scan_start (cnt b) pos.toNat : Nat)

/-- Scan core of next_line: position just after the next newline at or after
the given position, or -1 when no newline remains. -/
def scan_next : List Int → Nat → Int
  | [], _ => -1
  | ch :: t, p => if ch = 10 then ((p + 1 : Nat) : Int) else scan_next t (p + 1)

/-- next_line(ed, pos).  With a negative pos the C loop reads the get
sentinel -1 at once and returns -1. -/
def next_line (b : Buf) (pos : Int) : Int :=
  if pos < 0 then -1 else scan_next ((cnt b).drop pos.toNat) pos.toNat

/-- First backward scan of prev_line: decrement and stop on a newline,
leaving the position of that newline (or 0). -/
def scan_back1 (c : List Int) : Nat → Nat
  | 0 => 0
  | p + 1 => if nth c p = 10 then p else scan_back1 c p

/-- Second backward scan of prev_line: decrement and return just after a
newline (or 0). -/
def scan_back2 (c : List Int) : Nat → Nat
  | 0 => 0
  | p + 1 => if nth c p = 10 then p + 1 else scan_back2 c p

/-- prev_line(ed, pos): the first byte of the line preceding the one holding
pos, or -1 when pos = 0.  (With a negative pos both C loops are skipped and
0 is returned.) -/
def prev_line (b : Buf) (pos : Int) : Int :=
  if pos = 0 then -1
  else if pos < 0 then 0
  else (scan_back2 (cnt b) (scan_back1 (cnt b) pos.toNat) : Nat)

/-- column(ed, linepos, col): visual column after expanding tabs to the next
multiple of TABSIZE = 8, walking col bytes from linepos and stopping at the
end of the text. -/
def column_walk : List Int → Nat → Nat → Nat
  | _, 0, acc => acc
  | [], _ + 1, acc => acc
  | ch :: t, col + 1, acc =>
    column_walk t col (if ch = 9 then acc + (8 - acc % 8) else acc + 1)

def column (b : Buf) (linepos col : Int) : Int :=
  (column_walk ((cnt b).drop linepos.toNat) col.toNat 0 : Nat)

/-- wordchar(ch): ASCII alphanumeric. -/
def wordchar (ch : Int) : Bool :=
  (65 ≤ ch && ch ≤ 90) || (97 ≤ ch && ch ≤ 122) || (48 ≤ ch && ch ≤ 57)

/-! ### moveto and adjust -/

/-- The body of the moveto reconciliation loop; the Bool accumulator is the
local scroll flag.  Fuel dominates the iteration count (see mv_fuel); when
it runs out the current state is returned unchanged. -/
def moveto_loop (env : Env) (pos : Int) : Nat → Editor → Bool → Editor × Bool
  | 0, ed, scroll => (ed, scroll)
  | fuel + 1, ed, scroll =>
    let cur := ed.linepos + ed.col
    if pos < cur then
      if pos ≥ ed.linepos then
        moveto_loop env pos fuel { ed with col := pos - ed.linepos } scroll
      else
        let ed1 := { ed with
                     col := 0
                     linepos := prev_line ed.buf ed.linepos
                     line := ed.line - 1 }
        if ed1.topline > ed1.line then
          moveto_loop env pos fuel
            { ed1 with
              toppos := ed1.linepos
              topline := ed1.topline - 1
              refresh := true } true
        else
          moveto_loop env pos fuel ed1 scroll
    else if pos > cur then
      let nxt := next_line ed.buf ed.linepos
      if nxt = -1 then
        ({ ed with col := text_length ed.buf - ed.linepos }, scroll)
      else if pos < nxt then
        moveto_loop env pos fuel { ed with col := pos - ed.linepos } scroll
      else
        let ed1 := { ed with col := 0, linepos := nxt, line := ed.line + 1 }
        if ed1.line ≥ ed1.topline + env.lines then
          moveto_loop env pos fuel
            { ed1 with
              toppos := next_line ed1.buf ed1.toppos
              topline := ed1.topline + 1
              refresh := true } true
        else
          moveto_loop env pos fuel ed1 scroll
    else (ed, scroll)

/-- Fuel that dominates the moveto loop iteration count for any state the
editor reaches (each iteration either stops or strictly shrinks a measure
bounded by this expression). -/
def mv_fuel (ed : Editor) (pos : Int) : Nat :=
  ed.linepos.toNat + ed.col.toNat + pos.toNat + (pos - ed.linepos).toNat + 8

/-- The recentering loop of moveto, backward direction: step toppos to the
previous line start the given number of times. -/
def recenter_back (b : Buf) : Nat → Int → Int → Int × Int
  | 0, tp, tl => (tp, tl)
  | n + 1, tp, tl => recenter_back b n (prev_line b tp) (tl - 1)

/-- The recentering loop of moveto, forward direction. -/
def recenter_fwd (b : Buf) : Nat → Int → Int → Int × Int
  | 0, tp, tl => (tp, tl)
  | n + 1, tp, tl => recenter_fwd b n (next_line b tp) (tl + 1)

/-- moveto(ed, pos, center): iteratively reconcile (linepos, line, col) with
the target position, scrolling as lines leave the viewport; when center is
set and scrolling occurred, re-aim the viewport at line - lines/2. -/
def moveto (env : Env) (ed : Editor) (pos : Int) (center : Bool) : Editor :=
  let pr := moveto_loop env pos (mv_fuel ed pos) ed false
  let ed1 := pr.1
  let scroll := pr.2
  if scroll ∧ center then
    let tl0 := ed1.line - env.lines / 2
    let tl := if tl0 < 0 then 0 else tl0
    if ed1.topline > tl then
      let tp := recenter_back ed1.buf (ed1.topline - tl).toNat ed1.toppos ed1.topline
      { ed1 with toppos := tp.1, topline := tp.2 }
    else if ed1.topline < tl then
      let tp := recenter_fwd ed1.buf (tl - ed1.topline).toNat ed1.toppos ed1.topline
      { ed1 with toppos := tp.1, topline := tp.2 }
    else ed1
  else ed1

/-- First margin loop of adjust: scroll left in steps of 4 while the visual
column is left of the margin, clamping at 0. -/
def margin_dec : Nat → Int → Int → Bool → Int × Bool
  | 0, _, m, r => (m, r)
  | f + 1, colv, m, r =>
    if colv < m then
      let m1 := m - 4
      margin_dec f colv (if m1 < 0 then 0 else m1) true
    else (m, r)

/-- Second margin loop of adjust: scroll right in steps of 4 while the
visual column is at or beyond the right edge. -/
def margin_inc (cols : Int) : Nat → Int → Int → Bool → Int × Bool
  | 0, _, m, r => (m, r)
  | f + 1, colv, m, r =>
    if colv - m ≥ cols then margin_inc cols f colv (m + 4) true else (m, r)

/-- adjust(ed): restore col from lastcol clamped to the line length, then
scroll the margin so the visual cursor column is visible. -/
def adjust (env : Env) (ed : Editor) : Editor :=
  let ll := line_length ed.buf ed.linepos
  let c0 := if ed.lastcol > ll then ll else ed.lastcol
  let colv := column ed.buf ed.linepos c0
  let p1 := margin_dec (ed.margin.toNat + 8) colv ed.margin ed.refresh
  let p2 := margin_inc env.cols ((colv - p1.1).toNat + 8) colv p1.1 p1.2
  { ed with col := c0, margin := p2.1, refresh := p2.2 }

/-! ### Selection -/

/-- get_selection(ed): the ordered selection range, or none when there is no
anchor or the anchor coincides with the cursor. -/
def get_selection (ed : Editor) : Option (Int × Int) :=
  if ed.anchor = -1 then none
  else
    let pos := ed.linepos + ed.col
    if pos = ed.anchor then none
    else if pos < ed.anchor then some (pos, ed.anchor)
    else some (ed.anchor, pos)

/-- update_selection(ed, select). -/
def update_selection (ed : Editor) (select : Bool) : Editor :=
  if select then
    if ed.anchor = -1 then
      { ed with anchor := ed.linepos + ed.col, refresh := true }
    else { ed with refresh := true }
  else
    if ed.anchor = -1 then ed
    else { ed with anchor := -1, refresh := true }

/-- erase_selection(ed): move to the selection start, erase the range, drop
the anchor; the Bool reports whether a selection was erased. -/
def erase_selection (env : Env) (ed : Editor) : Editor × Bool :=
  match get_selection ed with
  | none => (ed, false)
  | some (s, e) =>
    let ed1 := moveto env ed s false
    let ed2 := replace ed1 s (e - s) [] true
    ({ ed2 with anchor := -1, refresh := true }, true)

/-- select_all(ed). -/
def select_all (env : Env) (ed : Editor) : Editor :=
  moveto env { ed with anchor := 0, refresh := true } (text_length ed.buf) false

/-! ### Cursor movement operations -/

def up (env : Env) (ed : Editor) (select : Bool) : Editor :=
  let newpos := prev_line ed.buf ed.linepos
  if newpos < 0 then ed
  else
    let ed := update_selection ed select
    let ed := { ed with linepos := newpos, line := ed.line - 1 }
    let ed := if ed.line < ed.topline then
        { ed with toppos := ed.linepos, topline := ed.line, refresh := true }
      else ed
    adjust env ed

def down (env : Env) (ed : Editor) (select : Bool) : Editor :=
  let newpos := next_line ed.buf ed.linepos
  if newpos < 0 then ed
  else
    let ed := update_selection ed select
    let ed := { ed with linepos := newpos, line := ed.line + 1 }
    let ed := if ed.line ≥ ed.topline + env.lines then
        { ed with
          toppos := next_line ed.buf ed.toppos
          topline := ed.topline + 1
          refresh := true }
      else ed
    adjust env ed

def left (env : Env) (ed : Editor) (select : Bool) : Editor :=
  let ed := update_selection ed select
  if ed.col > 0 then
    let ed := { ed with col := ed.col - 1 }
    adjust env { ed with lastcol := ed.col }
  else
    let newpos := prev_line ed.buf ed.linepos
    if newpos < 0 then ed
    else
      let ed := { ed with
                  col := line_length ed.buf newpos
                  linepos := newpos
                  line := ed.line - 1 }
      let ed := if ed.line < ed.topline then
          { ed with toppos := ed.linepos, topline := ed.line, refresh := true }
        else ed
      adjust env { ed with lastcol := ed.col }

def right (env : Env) (ed : Editor) (select : Bool) : Editor :=
  let ed := update_selection ed select
  if ed.col < line_length ed.buf ed.linepos then
    let ed := { ed with col := ed.col + 1 }
    adjust env { ed with lastcol := ed.col }
  else
    let newpos := next_line ed.buf ed.linepos
    if newpos < 0 then ed
    else
      let ed := { ed with col := 0, linepos := newpos, line := ed.line + 1 }
      let ed := if ed.line ≥ ed.topline + env.lines then
          { ed with
            toppos := next_line ed.buf ed.toppos
            topline := ed.topline + 1
            refresh := true }
        else ed
      adjust env { ed with lastcol := ed.col }

/-- The backward walk of wordleft; returns the final position together with
the updated editor (linepos, line, refresh may change). -/
def wordleft_loop (b : Buf) : Nat → Int → Nat → Editor → Int × Editor
  | 0, pos, _, ed => (pos, ed)
  | f + 1, pos, phase, ed =>
    if pos > 0 then
      let ch := get b (pos - 1)
      if phase = 0 ∨ wordchar ch then
        let phase1 := if phase = 0 then (if wordchar ch then 1 else 0) else phase
        let pos1 := pos - 1
        let ed1 := if pos1 < ed.linepos then
            { ed with
              linepos := prev_line b ed.linepos
              line := ed.line - 1
              refresh := true }
          else ed
        wordleft_loop b f pos1 phase1 ed1
      else (pos, ed)
    else (pos, ed)

def wordleft (env : Env) (ed : Editor) (select : Bool) : Editor :=
  let ed := update_selection ed select
  let pos0 := ed.linepos + ed.col
  let pr := wordleft_loop ed.buf (pos0.toNat + 1) pos0 0 ed
  let pos := pr.1
  let ed := pr.2
  let ed := { ed with col := pos - ed.linepos }
  let ed := if ed.line < ed.topline then
      { ed with toppos := ed.linepos, topline := ed.line }
    else ed
  adjust env { ed with lastcol := ed.col }

/-- The forward walk of wordright; carries the position, the phase and the
next-line boundary. -/
def wordright_loop (b : Buf) (stop : Int) : Nat → Int → Nat → Int → Editor → Int × Editor
  | 0, pos, _, _, ed => (pos, ed)
  | f + 1, pos, phase, nxt, ed =>
    if pos < stop then
      let ch := get b pos
      if phase = 0 ∨ wordchar ch then
        let phase1 := if phase = 0 then (if wordchar ch then 1 else 0) else phase
        let pos1 := pos + 1
        if pos1 = nxt then
          wordright_loop b stop f pos1 phase1 (next_line b nxt)
            { ed with linepos := nxt, line := ed.line + 1, refresh := true }
        else
          wordright_loop b stop f pos1 phase1 nxt ed
      else (pos, ed)
    else (pos, ed)

def wordright (env : Env) (ed : Editor) (select : Bool) : Editor :=
  let ed := update_selection ed select
  let pos0 := ed.linepos + ed.col
  let stop := text_length ed.buf
  let pr := wordright_loop ed.buf stop ((stop - pos0).toNat + 1) pos0 0
    (next_line ed.buf ed.linepos) ed
  let pos := pr.1
  let ed := pr.2
  let ed := { ed with col := pos - ed.linepos }
  let ed := if ed.line ≥ ed.topline + env.lines then
      { ed with toppos := next_line ed.buf ed.toppos, topline := ed.topline + 1 }
    else ed
  adjust env { ed with lastcol := ed.col }

def home (env : Env) (ed : Editor) (select : Bool) : Editor :=
  let ed := update_selection ed select
  adjust env { ed with col := 0, lastcol := 0 }

def end_ (env : Env) (ed : Editor) (select : Bool) : Editor :=
  let ed := update_selection ed select
  let l := line_length ed.buf ed.linepos
  adjust env { ed with col := l, lastcol := l }

def top (env : Env) (ed : Editor) (select : Bool) : Editor :=
  let ed := update_selection ed select
  { ed with
    toppos := 0
    topline := 0
    margin := 0
    linepos := 0
    line := 0
    col := 0
    lastcol := 0
    refresh := true }

def bottom_loop (env : Env) (b : Buf) : Nat → Editor → Editor
  | 0, ed => ed
  | f + 1, ed =>
    let newpos := next_line b ed.linepos
    if newpos < 0 then ed
    else
      let ed := { ed with linepos := newpos, line := ed.line + 1 }
      let ed := if ed.line ≥ ed.topline + env.lines then
          { ed with
            toppos := next_line b ed.toppos
            topline := ed.topline + 1
            refresh := true }
        else ed
      bottom_loop env b f ed

def bottom (env : Env) (ed : Editor) (select : Bool) : Editor :=
  let ed := update_selection ed select
  let ed := bottom_loop env ed.buf ((text_length ed.buf - ed.linepos).toNat + 1) ed
  let l := line_length ed.buf ed.linepos
  adjust env { ed with col := l, lastcol := l }

/-- The backward page walk of pageup; the Bool reports the early return that
skips refresh and adjust. -/
def pageup_loop (b : Buf) : Nat → Editor → Editor × Bool
  | 0, ed => (ed, false)
  | f + 1, ed =>
    let newpos := prev_line b ed.linepos
    if newpos < 0 then (ed, true)
    else
      let ed := { ed with linepos := newpos, line := ed.line - 1 }
      let ed := if ed.topline > 0 then
          { ed with toppos := prev_line b ed.toppos, topline := ed.topline - 1 }
        else ed
      pageup_loop b f ed

def pageup (env : Env) (ed : Editor) (select : Bool) : Editor :=
  let ed := update_selection ed select
  if ed.line < env.lines then
    adjust env { ed with
      linepos := 0
      toppos := 0
      line := 0
      topline := 0
      refresh := true }
  else
    let pr := pageup_loop ed.buf env.lines.toNat ed
    if pr.2 then pr.1 else adjust env { pr.1 with refresh := true }

def pagedown_loop (b : Buf) : Nat → Editor → Editor
  | 0, ed => ed
  | f + 1, ed =>
    let newpos := next_line b ed.linepos
    if newpos < 0 then ed
    else
      pagedown_loop b f
        { ed with
          linepos := newpos
          line := ed.line + 1
          toppos := next_line b ed.toppos
          topline := ed.topline + 1 }

def pagedown (env : Env) (ed : Editor) (select : Bool) : Editor :=
  let ed := update_selection ed select
  let ed := pagedown_loop ed.buf env.lines.toNat ed
  adjust env { ed with refresh := true }

/-! ### Text editing operations -/

def insert_char (env : Env) (ed : Editor) (ch : Int) : Editor :=
  let ed := (erase_selection env ed).1
  let ed := replace ed (ed.linepos + ed.col) 0 [ch] true
  let ed := { ed with col := ed.col + 1 }
  let ed := adjust env { ed with lastcol := ed.col }
  if ed.refresh then ed else { ed with lineupdate := true }

def newline (env : Env) (ed : Editor) : Editor :=
  let ed := (erase_selection env ed).1
  let ed := replace ed (ed.linepos + ed.col) 0 [10] true
  let ed := { ed with col := 0, lastcol := 0, line := ed.line + 1 }
  let ed := { ed with linepos := next_line ed.buf ed.linepos }
  let ed := { ed with refresh := true }
  let ed := if ed.line ≥ ed.topline + env.lines then
      { ed with
        toppos := next_line ed.buf ed.toppos
        topline := ed.topline + 1
        refresh := true }
    else ed
  adjust env ed

def backspace (env : Env) (ed : Editor) : Editor :=
  let r := erase_selection env ed
  if r.2 then r.1
  else
    let ed := r.1
    if ed.linepos + ed.col = 0 then ed
    else if ed.col = 0 then
      let pos := ed.linepos - 1
      let ed := replace ed pos 1 [] true
      let pe : Int × Editor :=
        if get ed.buf (pos - 1) = 13 then (pos - 1, replace ed (pos - 1) 1 [] true)
        else (pos, ed)
      let pos := pe.1
      let ed := pe.2
      let ed := { ed with line := ed.line - 1 }
      let lp := line_start ed.buf pos
      let ed := { ed with linepos := lp, col := pos - lp, refresh := true }
      let ed := if ed.line < ed.topline then
          { ed with toppos := ed.linepos, topline := ed.line }
        else ed
      adjust env { ed with lastcol := ed.col }
    else
      let ed := { ed with col := ed.col - 1 }
      let ed := replace ed (ed.linepos + ed.col) 1 [] true
      let ed := { ed with lineupdate := true }
      adjust env { ed with lastcol := ed.col }

def del (env : Env) (ed : Editor) : Editor :=
  let r := erase_selection env ed
  if r.2 then r.1
  else
    let ed := r.1
    let pos := ed.linepos + ed.col
    let ch := get ed.buf pos
    if ch < 0 then ed
    else
      let ed := replace ed pos 1 [] true
      let ce : Int × Editor :=
        if ch = 13 then
          let c2 := get ed.buf pos
          if c2 = 10 then (c2, replace ed pos 1 [] true) else (c2, ed)
        else (ch, ed)
      if ce.1 = 10 then { ce.2 with refresh := true }
      else { ce.2 with lineupdate := true }

/-! ### Undo and redo -/

def undo (env : Env) (ed : Editor) : Editor :=
  if ed.undoIdx = 0 then ed
  else
    let r := ed.records.getD (ed.undoIdx - 1) ⟨0, 0, 0, [], []⟩
    let ed := moveto env ed r.pos false
    let ed := replace ed r.pos r.inserted r.undobuf false
    let k := ed.undoIdx - 1
    let ed := { ed with undoIdx := k }
    let ed := if k = 0 then { ed with dirty := false } else ed
    { ed with refresh := true }

def redo (env : Env) (ed : Editor) : Editor :=
  let knext : Option Nat :=
    if ed.undoIdx > 0 then
      if ed.undoIdx = ed.records.length then none else some (ed.undoIdx + 1)
    else
      if ed.records.length = 0 then none else some 1
  match knext with
  | none => ed
  | some k =>
    let r := ed.records.getD (k - 1) ⟨0, 0, 0, [], []⟩
    let ed := { ed with undoIdx := k }
    let ed := replace ed r.pos r.erased r.redobuf false
    let ed := moveto env ed r.pos false
    { ed with dirty := true, refresh := true }

def undoN (env : Env) : Nat → Editor → Editor
  | 0, ed => ed
  | n + 1, ed => undoN env n (undo env ed)

def redoN (env : Env) : Nat → Editor → Editor
  | 0, ed => ed
  | n + 1, ed => redoN env n (redo env ed)

/-! ### Clipboard -/

/-- copy_selection(ed): the bytes the selection covers, or none when there
is no selection (in which case the C function leaves the clipboard alone). -/
def copy_selection (ed : Editor) : Option (List Int) :=
  match get_selection ed with
  | none => none
  | some (s, e) => some (copy ed.buf s (e - s))

def paste_selection (env : Env) (ed : Editor) (clip : List Int) : Editor :=
  let ed := (erase_selection env ed).1
  let ed := replace ed (ed.linepos + ed.col) 0 clip true
  let ed := moveto env ed (ed.linepos + ed.col + clip.length) false
  { ed with refresh := true }

/-! ### Search, goto line, and the prompt cancel paths -/

/-- Needle match at the head of the haystack. -/
def matches_at : List Int → List Int → Bool
  | _, [] => true
  | [], _ :: _ => false
  | h :: ht, n :: nt => h = n && matches_at ht nt

/-- First match offset of the needle inside the haystack. -/
def substr_find : List Int → List Int → Option Nat
  | [], nd => if matches_at [] nd then some 0 else none
  | h :: t, nd =>
    if matches_at (h :: t) nd then some 0 else (substr_find t nd).map (· + 1)

/-- strstr on the NUL-terminated byte sequence starting at the search
position: matching stops at the first NUL of the haystack (close_gap plants
a sentinel NUL right after the logical content). -/
def strstr_clip (hay nd : List Int) : Option Nat :=
  substr_find (hay.takeWhile (· ≠ 0)) nd

/-- find_text with a stored needle (the find-next path; the prompting path
stores the prompt result as the needle first).  The Bool output reports the
BEL on a miss. -/
def find_text (env : Env) (ed : Editor) (needle : List Int) : Editor × Bool :=
  if 0 < needle.length then
    let ed := { ed with buf := close_gap ed.buf }
    match strstr_clip ((cnt ed.buf).drop (ed.linepos + ed.col).toNat) needle with
    | some off =>
      let pos := ed.linepos + ed.col + ((off : Nat) : Int)
      let ed := { ed with anchor := pos }
      let ed := moveto env ed (pos + needle.length) true
      ({ ed with refresh := true }, false)
    | none => ({ ed with refresh := true }, true)
  else ({ ed with refresh := true }, false)

/-- The line walk of goto_line: lineno - 1 next_line steps from 0, stopping
with -1 when the document runs out of lines. -/
def goto_walk (b : Buf) : Nat → Int → Int
  | 0, pos => pos
  | n + 1, pos =>
    let p := next_line b pos
    if p < 0 then p else goto_walk b n p

/-- goto_line(ed): the anchor is dropped before the prompt; none models the
prompt dismissed with Esc (or an empty reply). -/
def goto_line (env : Env) (ed : Editor) (input : Option Int) : Editor :=
  let ed := { ed with anchor := -1 }
  match input with
  | none => { ed with refresh := true }
  | some lineno =>
    let pos := if lineno > 0 then goto_walk ed.buf (lineno - 1).toNat 0 else -1
    if 0 ≤ pos then { (moveto env ed pos true) with refresh := true }
    else { ed with refresh := true }

/-- The Esc path of find_text when prompting: return before any state is
touched, with only a redraw requested. -/
def find_text_cancel (ed : Editor) : Editor := { ed with refresh := true }

/-- The Esc path of open_editor: return before any file is opened. -/
def open_editor_cancel (ed : Editor) : Editor := { ed with refresh := true }

/-- The Esc path of the save-as prompt in save_editor. -/
def save_editor_cancel (ed : Editor) : Editor := { ed with refresh := true }

/-- The Esc path of pipe_command: return before popen. -/
def pipe_command_cancel (ed : Editor) : Editor := { ed with refresh := true }

/-! ### The workspace document ring -/

/-- The circular doubly linked editor list of struct env, as the list of
documents in ring order with the index of the current one. -/
structure Ring where
  docs : List String
  cur : Nat
  deriving Repr, DecidableEq

/-- create_editor: splice the new document right after the current one and
make it current. -/
def create_editor (w : Ring) (name : String) : Ring :=
  if w.docs.isEmpty then ⟨[name], 0⟩
  else ⟨w.docs.take (w.cur + 1) ++ [name] ++ w.docs.drop (w.cur + 1), w.cur + 1⟩

/-- next_file: current becomes current.next. -/
def next_file (w : Ring) : Ring :=
  { w with cur := (w.cur + 1) % w.docs.length }

/-- prev_file: current becomes current.prev. -/
def prev_file (w : Ring) : Ring :=
  { w with cur := (w.cur + w.docs.length - 1) % w.docs.length }

def current_doc (w : Ring) : String := w.docs.getD w.cur ""

/-! ### The abstract log semantics used to state the undo round trips -/

/-- Applying a record forward (what redo does to the content). -/
def redo_apply (c : List Int) (r : URec) : List Int :=
  c.take r.pos.toNat ++ r.redobuf ++ c.drop (r.pos + r.erased).toNat

/-- Applying a record backward (what undo does to the content). -/
def undo_apply (c : List Int) (r : URec) : List Int :=
  c.take r.pos.toNat ++ r.undobuf ++ c.drop (r.pos + r.inserted).toNat

/-- A record correctly describes an edit of the content c: its range lies
inside c, its payload sizes match its counters, and its undo payload is the
slice of c it claims to have erased. -/
def goodRec (c : List Int) (r : URec) : Bool :=
  0 ≤ r.pos && 0 ≤ r.erased && 0 ≤ r.inserted &&
  r.pos + r.erased ≤ (c.length : Int) &&
  (r.undobuf.length : Int) = r.erased && (r.redobuf.length : Int) = r.inserted &&
  r.undobuf = (c.drop r.pos.toNat).take r.erased.toNat

/-- Every record of the list is good at the content state it applies to. -/
def validLog : List Int → List URec → Bool
  | _, [] => true
  | c, r :: rs => goodRec c r && validLog (redo_apply c r) rs

/-- The content after applying a list of records in order. -/
def chain (c : List Int) (rs : List URec) : List Int :=
  rs.foldl redo_apply c

/-- The editor is consistent with a base content and its own log: the log
is valid from that base and the current content is the chain of the first
undoIdx records. -/
def Reaches (base : List Int) (ed : Editor) : Prop :=
  validLog base ed.records = true ∧ ed.undoIdx ≤ ed.records.length ∧
  cnt ed.buf = chain base (ed.records.take ed.undoIdx)

/-! ### Operation dispatch for the cursor-invariant claims -/

/-- The document operations reachable from the key dispatch that this
development quantifies over. -/
inductive Op where
  | up (s : Bool) | down (s : Bool) | left (s : Bool) | right (s : Bool)
  | wordleft (s : Bool) | wordright (s : Bool)
  | home (s : Bool) | end_ (s : Bool) | top (s : Bool) | bottom (s : Bool)
  | pageup (s : Bool) | pagedown (s : Bool)
  | insert_char (ch : Int) | newline | backspace | del
  | select_all | paste (clip : List Int) | undo | redo
  deriving Repr, DecidableEq

def apply_op (env : Env) (ed : Editor) : Op → Editor
  | .up s => up env ed s
  | .down s => down env ed s
  | .left s => left env ed s
  | .right s => right env ed s
  | .wordleft s => wordleft env ed s
  | .wordright s => wordright env ed s
  | .home s => home env ed s
  | .end_ s => end_ env ed s
  | .top s => top env ed s
  | .bottom s => bottom env ed s
  | .pageup s => pageup env ed s
  | .pagedown s => pagedown env ed s
  | .insert_char ch => insert_char env ed ch
  | .newline => newline env ed
  | .backspace => backspace env ed
  | .del => del env ed
  | .select_all => select_all env ed
  | .paste clip => paste_selection env ed clip
  | .undo => undo env ed
  | .redo => redo env ed

def run_ops (env : Env) (ed : Editor) (ops : List Op) : Editor :=
  ops.foldl (apply_op env) ed

/-! ### Invariant vocabulary and loop measures -/

/-- The line-start invariant of the cursor: linepos is 0 or sits right after
a newline. -/
@[reducible] def CursorOK (ed : Editor) : Prop :=
  ed.linepos = 0 ∨ get ed.buf (ed.linepos - 1) = 10

/-- The column invariant of the cursor: col does not exceed the length of
the current line. -/
@[reducible] def ColOK (ed : Editor) : Prop :=
  ed.col ≤ line_length ed.buf ed.linepos

/-- No carriage-return byte in the content. -/
def noCR (c : List Int) : Bool :=
  c.all (fun ch => ch ≠ 13)

/-- The documented well-formedness of a document state: nonnegative cursor
fields, the cursor inside the text, the two cursor invariants, and an anchor
that is either cleared or a position in range. -/
@[reducible] def WF (ed : Editor) : Prop :=
  0 ≤ ed.linepos ∧ 0 ≤ ed.col ∧ 0 ≤ ed.lastcol ∧
  ed.linepos + ed.col ≤ text_length ed.buf ∧
  CursorOK ed ∧ ColOK ed ∧
  (ed.anchor = -1 ∨ (0 ≤ ed.anchor ∧ ed.anchor ≤ text_length ed.buf))

/-- A strictly decreasing measure for the moveto loop. -/
def mv_meas (ed : Editor) (pos : Int) : Nat :=
  if pos < ed.linepos then ed.linepos.toNat + pos.toNat + 3
  else (pos - ed.linepos).toNat + (if ed.linepos + ed.col = pos then 0 else 1)

/-- The cursor well-formedness the amended cursor-invariant theorem
propagates: nonnegative cursor fields, the cursor inside the text, and the
two claimed invariants (line start and column bound). -/
@[reducible] def CursorWF (ed : Editor) : Prop :=
  0 ≤ ed.linepos ∧ 0 ≤ ed.col ∧ 0 ≤ ed.lastcol ∧
  ed.linepos + ed.col ≤ text_length ed.buf ∧ CursorOK ed ∧ ColOK ed

/-- Payload side condition of an operation: pasted clipboard bytes carry no
carriage return (the clipboard is filled from such a document). -/
@[reducible] def OpOK : Op → Prop
  | .paste clip => noCR clip = true
  | _ => True

/-! ### Content lemmas for the buffer layer -/

theorem nth_eq_getD (l : List Int) (n : Nat) : nth l n = if n < l.length then l.getD n 0 else -1 := by
  induction l generalizing n with
  | nil => simp [nth]
  | cons a t ih =>
    cases n with
    | zero => simp [nth]
    | succ m => simpa [nth, Nat.succ_lt_succ_iff] using ih m

theorem nth_append_left (l₁ l₂ : List Int) (n : Nat) (h : n < l₁.length) :
    nth (l₁ ++ l₂) n = nth l₁ n := by
  induction l₁ generalizing n with
  | nil => simp at h
  | cons a t ih =>
    cases n with
    | zero => simp [nth]
    | succ m => simp only [List.cons_append, nth]; exact ih m (by simpa using h)

theorem nth_append_right (l₁ l₂ : List Int) (n : Nat) (h : l₁.length ≤ n) :
    nth (l₁ ++ l₂) n = nth l₂ (n - l₁.length) := by
  induction l₁ generalizing n with
  | nil => simp
  | cons a t ih =>
    cases n with
    | zero => simp at h
    | succ m =>
      simp only [List.cons_append, nth, List.length_cons]
      have h2 : t.length ≤ m := by simp only [List.length_cons] at h; omega
      simpa [Nat.succ_sub_succ] using ih m h2

theorem cnt_move_gap (b : Buf) (pos minsize : Int) :
    cnt (move_gap b pos minsize) = cnt b := by
  unfold move_gap
  by_cases h1 : (if minsize < 0 then 0 else minsize.toNat) ≤ b.gapLen
  · simp only [h1, if_true]
    by_cases h2 : pos.toNat = b.pre.length
    · simp [h2]
    · simp [h2, cnt, List.take_append_drop]
  · simp [h1, cnt, List.take_append_drop]

theorem text_length_eq (b : Buf) : text_length b = ((cnt b).length : Int) := by
  simp [text_length, cnt]

theorem pre_move_gap (b : Buf) (pos minsize : Int) :
    (move_gap b pos minsize).pre = (cnt b).take pos.toNat := by
  unfold move_gap
  by_cases h1 : (if minsize < 0 then 0 else minsize.toNat) ≤ b.gapLen
  · simp only [h1, if_true]
    by_cases h2 : pos.toNat = b.pre.length
    · simp [h2, cnt, List.take_left]
    · simp [h2]
  · simp [h1]

theorem suf_move_gap (b : Buf) (pos minsize : Int) :
    (move_gap b pos minsize).suf = (cnt b).drop pos.toNat := by
  unfold move_gap
  by_cases h1 : (if minsize < 0 then 0 else minsize.toNat) ≤ b.gapLen
  · simp only [h1, if_true]
    by_cases h2 : pos.toNat = b.pre.length
    · simp [h2, cnt, List.drop_left]
    · simp [h2]
  · simp [h1]

/-- Central content lemma: a valid replace produces exactly the spliced
logical content. -/
theorem cnt_buf_replace (b : Buf) (pos len : Int) (ins : List Int)
    (h0 : 0 ≤ pos) (h1 : pos + len ≤ text_length b) (hl : 0 ≤ len) :
    cnt (buf_replace b pos len ins) =
      (cnt b).take pos.toNat ++ ins ++ (cnt b).drop (pos.toNat + len.toNat) := by
  have hlen : pos.toNat + len.toNat ≤ (cnt b).length := by
    have := text_length_eq b
    omega
  unfold buf_replace
  by_cases hc : ins.length = 0 ∧ pos.toNat ≤ b.pre.length ∧ b.pre.length ≤ pos.toNat + len.toNat
  · obtain ⟨hi, hp1, hp2⟩ := hc
    have hins : ins = [] := List.length_eq_zero.mp hi
    simp only [hi, hp1, hp2, and_self, if_true, cnt]
    subst hins
    have e1 : b.pre.take pos.toNat = (b.pre ++ b.suf).take pos.toNat := by
      rw [List.take_append_of_le_length hp1]
    have e2 : b.suf.drop (pos.toNat + len.toNat - b.pre.length) =
        (b.pre ++ b.suf).drop (pos.toNat + len.toNat) := by
      rw [List.drop_append_eq_append_drop]
      have : b.pre.drop (pos.toNat + len.toNat) = [] := by
        apply List.drop_eq_nil_of_le; omega
      simp [this]
    rw [e1, e2]; simp [cnt]
  · simp only [hc, if_false]
    have hmv : (pos + len).toNat = pos.toNat + len.toNat := by omega
    have hpre := pre_move_gap b (pos + len) ((ins.length : Int) - len)
    have hsuf := suf_move_gap b (pos + len) ((ins.length : Int) - len)
    simp only [cnt, hpre, hsuf, hmv, List.take_take]
    have hmin : min pos.toNat (pos.toNat + len.toNat) = pos.toNat := by omega
    rw [hmin, List.append_assoc]

theorem length_buf_replace (b : Buf) (pos len : Int) (ins : List Int)
    (h0 : 0 ≤ pos) (h1 : pos + len ≤ text_length b) (hl : 0 ≤ len) :
    text_length (buf_replace b pos len ins) = text_length b - len + ins.length := by
  have h := cnt_buf_replace b pos len ins h0 h1 hl
  have hlen : pos.toNat + len.toNat ≤ (cnt b).length := by
    have := text_length_eq b; omega
  have := text_length_eq (buf_replace b pos len ins)
  rw [this, h]
  simp only [List.length_append, List.length_take, List.length_drop]
  have := text_length_eq b
  omega

/-! ### C10: gap relocation is content preserving -/

theorem get_eq_of_cnt_eq (b b' : Buf) (h : cnt b' = cnt b) (p : Int) :
    get b' p = get b p := by
  unfold get
  rw [h]

/-- C10 statement body, shared by the claim theorem. -/
theorem get_move_gap (b : Buf) (pos need p : Int) :
    get (move_gap b pos need) p = get b p :=
  get_eq_of_cnt_eq _ _ (cnt_move_gap b pos need) p

/-- C10: move_gap (for every position in range and every requested minimum
gap size) and close_gap leave text_length unchanged and leave get(p)
unchanged at every logical position p below the length, whether or not the
reallocation branch is taken. -/
theorem move_gap_close_gap_preserve (b : Buf) (pos need : Int)
    (h0 : 0 ≤ pos) (h1 : pos ≤ text_length b) :
    text_length (move_gap b pos need) = text_length b ∧
    (∀ p : Int, p < text_length b → get (move_gap b pos need) p = get b p) ∧
    text_length (close_gap b) = text_length b ∧
    (∀ p : Int, p < text_length b → get (close_gap b) p = get b p) := by
  refine ⟨?_, fun p _ => get_move_gap b pos need p, ?_, fun p _ => get_move_gap b _ 1 p⟩
  · rw [text_length_eq, text_length_eq, cnt_move_gap]
  · rw [close_gap, text_length_eq, text_length_eq, cnt_move_gap]

/-- Witness for C10 at a concrete buffer, a gap-moving call (no realloc) and
a gap-growing call (realloc); both hypotheses hold and a sample conclusion
instance is evaluated. -/
theorem move_gap_close_gap_preserve_witness :
    (0 ≤ (1 : Int) ∧ (1 : Int) ≤ text_length ⟨[7, 8], 2, [9]⟩) ∧
    text_length (move_gap ⟨[7, 8], 2, [9]⟩ 1 40000) = text_length ⟨[7, 8], 2, [9]⟩ ∧
    get (move_gap ⟨[7, 8], 2, [9]⟩ 1 40000) 2 = get ⟨[7, 8], 2, [9]⟩ 2 ∧
    get (close_gap ⟨[7, 8], 2, [9]⟩) 0 = get ⟨[7, 8], 2, [9]⟩ 0 := by
  have h := move_gap_close_gap_preserve ⟨[7, 8], 2, [9]⟩ 1 40000 (by decide) (by decide)
  exact ⟨⟨by decide, by decide⟩, h.1, h.2.1 2 (by decide), h.2.2.2 0 (by decide)⟩

/-! ### C2: the GapBuffer refines a plain byte string under replace -/

/-- One requested replace operation: erase len bytes at pos, insert ins. -/
structure Edit where
  pos : Int
  len : Int
  ins : List Int
  deriving Repr, DecidableEq

/-- Specification-level splice on a plain byte string: the logical effect
the claim attributes to replace. -/
def applyE (c : List Int) (e : Edit) : List Int :=
  c.take e.pos.toNat ++ e.ins ++ c.drop (e.pos.toNat + e.len.toNat)

/-- The documented constraint on replace: 0 ≤ pos and pos + erase_n ≤ length. -/
def validE (c : List Int) (e : Edit) : Bool :=
  0 ≤ e.pos && 0 ≤ e.len && e.pos + e.len ≤ (c.length : Int)

def validSeq : List Int → List Edit → Bool
  | _, [] => true
  | c, e :: es => validE c e && validSeq (applyE c e) es

def applyBuf (b : Buf) (es : List Edit) : Buf :=
  es.foldl (fun b e => buf_replace b e.pos e.len e.ins) b

def inserted_total (es : List Edit) : Int :=
  (es.map (fun e => ((e.ins.length : Nat) : Int))).sum

def erased_total (es : List Edit) : Int :=
  (es.map (fun e => e.len)).sum

theorem cnt_applyBuf (b : Buf) (es : List Edit) (h : validSeq (cnt b) es = true) :
    cnt (applyBuf b es) = es.foldl applyE (cnt b) := by
  induction es generalizing b with
  | nil => simp [applyBuf]
  | cons e es ih =>
    simp only [validSeq, Bool.and_eq_true] at h
    obtain ⟨hv, hrest⟩ := h
    simp only [validE, Bool.and_eq_true, decide_eq_true_eq] at hv
    have hstep : cnt (buf_replace b e.pos e.len e.ins) = applyE (cnt b) e := by
      rw [cnt_buf_replace b e.pos e.len e.ins hv.1.1 (by rw [text_length_eq]; exact hv.2) hv.1.2]
      rfl
    simp only [applyBuf, List.foldl_cons]
    have := ih (buf_replace b e.pos e.len e.ins) (by rw [hstep]; exact hrest)
    rw [applyBuf] at this
    rw [this, hstep]

/-- C2: for every sequence of valid replace operations on a gap buffer,
the final text_length is the initial length plus total inserted bytes minus
total erased bytes, and reading the whole buffer through copy from 0 yields
exactly the byte string produced by the same splices on a plain list. -/
theorem gapbuffer_abstraction (b : Buf) (es : List Edit)
    (h : validSeq (cnt b) es = true) :
    cnt (applyBuf b es) = es.foldl applyE (cnt b) ∧
    text_length (applyBuf b es) = text_length b + inserted_total es - erased_total es ∧
    copy (applyBuf b es) 0 (text_length (applyBuf b es)) = es.foldl applyE (cnt b) := by
  have hc := cnt_applyBuf b es h
  refine ⟨hc, ?_, ?_⟩
  · induction es generalizing b with
    | nil => simp [applyBuf, inserted_total, erased_total]
    | cons e es ih =>
      simp only [validSeq, Bool.and_eq_true] at h
      obtain ⟨hv, hrest⟩ := h
      simp only [validE, Bool.and_eq_true, decide_eq_true_eq] at hv
      have hstep := length_buf_replace b e.pos e.len e.ins hv.1.1
        (by rw [text_length_eq]; exact hv.2) hv.1.2
      have hcnt : cnt (buf_replace b e.pos e.len e.ins) = applyE (cnt b) e := by
        rw [cnt_buf_replace b e.pos e.len e.ins hv.1.1 (by rw [text_length_eq]; exact hv.2) hv.1.2]
        rfl
      have := ih (buf_replace b e.pos e.len e.ins) (by rw [hcnt]; exact hrest)
        (cnt_applyBuf _ _ (by rw [hcnt]; exact hrest))
      simp only [applyBuf, List.foldl_cons] at this ⊢
      rw [this, hstep]
      simp only [inserted_total, erased_total, List.map_cons, List.sum_cons]
      ring
  · rw [copy, hc]
    have hl := text_length_eq (applyBuf b es)
    rw [hc] at hl
    simp only [Int.toNat_zero, List.drop_zero]
    rw [show (text_length (applyBuf b es)).toNat = (es.foldl applyE (cnt b)).length by omega]
    exact List.take_length _

/-- Witness for C2: two concrete edits on a concrete buffer, hypothesis
checked by evaluation, with an instance of the conclusion. -/
theorem gapbuffer_abstraction_witness :
    validSeq (cnt ⟨[104, 105], 4, [33]⟩) [⟨1, 1, [65, 66]⟩, ⟨0, 2, []⟩] = true ∧
    cnt (applyBuf ⟨[104, 105], 4, [33]⟩ [⟨1, 1, [65, 66]⟩, ⟨0, 2, []⟩]) = [66, 33] := by
  exact ⟨by decide, (gapbuffer_abstraction ⟨[104, 105], 4, [33]⟩ _ (by decide)).1.trans (by decide)⟩

/-! ### C8: document ring rotation -/

/-- C8: opening A, B, C in order (each spliced after the current document)
leaves C current; next-document focuses A, a second next-document focuses B,
and previous-document then focuses A. -/
theorem ring_rotation :
    current_doc (create_editor (create_editor (create_editor ⟨[], 0⟩ "A") "B") "C") = "C" ∧
    current_doc (next_file (create_editor (create_editor (create_editor ⟨[], 0⟩ "A") "B") "C")) = "A" ∧
    current_doc (next_file (next_file (create_editor (create_editor (create_editor ⟨[], 0⟩ "A") "B") "C"))) = "B" ∧
    current_doc (prev_file (next_file (next_file (create_editor (create_editor (create_editor ⟨[], 0⟩ "A") "B") "C")))) = "A" := by
  decide

/-! ### C7: boundary no-ops -/

theorem nth_of_ge (l : List Int) (n : Nat) (h : l.length ≤ n) : nth l n = -1 := by
  rw [nth_eq_getD]
  simp [Nat.not_lt.mpr h]

/-- C7: with no active selection, backspace at absolute position 0 and
forward delete at end of file leave the whole editor state unchanged. -/
theorem boundary_noops (env : Env) (ed : Editor) (hsel : get_selection ed = none) :
    (ed.linepos + ed.col = 0 → backspace env ed = ed) ∧
    (ed.linepos + ed.col = text_length ed.buf → del env ed = ed) := by
  constructor
  · intro h0
    simp [backspace, erase_selection, hsel, h0]
  · intro hend
    have hget : get ed.buf (ed.linepos + ed.col) = -1 := by
      rw [hend, get]
      have hnn : (0 : Int) ≤ text_length ed.buf := by
        rw [text_length]; exact Int.ofNat_nonneg _
      rw [if_neg (by omega)]
      apply nth_of_ge
      have := text_length_eq ed.buf
      omega
    simp [del, erase_selection, hsel, hget]

/-- Witness for C7 on a concrete fresh editor. -/
theorem boundary_noops_witness :
    get_selection mk_editor = none ∧
    backspace ⟨80, 24⟩ mk_editor = mk_editor ∧
    del ⟨80, 24⟩ mk_editor = mk_editor := by
  have h := boundary_noops ⟨80, 24⟩ mk_editor (by decide)
  exact ⟨by decide, h.1 (by decide), h.2 (by decide)⟩

/-! ### C6: prompt cancellation -/

/-- C6 counterexample: cancelling the goto-line prompt clears a live
selection anchor, so dismissal is not free of side effects as claimed. -/
theorem user_cancel_counterexample :
    (goto_line ⟨80, 24⟩ { mk_editor with anchor := 0 } none).anchor ≠
      ({ mk_editor with anchor := 0 } : Editor).anchor := by
  decide

/-- C6 (amended): dismissing the find, open, save-as and pipe prompts with
Esc leaves content, cursor, anchor and dirty flag unchanged; dismissing the
goto-line prompt leaves content, cursor and dirty flag unchanged but resets
the anchor to -1 (the function clears it before prompting). -/
theorem user_cancel_amended (env : Env) (ed : Editor) :
    ((find_text_cancel ed).buf = ed.buf ∧ (find_text_cancel ed).linepos = ed.linepos ∧
      (find_text_cancel ed).col = ed.col ∧ (find_text_cancel ed).anchor = ed.anchor ∧
      (find_text_cancel ed).dirty = ed.dirty) ∧
    ((open_editor_cancel ed).buf = ed.buf ∧ (open_editor_cancel ed).linepos = ed.linepos ∧
      (open_editor_cancel ed).col = ed.col ∧ (open_editor_cancel ed).anchor = ed.anchor ∧
      (open_editor_cancel ed).dirty = ed.dirty) ∧
    ((save_editor_cancel ed).buf = ed.buf ∧ (save_editor_cancel ed).linepos = ed.linepos ∧
      (save_editor_cancel ed).col = ed.col ∧ (save_editor_cancel ed).anchor = ed.anchor ∧
      (save_editor_cancel ed).dirty = ed.dirty) ∧
    ((pipe_command_cancel ed).buf = ed.buf ∧ (pipe_command_cancel ed).linepos = ed.linepos ∧
      (pipe_command_cancel ed).col = ed.col ∧ (pipe_command_cancel ed).anchor = ed.anchor ∧
      (pipe_command_cancel ed).dirty = ed.dirty) ∧
    ((goto_line env ed none).buf = ed.buf ∧ (goto_line env ed none).linepos = ed.linepos ∧
      (goto_line env ed none).col = ed.col ∧ (goto_line env ed none).dirty = ed.dirty ∧
      (goto_line env ed none).anchor = -1) := by
  refine ⟨⟨rfl, rfl, rfl, rfl, rfl⟩, ⟨rfl, rfl, rfl, rfl, rfl⟩, ⟨rfl, rfl, rfl, rfl, rfl⟩,
    ⟨rfl, rfl, rfl, rfl, rfl⟩, ⟨rfl, rfl, rfl, rfl, rfl⟩⟩

/-! ### C9: replace always sets the dirty flag -/

theorem moveto_loop_self (env : Env) (pos : Int) (fuel : Nat) (ed : Editor) (s : Bool)
    (h : pos = ed.linepos + ed.col) :
    moveto_loop env pos fuel ed s = (ed, s) := by
  cases fuel with
  | zero => rfl
  | succ f => simp [moveto_loop, h]

theorem moveto_self (env : Env) (ed : Editor) (c : Bool) :
    moveto env ed (ed.linepos + ed.col) c = ed := by
  rw [moveto, moveto_loop_self env _ _ ed false rfl]
  simp

/-- C9: every call to the replace primitive marks the document dirty, even
when it erases and inserts nothing; in particular pasting an empty shared
clipboard into an unmodified document with no selection marks it dirty and
appends an undo record with empty payloads at the cursor position. -/
theorem replace_sets_dirty (env : Env) (ed : Editor)
    (pos len : Int) (ins : List Int) (doundo : Bool)
    (hsel : get_selection ed = none) (hlog : ed.records = []) (hidx : ed.undoIdx = 0)
    (hdirty : ed.dirty = false) :
    (replace ed pos len ins doundo).dirty = true ∧
    (paste_selection env ed []).dirty = true ∧
    (paste_selection env ed []).records = [⟨ed.linepos + ed.col, 0, 0, [], []⟩] := by
  have hed2 : replace ed (ed.linepos + ed.col) 0 [] true =
      { ed with
        buf := buf_replace ed.buf (ed.linepos + ed.col) 0 []
        records := [⟨ed.linepos + ed.col, 0, 0, [], []⟩]
        undoIdx := 1
        dirty := true } := by
    simp [replace, record_undo, reset_undo, hlog, hidx, copy]
  refine ⟨rfl, ?_, ?_⟩ <;>
  · rw [paste_selection]
    simp only [erase_selection, hsel, List.length_nil, Nat.cast_zero, add_zero]
    rw [hed2]
    rw [moveto_self env _ false]

/-! ### C3: the coalescing scenario -/

/-- C3 counterexample: typing a, b, c into an empty document and pressing
backspace twice does not leave the log the claim describes; the erase
record accumulates its payload in document order, so it reads "bc"
(98, 99), not "cb" (99, 98). -/
theorem undo_coalescing_counterexample :
    (run_ops ⟨80, 24⟩ mk_editor
      [.insert_char 97, .insert_char 98, .insert_char 99, .backspace, .backspace]).records ≠
    [⟨0, 0, 3, [], [97, 98, 99]⟩, ⟨1, 2, 0, [99, 98], []⟩] := by
  decide

/-- C3 (amended): in the scenario the content is "a", col = 1, and the log
holds exactly one coalesced insertion record with pos 0 and payload "abc"
followed by one coalesced erase record with pos 1 whose erased payload is
"bc" (each backspace prepends its erased byte, which keeps the payload in
document order). -/
theorem undo_coalescing_scenario :
    cnt (run_ops ⟨80, 24⟩ mk_editor
      [.insert_char 97, .insert_char 98, .insert_char 99, .backspace, .backspace]).buf = [97] ∧
    (run_ops ⟨80, 24⟩ mk_editor
      [.insert_char 97, .insert_char 98, .insert_char 99, .backspace, .backspace]).col = 1 ∧
    (run_ops ⟨80, 24⟩ mk_editor
      [.insert_char 97, .insert_char 98, .insert_char 99, .backspace, .backspace]).records =
    [⟨0, 0, 3, [], [97, 98, 99]⟩, ⟨1, 2, 0, [98, 99], []⟩] := by
  decide

/-! ### List index helpers for the undo-log proofs -/

theorem nth_take (l : List Int) (n m : Nat) (h : m < n) : nth (l.take n) m = nth l m := by
  induction l generalizing n m with
  | nil => simp
  | cons a t ih =>
    cases n with
    | zero => omega
    | succ k =>
      cases m with
      | zero => simp [nth]
      | succ j => simpa [nth] using ih k j (by omega)

theorem nth_drop (l : List Int) (n m : Nat) : nth (l.drop n) m = nth l (n + m) := by
  induction l generalizing n with
  | nil => simp [nth]
  | cons a t ih =>
    cases n with
    | zero => simp
    | succ k => simpa [nth, Nat.succ_add] using ih k

theorem drop_eq_nth_cons (l : List Int) (n : Nat) (h : n < l.length) :
    l.drop n = nth l n :: l.drop (n + 1) := by
  induction l generalizing n with
  | nil => simp at h
  | cons a t ih =>
    cases n with
    | zero => simp [nth]
    | succ k => simpa [nth] using ih k (by simpa using h)

theorem take_succ_nth (l : List Int) (n : Nat) (h : n < l.length) :
    l.take (n + 1) = l.take n ++ [nth l n] := by
  induction l generalizing n with
  | nil => simp at h
  | cons a t ih =>
    cases n with
    | zero => simp [nth]
    | succ k => simpa [nth] using ih k (by simpa using h)

/-! ### Algebra of undo records -/

theorem goodRec_iff (c : List Int) (r : URec) :
    goodRec c r = true ↔
      0 ≤ r.pos ∧ 0 ≤ r.erased ∧ 0 ≤ r.inserted ∧
      r.pos + r.erased ≤ (c.length : Int) ∧
      (r.undobuf.length : Int) = r.erased ∧ (r.redobuf.length : Int) = r.inserted ∧
      r.undobuf = (c.drop r.pos.toNat).take r.erased.toNat := by
  simp [goodRec, and_assoc]

theorem length_redo_apply (c : List Int) (r : URec) (h : goodRec c r = true) :
    ((redo_apply c r).length : Int) = (c.length : Int) - r.erased + r.inserted := by
  rw [goodRec_iff] at h
  obtain ⟨hp, he, hi, hb, hu, hr, _⟩ := h
  rw [redo_apply]
  simp only [List.length_append, List.length_take, List.length_drop]
  have : (r.pos + r.erased).toNat = r.pos.toNat + r.erased.toNat := by omega
  omega

theorem undo_redo_cancel (c : List Int) (r : URec) (h : goodRec c r = true) :
    undo_apply (redo_apply c r) r = c := by
  rw [goodRec_iff] at h
  obtain ⟨hp, he, hi, hb, hu, hr, hslice⟩ := h
  have hple : r.pos.toNat ≤ c.length := by omega
  have htlen : (c.take r.pos.toNat).length = r.pos.toNat := by
    simp [List.length_take]; omega
  rw [undo_apply, redo_apply]
  have h1 : (c.take r.pos.toNat ++ r.redobuf ++ c.drop (r.pos + r.erased).toNat).take r.pos.toNat
      = c.take r.pos.toNat := by
    rw [List.append_assoc, List.take_append_of_le_length (by omega), List.take_take]
    congr 1; omega
  have h2 : (c.take r.pos.toNat ++ r.redobuf ++ c.drop (r.pos + r.erased).toNat).drop
      (r.pos + r.inserted).toNat = c.drop (r.pos + r.erased).toNat := by
    have hlen2 : (c.take r.pos.toNat ++ r.redobuf).length = (r.pos + r.inserted).toNat := by
      simp [List.length_append, htlen]; omega
    rw [List.append_assoc]
    rw [show c.take r.pos.toNat ++ (r.redobuf ++ c.drop (r.pos + r.erased).toNat)
        = (c.take r.pos.toNat ++ r.redobuf) ++ c.drop (r.pos + r.erased).toNat by
      rw [List.append_assoc]]
    rw [List.drop_append_of_le_length (le_of_eq hlen2.symm), ← hlen2, List.drop_length]
    simp
  rw [h1, h2, hslice]
  have h3 : (c.drop r.pos.toNat).take r.erased.toNat ++ c.drop (r.pos + r.erased).toNat
      = c.drop r.pos.toNat := by
    have : (r.pos + r.erased).toNat = r.pos.toNat + r.erased.toNat := by omega
    rw [this, ← List.drop_drop]
    exact List.take_append_drop _ _
  rw [List.append_assoc, h3, List.take_append_drop]

theorem chain_cons (c : List Int) (r : URec) (rs : List URec) :
    chain c (r :: rs) = chain (redo_apply c r) rs := rfl

theorem chain_append_one (c : List Int) (rs : List URec) (r : URec) :
    chain c (rs ++ [r]) = redo_apply (chain c rs) r := by
  simp [chain, List.foldl_append]

theorem validLog_concat (base : List Int) (rs : List URec) (t : URec) :
    validLog base (rs ++ [t]) =
      (validLog base rs && goodRec (chain base rs) t) := by
  induction rs generalizing base with
  | nil => simp [validLog, chain]
  | cons r rs ih =>
    simp only [List.cons_append, validLog, chain_cons]
    cases hg : goodRec base r <;> simp [ih]

/-- The record at index k of a valid log is good at the chain of the first
k records, and extends the chain by one application. -/
theorem validLog_step (base : List Int) (rs : List URec) (h : validLog base rs = true)
    (k : Nat) (hk : k < rs.length) :
    goodRec (chain base (rs.take k)) (rs.getD k ⟨0, 0, 0, [], []⟩) = true ∧
    chain base (rs.take (k + 1)) =
      redo_apply (chain base (rs.take k)) (rs.getD k ⟨0, 0, 0, [], []⟩) := by
  induction rs generalizing base k with
  | nil => simp at hk
  | cons r rs ih =>
    simp only [validLog, Bool.and_eq_true] at h
    cases k with
    | zero =>
      simpa [chain] using h.1
    | succ j =>
      have := ih (redo_apply base r) h.2 j (by simpa using hk)
      simpa [chain_cons] using this

theorem validLog_take (base : List Int) (rs : List URec) (h : validLog base rs = true)
    (n : Nat) : validLog base (rs.take n) = true := by
  induction rs generalizing base n with
  | nil => simp [validLog]
  | cons r rs ih =>
    cases n with
    | zero => simp [validLog]
    | succ m =>
      simp only [validLog, Bool.and_eq_true] at h ⊢
      exact ⟨h.1, ih (redo_apply base r) h.2 m⟩

/-! ### moveto leaves the buffer, the log and the bookkeeping flags alone -/

/-- Fields of the editor that the moveto loop never touches. -/
structure MvFrame where
  buf : Buf
  records : List URec
  undoIdx : Nat
  dirty : Bool
  anchor : Int
  lastcol : Int
  margin : Int
  lineupdate : Bool

def mv_frame (ed : Editor) : MvFrame :=
  ⟨ed.buf, ed.records, ed.undoIdx, ed.dirty, ed.anchor, ed.lastcol, ed.margin, ed.lineupdate⟩

theorem moveto_loop_frame (env : Env) (pos : Int) (fuel : Nat) (ed : Editor) (s : Bool) :
    mv_frame (moveto_loop env pos fuel ed s).1 = mv_frame ed := by
  induction fuel generalizing ed s with
  | zero => rfl
  | succ f ih =>
    rw [moveto_loop]
    dsimp only
    split
    · split
      · exact ih _ _
      · split
        · exact ih _ _
        · exact ih _ _
    · split
      · split
        · rfl
        · split
          · exact ih _ _
          · split
            · exact ih _ _
            · exact ih _ _
      · rfl

theorem moveto_frame (env : Env) (ed : Editor) (pos : Int) (c : Bool) :
    mv_frame (moveto env ed pos c) = mv_frame ed := by
  rw [moveto]
  have h := moveto_loop_frame env pos (mv_fuel ed pos) ed false
  dsimp only
  split
  all_goals first
    | exact h
    | (split <;> first
        | exact h
        | (split <;> first
            | exact h
            | (split <;> first
                | exact h
                | (split <;> exact h))))

theorem moveto_buf (env : Env) (ed : Editor) (pos : Int) (c : Bool) :
    (moveto env ed pos c).buf = ed.buf :=
  congrArg MvFrame.buf (moveto_frame env ed pos c)

theorem moveto_records (env : Env) (ed : Editor) (pos : Int) (c : Bool) :
    (moveto env ed pos c).records = ed.records :=
  congrArg MvFrame.records (moveto_frame env ed pos c)

theorem moveto_undoIdx (env : Env) (ed : Editor) (pos : Int) (c : Bool) :
    (moveto env ed pos c).undoIdx = ed.undoIdx :=
  congrArg MvFrame.undoIdx (moveto_frame env ed pos c)

/-! ### Undo and redo preserve the log abstraction -/

theorem replace_false (ed : Editor) (pos len : Int) (ins : List Int) :
    replace ed pos len ins false =
      { ed with buf := buf_replace ed.buf pos len ins, dirty := true } := rfl

theorem undo_eq (env : Env) (ed : Editor) (h : ¬ ed.undoIdx = 0) :
    undo env ed =
      (let r := ed.records.getD (ed.undoIdx - 1) ⟨0, 0, 0, [], []⟩
       let ed1 := moveto env ed r.pos false
       let ed2 := { ed1 with
                    buf := buf_replace ed1.buf r.pos r.inserted r.undobuf
                    dirty := true }
       let ed3 := { ed2 with undoIdx := ed2.undoIdx - 1 }
       let ed4 := if ed3.undoIdx = 0 then { ed3 with dirty := false } else ed3
       { ed4 with refresh := true }) := by
  rw [undo, if_neg h]
  rfl

theorem undo_fields (env : Env) (ed : Editor) (h : ¬ ed.undoIdx = 0) :
    (undo env ed).records = ed.records ∧
    (undo env ed).undoIdx = ed.undoIdx - 1 ∧
    (undo env ed).buf =
      buf_replace ed.buf (ed.records.getD (ed.undoIdx - 1) ⟨0, 0, 0, [], []⟩).pos
        (ed.records.getD (ed.undoIdx - 1) ⟨0, 0, 0, [], []⟩).inserted
        (ed.records.getD (ed.undoIdx - 1) ⟨0, 0, 0, [], []⟩).undobuf := by
  rw [undo_eq env ed h]
  dsimp only
  split <;>
    exact ⟨moveto_records env ed _ false, by rw [moveto_undoIdx env ed _ false],
      by rw [moveto_buf env ed _ false]⟩

theorem undo_step (env : Env) (base : List Int) (ed : Editor) (h : Reaches base ed)
    (hk : 0 < ed.undoIdx) :
    Reaches base (undo env ed) ∧ (undo env ed).records = ed.records ∧
    (undo env ed).undoIdx = ed.undoIdx - 1 := by
  obtain ⟨hv, hle, hc⟩ := h
  have hki : ¬ ed.undoIdx = 0 := by omega
  obtain ⟨hrec, hidx, hbuf⟩ := undo_fields env ed hki
  have hstep := validLog_step base ed.records hv (ed.undoIdx - 1) (by omega)
  rw [show ed.undoIdx - 1 + 1 = ed.undoIdx by omega] at hstep
  obtain ⟨hgood, hchain⟩ := hstep
  set r := ed.records.getD (ed.undoIdx - 1) ⟨0, 0, 0, [], []⟩ with hrd
  set c0 := chain base (ed.records.take (ed.undoIdx - 1)) with hc0
  have hgood' := hgood
  rw [goodRec_iff] at hgood'
  obtain ⟨hp, he, hi, hb, hu, hrl, hslice⟩ := hgood'
  have hcur : cnt ed.buf = redo_apply c0 r := by rw [hc]; exact hchain
  have hlen : ((cnt ed.buf).length : Int) = (c0.length : Int) - r.erased + r.inserted := by
    rw [hcur]; exact length_redo_apply _ _ hgood
  have hval1 : r.pos + r.inserted ≤ text_length ed.buf := by
    rw [text_length_eq]; omega
  have hresbuf : cnt (buf_replace ed.buf r.pos r.inserted r.undobuf) = c0 := by
    rw [cnt_buf_replace _ _ _ _ hp hval1 hi]
    rw [show (cnt ed.buf).take r.pos.toNat ++ r.undobuf ++
          (cnt ed.buf).drop (r.pos.toNat + r.inserted.toNat) =
        undo_apply (cnt ed.buf) r by
      rw [undo_apply, show (r.pos + r.inserted).toNat = r.pos.toNat + r.inserted.toNat by omega]]
    rw [hcur, undo_redo_cancel c0 r hgood]
  refine ⟨⟨?_, ?_, ?_⟩, hrec, hidx⟩
  · rw [hrec]; exact hv
  · rw [hrec, hidx]; omega
  · rw [hrec, hidx, congrArg cnt hbuf, hresbuf, hc0]

theorem redo_eq (env : Env) (ed : Editor) (h : ed.undoIdx < ed.records.length) :
    redo env ed =
      (let r := ed.records.getD ed.undoIdx ⟨0, 0, 0, [], []⟩
       let ed1 := { ed with undoIdx := ed.undoIdx + 1 }
       let ed2 := { ed1 with
                    buf := buf_replace ed1.buf r.pos r.erased r.redobuf
                    dirty := true }
       let ed3 := moveto env ed2 r.pos false
       { ed3 with dirty := true, refresh := true }) := by
  rcases Nat.eq_zero_or_pos ed.undoIdx with h0 | h0
  · rw [redo]
    rw [if_neg (show ¬ ed.undoIdx > 0 by omega)]
    rw [if_neg (show ¬ ed.records.length = 0 by omega)]
    rw [show ed.undoIdx = 0 from h0]
    rfl
  · rw [redo]
    rw [if_pos (show ed.undoIdx > 0 from h0)]
    rw [if_neg (show ¬ ed.undoIdx = ed.records.length by omega)]
    rfl

theorem redo_fields (env : Env) (ed : Editor) (h : ed.undoIdx < ed.records.length) :
    (redo env ed).records = ed.records ∧
    (redo env ed).undoIdx = ed.undoIdx + 1 ∧
    (redo env ed).buf =
      buf_replace ed.buf (ed.records.getD ed.undoIdx ⟨0, 0, 0, [], []⟩).pos
        (ed.records.getD ed.undoIdx ⟨0, 0, 0, [], []⟩).erased
        (ed.records.getD ed.undoIdx ⟨0, 0, 0, [], []⟩).redobuf := by
  rw [redo_eq env ed h]
  dsimp only
  refine ⟨?_, ?_, ?_⟩
  · rw [moveto_records]
  · rw [moveto_undoIdx]
  · rw [moveto_buf]

theorem redo_step (env : Env) (base : List Int) (ed : Editor) (h : Reaches base ed)
    (hk : ed.undoIdx < ed.records.length) :
    Reaches base (redo env ed) ∧ (redo env ed).records = ed.records ∧
    (redo env ed).undoIdx = ed.undoIdx + 1 := by
  obtain ⟨hv, hle, hc⟩ := h
  obtain ⟨hrec, hidx, hbuf⟩ := redo_fields env ed hk
  have hstep := validLog_step base ed.records hv ed.undoIdx hk
  obtain ⟨hgood, hchain⟩ := hstep
  set r := ed.records.getD ed.undoIdx ⟨0, 0, 0, [], []⟩ with hrd
  have hgood' := hgood
  rw [← hc] at hgood'
  rw [goodRec_iff] at hgood'
  obtain ⟨hp, he, hi, hb, hu, hrl, hslice⟩ := hgood'
  have hresbuf : cnt (buf_replace ed.buf r.pos r.erased r.redobuf) =
      redo_apply (cnt ed.buf) r := by
    rw [cnt_buf_replace _ _ _ _ hp (by rw [text_length_eq]; omega) he]
    rw [redo_apply, show (r.pos + r.erased).toNat = r.pos.toNat + r.erased.toNat by omega]
  refine ⟨⟨?_, ?_, ?_⟩, hrec, hidx⟩
  · rw [hrec]; exact hv
  · rw [hrec, hidx]; omega
  · rw [hrec, hidx, congrArg cnt hbuf, hresbuf, hc, hchain]

theorem undoN_reaches (env : Env) (base : List Int) :
    ∀ (n : Nat) (ed : Editor), Reaches base ed → n ≤ ed.undoIdx →
      Reaches base (undoN env n ed) ∧ (undoN env n ed).records = ed.records ∧
      (undoN env n ed).undoIdx = ed.undoIdx - n := by
  intro n
  induction n with
  | zero => intro ed h _; exact ⟨h, rfl, rfl⟩
  | succ m ih =>
    intro ed h hn
    have hstep := undo_step env base ed h (by omega)
    have := ih (undo env ed) hstep.1 (by omega)
    refine ⟨this.1, ?_, ?_⟩
    · rw [undoN, this.2.1, hstep.2.1]
    · rw [undoN, this.2.2, hstep.2.2]; omega

theorem redoN_reaches (env : Env) (base : List Int) :
    ∀ (n : Nat) (ed : Editor), Reaches base ed → ed.undoIdx + n ≤ ed.records.length →
      Reaches base (redoN env n ed) ∧ (redoN env n ed).records = ed.records ∧
      (redoN env n ed).undoIdx = ed.undoIdx + n := by
  intro n
  induction n with
  | zero => intro ed h _; exact ⟨h, rfl, rfl⟩
  | succ m ih =>
    intro ed h hn
    have hstep := redo_step env base ed h (by omega)
    have := ih (redo env ed) hstep.1 (by rw [hstep.2.1, hstep.2.2]; omega)
    refine ⟨this.1, ?_, ?_⟩
    · rw [redoN, this.2.1, hstep.2.1]
    · rw [redoN, this.2.2, hstep.2.2]; omega

/-! ### A user-level replace preserves the log abstraction -/

theorem reset_undo_tail (ed : Editor) (h : ed.undoIdx = ed.records.length) :
    reset_undo ed = ed := by
  unfold reset_undo
  rw [h, List.take_length]
  cases ed
  simp_all

theorem record_undo_buf (ed : Editor) (pos len : Int) (ins : List Int) :
    (record_undo ed pos len ins).buf = ed.buf := by
  unfold record_undo
  dsimp only
  split
  · split_ifs <;> rfl
  · rfl

theorem replace_true_buf (ed : Editor) (pos len : Int) (ins : List Int) :
    (replace ed pos len ins true).buf = buf_replace ed.buf pos len ins := by
  show (buf_replace (record_undo ed pos len ins).buf pos len ins) = _
  rw [record_undo_buf]

theorem length_copy (b : Buf) (pos len : Int) (h0 : 0 ≤ pos) (hl : 0 ≤ len)
    (h1 : pos + len ≤ text_length b) : (copy b pos len).length = len.toNat := by
  have := text_length_eq b
  simp only [copy, List.length_take, List.length_drop]
  omega

theorem goodRec_fresh (b : Buf) (pos len : Int) (ins : List Int)
    (h0 : 0 ≤ pos) (hl : 0 ≤ len) (h1 : pos + len ≤ text_length b) :
    goodRec (cnt b) ⟨pos, len, (ins.length : Int), copy b pos len, ins⟩ = true := by
  have := text_length_eq b
  rw [goodRec_iff]
  dsimp only
  refine ⟨h0, hl, Int.ofNat_nonneg _, by omega, ?_, by simp, ?_⟩
  · rw [length_copy b pos len h0 hl h1]; omega
  · rfl

theorem redo_apply_eq_splice (b : Buf) (pos len : Int) (ins : List Int) (u : List Int)
    (h0 : 0 ≤ pos) (hl : 0 ≤ len) (h1 : pos + len ≤ text_length b) :
    redo_apply (cnt b) ⟨pos, len, (ins.length : Int), u, ins⟩ =
      cnt (buf_replace b pos len ins) := by
  rw [cnt_buf_replace b pos len ins h0 h1 hl, redo_apply]
  simp only
  rw [show (pos + len).toNat = pos.toNat + len.toNat by omega]

theorem user_replace_reaches (env : Env) (base : List Int) (ed : Editor)
    (pos len : Int) (ins : List Int)
    (h : Reaches base ed) (hidx : ed.undoIdx = ed.records.length)
    (h0 : 0 ≤ pos) (hl : 0 ≤ len) (h1 : pos + len ≤ text_length ed.buf) :
    Reaches base (replace ed pos len ins true) ∧
    (replace ed pos len ins true).undoIdx = (replace ed pos len ins true).records.length ∧
    0 < (replace ed pos len ins true).records.length ∧
    ((replace ed pos len ins true).records =
        ed.records ++ [⟨pos, len, (ins.length : Int), copy ed.buf pos len, ins⟩] ∨
      (replace ed pos len ins true).records.length = ed.records.length) := by
  obtain ⟨hv, hle, hc⟩ := h
  have hre : reset_undo ed = ed := reset_undo_tail ed hidx
  have hcur : cnt ed.buf = chain base ed.records := by
    rw [hc, hidx, List.take_length]
  have hbuf : (replace ed pos len ins true).buf = buf_replace ed.buf pos len ins :=
    replace_true_buf ed pos len ins
  have hrecs : (replace ed pos len ins true).records = (record_undo ed pos len ins).records := rfl
  have hridx : (replace ed pos len ins true).undoIdx = (record_undo ed pos len ins).undoIdx := rfl
  rcases List.eq_nil_or_concat ed.records with hnil | ⟨rs0, t, hcat0⟩
  · -- empty log: a fresh record is appended
    have hfresh : record_undo ed pos len ins =
        { ed with
          records := [⟨pos, len, (ins.length : Int), copy ed.buf pos len, ins⟩]
          undoIdx := 1 } := by
      unfold record_undo
      rw [hre]
      dsimp only
      rw [hnil]
      rfl
    have hbase : base = cnt ed.buf := by rw [hcur, hnil]; rfl
    refine ⟨⟨?_, ?_, ?_⟩, ?_, ?_, ?_⟩
    · rw [hrecs, hfresh]
      simp only [validLog, Bool.and_eq_true]
      exact ⟨by rw [hbase]; exact goodRec_fresh ed.buf pos len ins h0 hl h1, trivial⟩
    · rw [hrecs, hridx, hfresh]
      simp
    · rw [hrecs, hridx, hfresh, congrArg cnt hbuf]
      show cnt (buf_replace ed.buf pos len ins) =
        chain base (List.take 1 [(⟨pos, len, (ins.length : Int), copy ed.buf pos len, ins⟩ : URec)])
      rw [show List.take 1 [(⟨pos, len, (ins.length : Int), copy ed.buf pos len, ins⟩ : URec)] =
        [(⟨pos, len, (ins.length : Int), copy ed.buf pos len, ins⟩ : URec)] from rfl]
      show cnt (buf_replace ed.buf pos len ins) =
        redo_apply base ⟨pos, len, (ins.length : Int), copy ed.buf pos len, ins⟩
      rw [hbase, redo_apply_eq_splice ed.buf pos len ins _ h0 hl h1]
    · rw [hrecs, hridx, hfresh]
      simp
    · rw [hrecs, hfresh]
      simp
    · left
      rw [hrecs, hfresh, hnil]
      rfl
  · -- nonempty log: records = rs0 ++ [t]
    have hcat : ed.records = rs0 ++ [t] := by rw [hcat0, List.concat_eq_append]
    have hgl : ed.records.getLast? = some t := by rw [hcat]; simp
    have hdl : ed.records.dropLast = rs0 := by rw [hcat]; simp
    have hvsplit : validLog base rs0 = true ∧ goodRec (chain base rs0) t = true := by
      have := hv
      rw [hcat, validLog_concat, Bool.and_eq_true] at this
      exact this
    set c0 := chain base rs0 with hc0
    have hcur2 : cnt ed.buf = redo_apply c0 t := by
      rw [hcur, hcat, chain_append_one]
    have hg := hvsplit.2
    rw [goodRec_iff] at hg
    obtain ⟨tp, te, ti, tb, tu, trl, tslice⟩ := hg
    have hclen : ((cnt ed.buf).length : Int) = (c0.length : Int) - t.erased + t.inserted := by
      rw [hcur2]; exact length_redo_apply _ _ hvsplit.2
    have hlen_eq := text_length_eq ed.buf
    by_cases hc1 : len = 0 ∧ ins.length = 1 ∧ t.erased = 0 ∧ pos = t.pos + t.inserted
    · -- append-insert coalescing
      obtain ⟨e0, i1, te0, hpos⟩ := hc1
      have heq : record_undo ed pos len ins =
          { ed with records := rs0 ++
              [{ t with redobuf := t.redobuf ++ ins, inserted := t.inserted + 1 }] } := by
        unfold record_undo
        rw [hre]
        dsimp only
        rw [hgl, hdl]
        dsimp only
        rw [if_pos ⟨e0, i1, te0, hpos⟩]
      set t1 : URec := { t with redobuf := t.redobuf ++ ins, inserted := t.inserted + 1 } with ht1
      have hrecords : (replace ed pos len ins true).records = rs0 ++ [t1] := by
        rw [hrecs, heq]
      have hundoIdx : (replace ed pos len ins true).undoIdx = ed.undoIdx := by
        rw [hridx, heq]
      have hlen1 : (rs0 ++ [t1]).length = ed.records.length := by rw [hcat]; simp
      have hgood1 : goodRec c0 t1 = true := by
        rw [goodRec_iff]
        refine ⟨tp, te, by dsimp only [ht1]; omega, tb, tu, ?_, tslice⟩
        simp only [ht1, List.length_append, i1]
        push_cast
        omega
      have hA : (c0.take t.pos.toNat).length = t.pos.toNat := by
        simp only [List.length_take]
        omega
      have hsplice : cnt (buf_replace ed.buf pos len ins) = redo_apply c0 t1 := by
        rw [cnt_buf_replace ed.buf pos len ins h0 h1 hl]
        rw [hcur2]
        simp only [redo_apply, ht1, te0, add_zero, e0, Int.toNat_zero]
        have hRlen : t.redobuf.length = t.inserted.toNat := by omega
        have hposn : pos.toNat = t.pos.toNat + t.inserted.toNat := by omega
        rw [hposn]
        rw [List.take_left' (by simp [hA, hRlen]), List.drop_left' (by simp [hA, hRlen])]
        simp [List.append_assoc]
      refine ⟨⟨?_, ?_, ?_⟩, ?_, by rw [hrecords]; simp, Or.inr ?_⟩
      · rw [hrecords, validLog_concat, Bool.and_eq_true]
        exact ⟨hvsplit.1, hgood1⟩
      · rw [hrecords, hundoIdx, hidx, hcat]
        simp
      · rw [hrecords, hundoIdx, hidx, hcat]
        rw [show (rs0 ++ [t]).length = (rs0 ++ [t1]).length by simp]
        rw [List.take_length]
        rw [congrArg cnt hbuf, hsplice, chain_append_one]
      · rw [hrecords, hundoIdx, hidx, hcat]
        simp
      · rw [hrecords, hlen1]
    · -- not append-insert
      by_cases hc2 : len = 1 ∧ ins.length = 0 ∧ t.inserted = 0 ∧ pos = t.pos
      · -- append-erase-right coalescing
        obtain ⟨e1, i0, ti0, hpos⟩ := hc2
        have hins : ins = [] := List.length_eq_zero.mp i0
        have hredo : t.redobuf = [] := List.length_eq_zero.mp (by omega)
        have hposle : t.pos.toNat ≤ c0.length := by omega
        have hA : (c0.take t.pos.toNat).length = t.pos.toNat := by
          simp only [List.length_take]; omega
        have hcur3 : cnt ed.buf = c0.take t.pos.toNat ++ c0.drop (t.pos + t.erased).toNat := by
          rw [hcur2, redo_apply, hredo]
          simp
        have hbound : (t.pos + t.erased).toNat < c0.length := by
          rw [hcur3] at hlen_eq
          simp only [List.length_append, List.length_take, List.length_drop] at hlen_eq
          omega
        have hbyte : get ed.buf pos = nth c0 ((t.pos + t.erased).toNat) := by
          rw [get, if_neg (by omega), hcur3, hpos]
          rw [nth_append_right _ _ _ (by omega), hA]
          rw [show t.pos.toNat - t.pos.toNat = 0 by omega, nth_drop]
          simp
        have heq : record_undo ed pos len ins =
            { ed with records := rs0 ++
                [{ t with
                   undobuf := t.undobuf ++ [get ed.buf pos]
                   erased := t.erased + 1 }] } := by
          unfold record_undo
          rw [hre]
          dsimp only
          rw [hgl, hdl]
          dsimp only
          rw [if_neg (by rintro ⟨hx, -, -, -⟩; omega), if_pos ⟨e1, i0, ti0, hpos⟩]
        set t2 : URec := { t with
          undobuf := t.undobuf ++ [get ed.buf pos]
          erased := t.erased + 1 } with ht2
        have hrecords : (replace ed pos len ins true).records = rs0 ++ [t2] := by
          rw [hrecs, heq]
        have hundoIdx : (replace ed pos len ins true).undoIdx = ed.undoIdx := by
          rw [hridx, heq]
        have hlen1 : (rs0 ++ [t2]).length = ed.records.length := by rw [hcat]; simp
        have hgood2 : goodRec c0 t2 = true := by
          rw [goodRec_iff]
          refine ⟨tp, by dsimp only [ht2]; omega, ti, by dsimp only [ht2]; omega, ?_, trl, ?_⟩
          · simp only [ht2, List.length_append, List.length_cons, List.length_nil]
            push_cast
            omega
          · dsimp only [ht2]
            rw [hbyte, tslice]
            rw [show (t.erased + 1).toNat = t.erased.toNat + 1 by omega]
            rw [take_succ_nth _ _ (by simp only [List.length_drop]; omega)]
            rw [nth_drop]
            rw [show t.pos.toNat + t.erased.toNat = (t.pos + t.erased).toNat by omega]
        have hsplice : cnt (buf_replace ed.buf pos len ins) = redo_apply c0 t2 := by
          rw [cnt_buf_replace ed.buf pos len ins h0 h1 hl, hins, hcur3, hpos]
          simp only [redo_apply, ht2, hredo, e1, Int.toNat_one]
          rw [List.take_left' hA]
          rw [List.drop_append_eq_append_drop]
          rw [List.drop_eq_nil_of_le (by omega : (c0.take t.pos.toNat).length ≤ t.pos.toNat + 1)]
          rw [hA, show t.pos.toNat + 1 - t.pos.toNat = 1 by omega]
          rw [List.drop_drop]
          simp only [List.append_nil, List.nil_append]
          congr 2
          omega
        refine ⟨⟨?_, ?_, ?_⟩, ?_, by rw [hrecords]; simp, Or.inr ?_⟩
        · rw [hrecords, validLog_concat, Bool.and_eq_true]
          exact ⟨hvsplit.1, hgood2⟩
        · rw [hrecords, hundoIdx, hidx, hcat]
          simp
        · rw [hrecords, hundoIdx, hidx, hcat]
          rw [show (rs0 ++ [t]).length = (rs0 ++ [t2]).length by simp]
          rw [List.take_length]
          rw [congrArg cnt hbuf, hsplice, chain_append_one]
        · rw [hrecords, hundoIdx, hidx, hcat]
          simp
        · rw [hrecords, hlen1]
      · -- not an append-erase-right either
        by_cases hc3 : len = 1 ∧ ins.length = 0 ∧ t.inserted = 0 ∧ pos = t.pos - 1
        · -- append-erase-left coalescing (backspace)
          obtain ⟨e1, i0, ti0, hpos⟩ := hc3
          have hins : ins = [] := List.length_eq_zero.mp i0
          have hredo : t.redobuf = [] := List.length_eq_zero.mp (by omega)
          have hp1 : 1 ≤ t.pos := by omega
          have hposle : t.pos.toNat ≤ c0.length := by omega
          have hA : (c0.take t.pos.toNat).length = t.pos.toNat := by
            simp only [List.length_take]; omega
          have hcur3 : cnt ed.buf = c0.take t.pos.toNat ++ c0.drop (t.pos + t.erased).toNat := by
            rw [hcur2, redo_apply, hredo]
            simp
          have hbyte : get ed.buf pos = nth c0 (t.pos.toNat - 1) := by
            rw [get, if_neg (by omega), hcur3, hpos]
            rw [show (t.pos - 1).toNat = t.pos.toNat - 1 by omega]
            rw [nth_append_left _ _ _ (by omega)]
            rw [nth_take _ _ _ (by omega)]
          have heq : record_undo ed pos len ins =
              { ed with records := rs0 ++
                  [{ t with
                     pos := t.pos - 1
                     undobuf := get ed.buf pos :: t.undobuf
                     erased := t.erased + 1 }] } := by
            unfold record_undo
            rw [hre]
            dsimp only
            rw [hgl, hdl]
            dsimp only
            rw [if_neg (by rintro ⟨hx, -, -, -⟩; omega),
              if_neg (by rintro ⟨-, -, -, hx⟩; omega), if_pos ⟨e1, i0, ti0, hpos⟩]
          set t3 : URec := { t with
            pos := t.pos - 1
            undobuf := get ed.buf pos :: t.undobuf
            erased := t.erased + 1 } with ht3
          have hrecords : (replace ed pos len ins true).records = rs0 ++ [t3] := by
            rw [hrecs, heq]
          have hundoIdx : (replace ed pos len ins true).undoIdx = ed.undoIdx := by
            rw [hridx, heq]
          have hlen1 : (rs0 ++ [t3]).length = ed.records.length := by rw [hcat]; simp
          have hgood3 : goodRec c0 t3 = true := by
            rw [goodRec_iff]
            refine ⟨by dsimp only [ht3]; omega, by dsimp only [ht3]; omega, ti,
              by dsimp only [ht3]; omega, ?_, trl, ?_⟩
            · simp only [ht3, List.length_cons]
              push_cast
              omega
            · dsimp only [ht3]
              rw [hbyte, tslice]
              rw [show (t.pos - 1).toNat = t.pos.toNat - 1 by omega]
              rw [show (t.erased + 1).toNat = t.erased.toNat + 1 by omega]
              rw [drop_eq_nth_cons c0 (t.pos.toNat - 1) (by omega)]
              rw [show t.pos.toNat - 1 + 1 = t.pos.toNat by omega]
              rfl
          have hsplice : cnt (buf_replace ed.buf pos len ins) = redo_apply c0 t3 := by
            rw [cnt_buf_replace ed.buf pos len ins h0 h1 hl, hins, hcur3, hpos]
            simp only [redo_apply, ht3, hredo, e1, Int.toNat_one]
            rw [show (t.pos - 1).toNat = t.pos.toNat - 1 by omega]
            rw [List.take_append_of_le_length (by omega)]
            rw [List.take_take, show min (t.pos.toNat - 1) t.pos.toNat = t.pos.toNat - 1 by omega]
            rw [show t.pos.toNat - 1 + 1 = t.pos.toNat by omega]
            rw [List.drop_append_eq_append_drop]
            rw [List.drop_eq_nil_of_le (by omega : (c0.take t.pos.toNat).length ≤ t.pos.toNat)]
            rw [hA, show t.pos.toNat - t.pos.toNat = 0 by omega]
            rw [show t.pos - 1 + (t.erased + 1) = t.pos + t.erased by ring]
            simp
          refine ⟨⟨?_, ?_, ?_⟩, ?_, by rw [hrecords]; simp, Or.inr ?_⟩
          · rw [hrecords, validLog_concat, Bool.and_eq_true]
            exact ⟨hvsplit.1, hgood3⟩
          · rw [hrecords, hundoIdx, hidx, hcat]
            simp
          · rw [hrecords, hundoIdx, hidx, hcat]
            rw [show (rs0 ++ [t]).length = (rs0 ++ [t3]).length by simp]
            rw [List.take_length]
            rw [congrArg cnt hbuf, hsplice, chain_append_one]
          · rw [hrecords, hundoIdx, hidx, hcat]
            simp
          · rw [hrecords, hlen1]
        · -- no coalescing applies: a fresh record is appended after the tail
          have heq : record_undo ed pos len ins =
              { ed with
                records := ed.records ++
                  [⟨pos, len, (ins.length : Int), copy ed.buf pos len, ins⟩]
                undoIdx := ed.records.length + 1 } := by
            unfold record_undo
            rw [hre]
            dsimp only
            rw [hgl]
            dsimp only
            rw [if_neg hc1, if_neg hc2, if_neg hc3]
          have hrecords : (replace ed pos len ins true).records =
              ed.records ++ [⟨pos, len, (ins.length : Int), copy ed.buf pos len, ins⟩] := by
            rw [hrecs, heq]
          have hundoIdx : (replace ed pos len ins true).undoIdx = ed.records.length + 1 := by
            rw [hridx, heq]
          refine ⟨⟨?_, ?_, ?_⟩, ?_, by rw [hrecords]; simp, Or.inl hrecords⟩
          · rw [hrecords, validLog_concat, Bool.and_eq_true]
            refine ⟨hv, ?_⟩
            rw [← hcur]
            exact goodRec_fresh ed.buf pos len ins h0 hl h1
          · rw [hrecords, hundoIdx]
            simp
          · rw [hrecords, hundoIdx]
            rw [show ed.records.length + 1 =
              (ed.records ++ [(⟨pos, len, (ins.length : Int), copy ed.buf pos len, ins⟩ : URec)]).length by simp]
            rw [List.take_length, chain_append_one, ← hcur]
            rw [congrArg cnt hbuf]
            rw [redo_apply_eq_splice ed.buf pos len ins _ h0 hl h1]
          · rw [hrecords, hundoIdx]
            simp

/-! ### C1: the undo and redo round trips -/

/-- C1: for every editor state consistent with its undo log (with the undo
pointer at the tail, as after any edit): (a) performing any valid edit and
invoking undo immediately afterwards restores the content from before the
edit recorded in the log - the chain of all records but the last - and when
the edit opened a fresh record (no coalescing) this is exactly the pre-edit
byte sequence; (b) undoing the last n records and then redoing n times
restores exactly the current content. -/
theorem undo_redo_roundtrip (env : Env) (base : List Int) (ed : Editor)
    (h : Reaches base ed) (hidx : ed.undoIdx = ed.records.length) :
    (∀ pos len ins, 0 ≤ pos → 0 ≤ len → pos + len ≤ text_length ed.buf →
      cnt (undo env (replace ed pos len ins true)).buf =
        chain base ((replace ed pos len ins true).records.dropLast) ∧
      ((replace ed pos len ins true).records.length = ed.records.length + 1 →
        cnt (undo env (replace ed pos len ins true)).buf = cnt ed.buf)) ∧
    (∀ n, n ≤ ed.undoIdx → cnt (redoN env n (undoN env n ed)).buf = cnt ed.buf) := by
  constructor
  · intro pos len ins h0 hl h1
    obtain ⟨hR, hIdx, hPos, hDisj⟩ := user_replace_reaches env base ed pos len ins h hidx h0 hl h1
    have hu := undo_step env base (replace ed pos len ins true) hR (by omega)
    obtain ⟨⟨hv', hle', hc'⟩, hrec', hidx'⟩ := hu
    have hmain : cnt (undo env (replace ed pos len ins true)).buf =
        chain base ((replace ed pos len ins true).records.dropLast) := by
      rw [hc', hrec', hidx', hIdx]
      rw [List.dropLast_eq_take]
    refine ⟨hmain, ?_⟩
    intro hgrow
    rcases hDisj with hfreshrec | hsame
    · rw [hmain, hfreshrec, List.dropLast_concat]
      obtain ⟨-, -, hcont⟩ := h
      rw [hcont, hidx, List.take_length]
    · omega
  · intro n hn
    obtain ⟨hRu, hrecu, hidxu⟩ := undoN_reaches env base n ed h hn
    have hr2 := redoN_reaches env base n (undoN env n ed) hRu
      (by rw [hrecu, hidxu]; omega)
    obtain ⟨⟨-, -, hcont2⟩, hrec2, hidx2⟩ := hr2
    rw [hcont2, hidx2, hidxu, hrec2, hrecu]
    rw [show ed.undoIdx - n + n = ed.undoIdx by omega]
    obtain ⟨-, -, hcont⟩ := h
    rw [hcont]

/-- Witness for C1 on a concrete one-record editor: the hypotheses hold by
evaluation and both round-trip conclusions are instantiated. -/
theorem undo_redo_roundtrip_witness :
    Reaches []
      (⟨⟨[97], 5, []⟩, 0, 0, 0, 0, 0, 1, 1, -1, [⟨0, 0, 1, [], [97]⟩], 1,
        false, false, true⟩ : Editor) ∧
    cnt (redoN ⟨80, 24⟩ 1 (undoN ⟨80, 24⟩ 1
      (⟨⟨[97], 5, []⟩, 0, 0, 0, 0, 0, 1, 1, -1, [⟨0, 0, 1, [], [97]⟩], 1,
        false, false, true⟩ : Editor))).buf = [97] ∧
    cnt (undo ⟨80, 24⟩ (replace
      (⟨⟨[97], 5, []⟩, 0, 0, 0, 0, 0, 1, 1, -1, [⟨0, 0, 1, [], [97]⟩], 1,
        false, false, true⟩ : Editor) 0 0 [98] true)).buf = [97] := by
  have h := undo_redo_roundtrip ⟨80, 24⟩ []
    (⟨⟨[97], 5, []⟩, 0, 0, 0, 0, 0, 1, 1, -1, [⟨0, 0, 1, [], [97]⟩], 1,
      false, false, true⟩ : Editor)
    (by refine ⟨by decide, by decide, by decide⟩) (by decide)
  refine ⟨⟨by decide, by decide, by decide⟩, ?_, ?_⟩
  · have := h.2 1 (by decide)
    rw [this]
    decide
  · have := (h.1 0 0 [98] (by decide) (by decide) (by decide)).2 (by decide)
    rw [this]
    decide

/-- Witness for C9 on a fresh untitled document. -/
theorem replace_sets_dirty_witness :
    (paste_selection ⟨80, 24⟩ mk_editor []).dirty = true ∧
    (paste_selection ⟨80, 24⟩ mk_editor []).records = [⟨0, 0, 0, [], []⟩] := by
  have h := replace_sets_dirty ⟨80, 24⟩ mk_editor 0 0 [] true
    (by decide) (by decide) (by decide) (by decide)
  exact ⟨h.2.1, h.2.2.trans (by decide)⟩

/-! ### Line-scan specifications -/

theorem scan_next_ne (l : List Int) (p k : Nat) (hk : k < l.length) (h10 : nth l k = 10) :
    scan_next l p ≠ -1 := by
  induction l generalizing p k with
  | nil => simp at hk
  | cons a t ih =>
    rw [scan_next]
    split
    · intro hx
      omega
    · cases k with
      | zero => simp [nth] at h10; simp_all
      | succ m => exact ih (p + 1) m (by simpa using hk) h10

theorem scan_next_spec (l : List Int) (p : Nat) :
    scan_next l p = -1 ∨
    ∃ k : Nat, scan_next l p = ((p + k + 1 : Nat) : Int) ∧ k < l.length ∧
      nth l k = 10 ∧ ∀ i, i < k → nth l i ≠ 10 := by
  induction l generalizing p with
  | nil => left; rfl
  | cons a t ih =>
    rw [scan_next]
    split
    · right
      refine ⟨0, by norm_num, by simp, by simpa [nth], by omega⟩
    · rcases ih (p + 1) with h | ⟨k, hr, hk, h10, hbefore⟩
      · left; exact h
      · right
        refine ⟨k + 1, by rw [hr]; congr 1; omega, by simpa using hk, h10, ?_⟩
        intro i hi
        cases i with
        | zero => simpa [nth] using (by assumption : ¬ a = 10)
        | succ m => exact hbefore m (by omega)

theorem next_line_spec (b : Buf) (p : Int) (h : 0 ≤ p) :
    next_line b p = -1 ∨
    (p + 1 ≤ next_line b p ∧ next_line b p ≤ text_length b ∧
      nth (cnt b) ((next_line b p).toNat - 1) = 10) := by
  rw [next_line, if_neg (by omega)]
  rcases scan_next_spec ((cnt b).drop p.toNat) p.toNat with hs | ⟨k, hr, hk, h10, -⟩
  · left; exact hs
  · right
    rw [hr]
    have hlen := text_length_eq b
    simp only [List.length_drop] at hk
    refine ⟨by omega, by omega, ?_⟩
    rw [show (((p.toNat + k + 1 : Nat) : Int)).toNat - 1 = p.toNat + k by omega]
    rw [← nth_drop]
    exact h10

theorem next_line_ne (b : Buf) (p : Int) (h0 : 0 ≤ p) (j : Nat)
    (hpj : p ≤ (j : Int)) (hj : j < (cnt b).length) (hnl : nth (cnt b) j = 10) :
    next_line b p ≠ -1 := by
  rw [next_line, if_neg (by omega)]
  apply scan_next_ne _ _ (j - p.toNat)
  · simp only [List.length_drop]; omega
  · rw [nth_drop, show p.toNat + (j - p.toNat) = j by omega]
    exact hnl

theorem scan_back1_le (c : List Int) : ∀ p, scan_back1 c p ≤ p := by
  intro p
  induction p with
  | zero => simp [scan_back1]
  | succ q ih =>
    rw [scan_back1]
    split
    · omega
    · omega

theorem scan_back2_le (c : List Int) : ∀ p, scan_back2 c p ≤ p := by
  intro p
  induction p with
  | zero => simp [scan_back2]
  | succ q ih =>
    rw [scan_back2]
    split
    · omega
    · omega

theorem scan_back2_linestart (c : List Int) :
    ∀ p, scan_back2 c p = 0 ∨ nth c (scan_back2 c p - 1) = 10 := by
  intro p
  induction p with
  | zero => left; rfl
  | succ q ih =>
    rw [scan_back2]
    split
    · right
      simpa
    · exact ih

/-- prev_line on a positive position: nonnegative, strictly smaller, and a
line start. -/
theorem prev_line_spec (b : Buf) (p : Int) (hp : 1 ≤ p) :
    0 ≤ prev_line b p ∧ prev_line b p ≤ p - 1 ∧
      (prev_line b p = 0 ∨ nth (cnt b) ((prev_line b p).toNat - 1) = 10) := by
  rw [prev_line, if_neg (by omega), if_neg (by omega)]
  have h1 : scan_back1 (cnt b) p.toNat ≤ p.toNat := scan_back1_le _ _
  have hlt : scan_back1 (cnt b) p.toNat ≤ p.toNat - 1 := by
    have : p.toNat = (p.toNat - 1) + 1 := by omega
    rw [this, scan_back1]
    split
    · omega
    · exact scan_back1_le _ _
  have h2 : scan_back2 (cnt b) (scan_back1 (cnt b) p.toNat) ≤ scan_back1 (cnt b) p.toNat :=
    scan_back2_le _ _
  refine ⟨by omega, by omega, ?_⟩
  rcases scan_back2_linestart (cnt b) (scan_back1 (cnt b) p.toNat) with h | h
  · left; omega
  · right
    rw [show (((scan_back2 (cnt b) (scan_back1 (cnt b) p.toNat) : Nat) : Int)).toNat =
      scan_back2 (cnt b) (scan_back1 (cnt b) p.toNat) by omega]
    exact h

/-! ### Exactness of moveto -/

/-- The moveto loop parks the cursor exactly at the target position whenever
the target is at or before the cursor, or a newline exists at or after it,
or it is the end of the text; the given fuel must dominate the measure. -/
theorem moveto_loop_exact (env : Env) (pos : Int) :
    ∀ (fuel : Nat) (ed : Editor) (s : Bool),
      0 ≤ ed.linepos → 0 ≤ ed.col → 0 ≤ pos →
      ed.linepos + ed.col ≤ text_length ed.buf →
      CursorOK ed →
      (pos ≤ ed.linepos + ed.col ∨
        (∃ j : Nat, pos ≤ (j : Int) ∧ j < (cnt ed.buf).length ∧ nth (cnt ed.buf) j = 10) ∨
        pos = text_length ed.buf) →
      mv_meas ed pos < fuel →
      (moveto_loop env pos fuel ed s).1.linepos + (moveto_loop env pos fuel ed s).1.col = pos := by
  intro fuel
  induction fuel with
  | zero => intro ed s _ _ _ _ _ _ hm; omega
  | succ f ih =>
    intro ed s hlp hcol hpos hsum hok hguard hm
    have hlen := text_length_eq ed.buf
    rw [moveto_loop]
    dsimp only
    by_cases hlt : pos < ed.linepos + ed.col
    · rw [if_pos hlt]
      by_cases hge : pos ≥ ed.linepos
      · rw [if_pos hge]
        refine ih _ _ hlp (by dsimp only; omega) hpos (by dsimp only; omega)
          hok (Or.inl (by dsimp only; omega)) ?_
        have hdec : mv_meas { ed with col := pos - ed.linepos } pos < mv_meas ed pos := by
          simp only [mv_meas]
          split_ifs <;> omega
        omega
      · rw [if_neg hge]
        have hge1 : 1 ≤ ed.linepos := by omega
        obtain ⟨hp0, hp1, hpls⟩ := prev_line_spec ed.buf ed.linepos hge1
        have hok' : prev_line ed.buf ed.linepos = 0 ∨
            get ed.buf (prev_line ed.buf ed.linepos - 1) = 10 := by
          by_cases hz : prev_line ed.buf ed.linepos = 0
          · left; exact hz
          · right
            rcases hpls with h | h
            · exact absurd h hz
            · rw [get, if_neg (by omega)]
              rw [show (prev_line ed.buf ed.linepos - 1).toNat =
                (prev_line ed.buf ed.linepos).toNat - 1 by omega]
              exact h
        have hnl : nth (cnt ed.buf) (ed.linepos - 1).toNat = 10 := by
          rcases hok with h | h
          · omega
          · rw [get, if_neg (by omega)] at h
            exact h
        have hguard' : pos ≤ prev_line ed.buf ed.linepos + 0 ∨
            (∃ j : Nat, pos ≤ (j : Int) ∧ j < (cnt ed.buf).length ∧ nth (cnt ed.buf) j = 10) ∨
            pos = text_length ed.buf := by
          right; left
          exact ⟨(ed.linepos - 1).toNat, by omega, by omega, hnl⟩
        split
        · refine ih _ _ (by dsimp only; omega) (by dsimp only; omega) hpos
            (by dsimp only; omega) hok' ?_
            (by simp only [mv_meas] at hm ⊢; split_ifs at hm ⊢ <;> omega)
          rcases hguard' with h | h | h
          · exact Or.inl (by dsimp only; omega)
          · exact Or.inr (Or.inl h)
          · exact Or.inr (Or.inr h)
        · refine ih _ _ (by dsimp only; omega) (by dsimp only; omega) hpos
            (by dsimp only; omega) hok' ?_
            (by simp only [mv_meas] at hm ⊢; split_ifs at hm ⊢ <;> omega)
          rcases hguard' with h | h | h
          · exact Or.inl (by dsimp only; omega)
          · exact Or.inr (Or.inl h)
          · exact Or.inr (Or.inr h)
    · rw [if_neg hlt]
      by_cases hgt : pos > ed.linepos + ed.col
      · rw [if_pos hgt]
        rcases next_line_spec ed.buf ed.linepos (by omega) with hn1 | ⟨hn2, hn3, hn4⟩
        · rw [hn1, if_pos rfl]
          have hplen : pos = text_length ed.buf := by
            rcases hguard with h | ⟨j, hj1, hj2, hj3⟩ | h
            · omega
            · exact absurd hn1 (next_line_ne ed.buf ed.linepos (by omega) j (by omega) hj2 hj3)
            · exact h
          dsimp only
          omega
        · have hne : ¬ next_line ed.buf ed.linepos = -1 := by omega
          rw [if_neg hne]
          by_cases hplt : pos < next_line ed.buf ed.linepos
          · rw [if_pos hplt]
            refine ih _ _ hlp (by dsimp only; omega) hpos (by dsimp only; omega)
              hok (Or.inl (by dsimp only; omega)) ?_
            have hdec : mv_meas { ed with col := pos - ed.linepos } pos < mv_meas ed pos := by
              simp only [mv_meas]
              split_ifs <;> omega
            omega
          · rw [if_neg hplt]
            have hok' : next_line ed.buf ed.linepos = 0 ∨
                get ed.buf (next_line ed.buf ed.linepos - 1) = 10 := by
              right
              rw [get, if_neg (by omega)]
              rw [show (next_line ed.buf ed.linepos - 1).toNat =
                (next_line ed.buf ed.linepos).toNat - 1 by omega]
              exact hn4
            have hguard' : pos ≤ next_line ed.buf ed.linepos + 0 ∨
                (∃ j : Nat, pos ≤ (j : Int) ∧ j < (cnt ed.buf).length ∧
                  nth (cnt ed.buf) j = 10) ∨
                pos = text_length ed.buf := by
              rcases le_or_lt pos (next_line ed.buf ed.linepos) with hle2 | hlt2
              · left; omega
              · rcases hguard with h | h | h
                · omega
                · exact Or.inr (Or.inl h)
                · exact Or.inr (Or.inr h)
            split
            · refine ih _ _ (by dsimp only; omega) (by dsimp only; omega) hpos
                (by dsimp only; omega) hok' ?_
                (by simp only [mv_meas] at hm ⊢; split_ifs at hm ⊢ <;> omega)
              rcases hguard' with h | h | h
              · exact Or.inl (by dsimp only; omega)
              · exact Or.inr (Or.inl h)
              · exact Or.inr (Or.inr h)
            · refine ih _ _ (by dsimp only; omega) (by dsimp only; omega) hpos
                (by dsimp only; omega) hok' ?_
                (by simp only [mv_meas] at hm ⊢; split_ifs at hm ⊢ <;> omega)
              rcases hguard' with h | h | h
              · exact Or.inl (by dsimp only; omega)
              · exact Or.inr (Or.inl h)
              · exact Or.inr (Or.inr h)
      · rw [if_neg hgt]
        dsimp only
        omega

/-- moveto parks the cursor exactly at the target under the guard of
moveto_loop_exact. -/
theorem moveto_exact (env : Env) (ed : Editor) (pos : Int) (c : Bool)
    (hlp : 0 ≤ ed.linepos) (hcol : 0 ≤ ed.col) (hpos : 0 ≤ pos)
    (hsum : ed.linepos + ed.col ≤ text_length ed.buf) (hok : CursorOK ed)
    (hg : pos ≤ ed.linepos + ed.col ∨
      (∃ j : Nat, pos ≤ (j : Int) ∧ j < (cnt ed.buf).length ∧ nth (cnt ed.buf) j = 10) ∨
      pos = text_length ed.buf) :
    (moveto env ed pos c).linepos + (moveto env ed pos c).col = pos := by
  have hfuel : mv_meas ed pos < mv_fuel ed pos := by
    simp only [mv_meas, mv_fuel]
    split_ifs <;> omega
  have h := moveto_loop_exact env pos (mv_fuel ed pos) ed false hlp hcol hpos hsum hok hg hfuel
  rw [moveto]
  dsimp only
  split
  all_goals first
    | exact h
    | (split <;> first
        | exact h
        | (split <;> first
            | exact h
            | (split <;> exact h)))

/-! ### C5: find_text postconditions -/

theorem moveto_anchor (env : Env) (ed : Editor) (pos : Int) (c : Bool) :
    (moveto env ed pos c).anchor = ed.anchor :=
  congrArg MvFrame.anchor (moveto_frame env ed pos c)

theorem cnt_close_gap (b : Buf) : cnt (close_gap b) = cnt b :=
  cnt_move_gap b (text_length b) 1

/-- C5 counterexample: on content "hello" with the cursor at 0, finding "he"
matches at 0, but the cursor ends at position 5 (end of buffer), not at the
match end 2, because moveto overshoots on a final line with no newline. -/
theorem find_text_counterexample :
    (find_text ⟨80, 24⟩ { mk_editor with buf := ⟨[104, 101, 108, 108, 111], 7, []⟩ }
      [104, 101]).1.linepos +
    (find_text ⟨80, 24⟩ { mk_editor with buf := ⟨[104, 101, 108, 108, 111], 7, []⟩ }
      [104, 101]).1.col ≠ 2 := by
  decide

/-! ### C4: cursor-state invariants.  Basic facts about line scans, clean
segments, and carriage-return-free contents. -/

theorem text_length_nonneg (b : Buf) : 0 ≤ text_length b := by
  rw [text_length]
  exact Int.ofNat_nonneg _

theorem line_length_nonneg (b : Buf) (p : Int) : 0 ≤ line_length b p := by
  rw [line_length]
  exact Int.ofNat_nonneg _

theorem line_length_list_le (l : List Int) : line_length_list l ≤ l.length := by
  induction l with
  | nil => simp [line_length_list]
  | cons a t ih =>
    rw [line_length_list]
    split
    · simp
    · simpa using ih

theorem linepos_add_ll_le (b : Buf) (p : Int) (h0 : 0 ≤ p)
    (h1 : p ≤ text_length b) : p + line_length b p ≤ text_length b := by
  have h := line_length_list_le ((cnt b).drop p.toNat)
  have hlen := text_length_eq b
  simp only [List.length_drop] at h
  rw [line_length]
  omega

theorem line_length_list_clean (l : List Int) :
    ∀ i : Nat, i < line_length_list l → nth l i ≠ 10 ∧ nth l i ≠ 13 := by
  induction l with
  | nil => intro i hi; simp [line_length_list] at hi
  | cons a t ih =>
    intro i hi
    rw [line_length_list] at hi
    split at hi
    · omega
    · rename_i hcond
      push_neg at hcond
      cases i with
      | zero => simpa [nth] using hcond
      | succ m => exact ih m (by omega)

theorem scan_len_ge (l : List Int) :
    ∀ n : Nat, n ≤ l.length → (∀ i : Nat, i < n → nth l i ≠ 10 ∧ nth l i ≠ 13) →
      n ≤ line_length_list l := by
  induction l with
  | nil => intro n hn _; simp [line_length_list]; simp at hn; omega
  | cons a t ih =>
    intro n hn h
    cases n with
    | zero => omega
    | succ m =>
      have h0 := h 0 (by omega)
      simp only [nth] at h0
      rw [line_length_list, if_neg (by tauto)]
      have := ih m (by simpa using hn) (fun i hi => h (i + 1) (by omega))
      omega

theorem scan_next_none (l : List Int) :
    ∀ p : Nat, scan_next l p = -1 → ∀ k, k < l.length → nth l k ≠ 10 := by
  induction l with
  | nil => intro p _ k hk; simp at hk
  | cons a t ih =>
    intro p hp k hk
    rw [scan_next] at hp
    split at hp
    · omega
    · cases k with
      | zero => simpa [nth]
      | succ m => exact ih (p + 1) hp m (by simpa using hk)

theorem scan_start_le (c : List Int) : ∀ p, scan_start c p ≤ p := by
  intro p
  induction p with
  | zero => simp [scan_start]
  | succ q ih =>
    rw [scan_start]
    split
    · omega
    · omega

theorem scan_start_linestart (c : List Int) :
    ∀ p, scan_start c p = 0 ∨ nth c (scan_start c p - 1) = 10 := by
  intro p
  induction p with
  | zero => left; rfl
  | succ q ih =>
    rw [scan_start]
    split
    · right; simpa
    · exact ih

theorem noCR_nth (c : List Int) (h : noCR c = true) : ∀ j : Nat, nth c j ≠ 13 := by
  intro j
  induction c generalizing j with
  | nil => simp [nth]
  | cons a t ih =>
    rw [noCR, List.all_cons, Bool.and_eq_true] at h
    cases j with
    | zero =>
      have := h.1
      simp only [decide_eq_true_eq] at this
      simpa [nth]
    | succ m => exact ih h.2 m

theorem noCR_append (a b : List Int) :
    noCR (a ++ b) = true ↔ noCR a = true ∧ noCR b = true := by
  simp only [noCR, List.all_append, Bool.and_eq_true]

theorem noCR_sub (c s : List Int) (h : noCR c = true) (hs : s ⊆ c) :
    noCR s = true := by
  simp only [noCR, List.all_eq_true] at h ⊢
  exact fun x hx => h x (hs hx)

theorem noCR_splice (c ins : List Int) (n m : Nat) (hc : noCR c = true)
    (hi : noCR ins = true) : noCR (c.take n ++ ins ++ c.drop m) = true := by
  rw [noCR_append, noCR_append]
  exact ⟨⟨noCR_sub c _ hc (List.take_subset n c), hi⟩,
    noCR_sub c _ hc (List.drop_subset m c)⟩

theorem nth_lt_length (l : List Int) (j : Nat) (h : nth l j ≠ -1) : j < l.length := by
  by_contra hc
  exact h (nth_of_ge l j (by omega))

/-- The clean segment a column bound yields: every byte position between the
line start and the cursor holds neither a newline nor a carriage return. -/
theorem colok_clean (b : Buf) (lp cl : Int) (h0 : 0 ≤ lp)
    (hcl : cl ≤ line_length b lp) (j : Nat) (hj1 : lp ≤ (j : Int))
    (hj2 : (j : Int) < lp + cl) : nth (cnt b) j ≠ 10 ∧ nth (cnt b) j ≠ 13 := by
  have hj : j = lp.toNat + (j - lp.toNat) := by omega
  have hi : j - lp.toNat < line_length_list ((cnt b).drop lp.toNat) := by
    rw [line_length] at hcl
    omega
  have h := line_length_list_clean ((cnt b).drop lp.toNat) (j - lp.toNat) hi
  rw [nth_drop] at h
  rw [hj]
  exact h

/-- A column bound from a clean segment: if no newline occurs between the
line start and the cursor, and the content is carriage-return free, the
column is at most the line length. -/
theorem colok_of_clean (b : Buf) (lp cl : Int) (h0 : 0 ≤ lp) (hcl : 0 ≤ cl)
    (hsum : lp + cl ≤ text_length b) (hCR : noCR (cnt b) = true)
    (hcln : ∀ j : Nat, lp ≤ (j : Int) → (j : Int) < lp + cl → nth (cnt b) j ≠ 10) :
    cl ≤ line_length b lp := by
  have hlen := text_length_eq b
  have h := scan_len_ge ((cnt b).drop lp.toNat) cl.toNat
    (by simp only [List.length_drop]; omega) ?_
  · rw [line_length]
    omega
  · intro i hi
    rw [nth_drop]
    constructor
    · exact hcln (lp.toNat + i) (by omega) (by omega)
    · exact noCR_nth (cnt b) hCR _

/-! ### Frame lemmas for update_selection, replace and adjust -/

theorem update_selection_ex (ed : Editor) (s : Bool) :
    ∃ a r, update_selection ed s = { ed with anchor := a, refresh := r } := by
  rw [update_selection]
  split
  · split
    · exact ⟨_, _, rfl⟩
    · exact ⟨ed.anchor, true, rfl⟩
  · split
    · exact ⟨ed.anchor, ed.refresh, rfl⟩
    · exact ⟨-1, true, rfl⟩

theorem record_undo_fields (ed : Editor) (pos len : Int) (ins : List Int) :
    (record_undo ed pos len ins).buf = ed.buf ∧
    (record_undo ed pos len ins).linepos = ed.linepos ∧
    (record_undo ed pos len ins).col = ed.col ∧
    (record_undo ed pos len ins).lastcol = ed.lastcol ∧
    (record_undo ed pos len ins).anchor = ed.anchor ∧
    (record_undo ed pos len ins).line = ed.line ∧
    (record_undo ed pos len ins).topline = ed.topline ∧
    (record_undo ed pos len ins).toppos = ed.toppos := by
  rw [record_undo]
  split
  · split
    · exact ⟨rfl, rfl, rfl, rfl, rfl, rfl, rfl, rfl⟩
    · split
      · exact ⟨rfl, rfl, rfl, rfl, rfl, rfl, rfl, rfl⟩
      · split
        · exact ⟨rfl, rfl, rfl, rfl, rfl, rfl, rfl, rfl⟩
        · exact ⟨rfl, rfl, rfl, rfl, rfl, rfl, rfl, rfl⟩
  · exact ⟨rfl, rfl, rfl, rfl, rfl, rfl, rfl, rfl⟩

theorem replace_fields (ed : Editor) (pos len : Int) (ins : List Int) (d : Bool) :
    (replace ed pos len ins d).buf = buf_replace ed.buf pos len ins ∧
    (replace ed pos len ins d).linepos = ed.linepos ∧
    (replace ed pos len ins d).col = ed.col ∧
    (replace ed pos len ins d).lastcol = ed.lastcol ∧
    (replace ed pos len ins d).anchor = ed.anchor ∧
    (replace ed pos len ins d).line = ed.line ∧
    (replace ed pos len ins d).topline = ed.topline ∧
    (replace ed pos len ins d).toppos = ed.toppos := by
  rw [replace]
  dsimp only
  split
  · obtain ⟨h1, h2, h3, h4, h5, h6, h7, h8⟩ := record_undo_fields ed pos len ins
    exact ⟨by rw [h1], h2, h3, h4, h5, h6, h7, h8⟩
  · exact ⟨rfl, rfl, rfl, rfl, rfl, rfl, rfl, rfl⟩

theorem get_buf_replace_below (b : Buf) (pos len : Int) (ins : List Int)
    (p : Int) (h0 : 0 ≤ pos) (hl : 0 ≤ len) (h1 : pos + len ≤ text_length b)
    (hp : p < pos) : get (buf_replace b pos len ins) p = get b p := by
  by_cases hneg : p < 0
  · rw [get, if_pos hneg, get, if_pos hneg]
  · rw [get, if_neg hneg, get, if_neg hneg]
    rw [cnt_buf_replace b pos len ins h0 h1 hl]
    have hlen := text_length_eq b
    have htk : p.toNat < ((cnt b).take pos.toNat).length := by
      simp only [List.length_take]
      omega
    rw [List.append_assoc, nth_append_left _ _ _ htk, nth_take]
    omega

theorem adjust_spec (env : Env) (ed : Editor) :
    (adjust env ed).linepos = ed.linepos ∧ (adjust env ed).buf = ed.buf ∧
    (adjust env ed).lastcol = ed.lastcol ∧ (adjust env ed).anchor = ed.anchor ∧
    (adjust env ed).col =
      (if ed.lastcol > line_length ed.buf ed.linepos then
        line_length ed.buf ed.linepos else ed.lastcol) ∧
    (adjust env ed).line = ed.line := by
  exact ⟨rfl, rfl, rfl, rfl, rfl, rfl⟩

theorem adjust_CursorWF (env : Env) (ed : Editor) (h1 : 0 ≤ ed.linepos)
    (h2 : 0 ≤ ed.lastcol) (h3 : ed.linepos ≤ text_length ed.buf)
    (h4 : CursorOK ed) : CursorWF (adjust env ed) := by
  obtain ⟨e1, e2, e3, e4, e5, e6⟩ := adjust_spec env ed
  have hll := line_length_nonneg ed.buf ed.linepos
  have hsum := linepos_add_ll_le ed.buf ed.linepos h1 h3
  refine ⟨by rw [e1]; exact h1, ?_, by rw [e3]; exact h2, ?_, ?_, ?_⟩
  · rw [e5]
    split
    · exact hll
    · exact h2
  · rw [e1, e2, e5]
    split
    · omega
    · omega
  · rcases h4 with h | h
    · exact Or.inl (by rw [e1]; exact h)
    · exact Or.inr (by rw [e1, e2]; exact h)
  · show (adjust env ed).col ≤ line_length (adjust env ed).buf (adjust env ed).linepos
    rw [e1, e2, e5]
    split
    · omega
    · omega

/-! ### What moveto guarantees about the cursor it leaves behind -/

/-- Terminal-state analysis of the moveto loop: from a state with
nonnegative cursor fields and a clean segment between line start and cursor
(up to the target), the loop leaves a nonnegative line start at or before
the target, a nonnegative column, the cursor inside the text, a line start
satisfying the cursor invariant, and a newline-free segment between the
final line start and the final cursor.  The line-start invariant needs only
that the entry state satisfies it or that the target is left of the entry
line start (the first backward step then re-establishes it). -/
theorem moveto_loop_wfout (env : Env) (pos : Int) :
    ∀ (fuel : Nat) (ed : Editor) (s : Bool),
      0 ≤ ed.linepos → 0 ≤ ed.col → 0 ≤ pos → pos ≤ text_length ed.buf →
      (CursorOK ed ∨ pos < ed.linepos) →
      (∀ j : Nat, ed.linepos ≤ (j : Int) → (j : Int) < ed.linepos + ed.col →
        (j : Int) < pos → nth (cnt ed.buf) j ≠ 10) →
      mv_meas ed pos < fuel →
      0 ≤ (moveto_loop env pos fuel ed s).1.linepos ∧
      (moveto_loop env pos fuel ed s).1.linepos ≤ pos ∧
      0 ≤ (moveto_loop env pos fuel ed s).1.col ∧
      (moveto_loop env pos fuel ed s).1.linepos + (moveto_loop env pos fuel ed s).1.col ≤
        text_length ed.buf ∧
      CursorOK (moveto_loop env pos fuel ed s).1 ∧
      ∀ j : Nat, (moveto_loop env pos fuel ed s).1.linepos ≤ (j : Int) →
        (j : Int) < (moveto_loop env pos fuel ed s).1.linepos +
          (moveto_loop env pos fuel ed s).1.col →
        nth (cnt ed.buf) j ≠ 10 := by
  intro fuel
  induction fuel with
  | zero => intro ed s _ _ _ _ _ _ hm; omega
  | succ f ih =>
    intro ed s hlp hcol hpos hple hokd hH hm
    have hlen := text_length_eq ed.buf
    rw [moveto_loop]
    dsimp only
    by_cases hlt : pos < ed.linepos + ed.col
    · rw [if_pos hlt]
      by_cases hge : pos ≥ ed.linepos
      · rw [if_pos hge]
        have hok : CursorOK ed := by
          rcases hokd with h | h
          · exact h
          · omega
        refine ih _ _ hlp (by dsimp only; omega) hpos (by dsimp only; exact hple)
          (Or.inl hok) ?_ ?_
        · dsimp only
          intro j hj1 hj2 hj3
          exact hH j hj1 (by omega) (by omega)
        · have hdec : mv_meas { ed with col := pos - ed.linepos } pos < mv_meas ed pos := by
            simp only [mv_meas]
            split_ifs <;> omega
          omega
      · rw [if_neg hge]
        have hge1 : 1 ≤ ed.linepos := by omega
        obtain ⟨hp0, hp1, hpls⟩ := prev_line_spec ed.buf ed.linepos hge1
        have hok' : prev_line ed.buf ed.linepos = 0 ∨
            get ed.buf (prev_line ed.buf ed.linepos - 1) = 10 := by
          by_cases hz : prev_line ed.buf ed.linepos = 0
          · left; exact hz
          · right
            rcases hpls with h | h
            · exact absurd h hz
            · rw [get, if_neg (by omega)]
              rw [show (prev_line ed.buf ed.linepos - 1).toNat =
                (prev_line ed.buf ed.linepos).toNat - 1 by omega]
              exact h
        split
        · refine ih _ _ (by dsimp only; omega) (by dsimp only; omega) hpos
            (by dsimp only; exact hple) (Or.inl hok')
            (by dsimp only; intro j hj1 hj2 _; exact absurd hj2 (by omega))
            (by simp only [mv_meas] at hm ⊢; split_ifs at hm ⊢ <;> omega)
        · refine ih _ _ (by dsimp only; omega) (by dsimp only; omega) hpos
            (by dsimp only; exact hple) (Or.inl hok')
            (by dsimp only; intro j hj1 hj2 _; exact absurd hj2 (by omega))
            (by simp only [mv_meas] at hm ⊢; split_ifs at hm ⊢ <;> omega)
    · rw [if_neg hlt]
      by_cases hgt : pos > ed.linepos + ed.col
      · rw [if_pos hgt]
        have hok : CursorOK ed := by
          rcases hokd with h | h
          · exact h
          · omega
        rcases next_line_spec ed.buf ed.linepos (by omega) with hn1 | ⟨hn2, hn3, hn4⟩
        · rw [hn1, if_pos rfl]
          have hsc : scan_next ((cnt ed.buf).drop ed.linepos.toNat) ed.linepos.toNat = -1 := by
            have h := hn1
            rw [next_line, if_neg (by omega)] at h
            exact h
          have hclean := scan_next_none ((cnt ed.buf).drop ed.linepos.toNat)
            ed.linepos.toNat hsc
          refine ⟨hlp, by dsimp only; omega, by dsimp only; omega,
            by dsimp only; omega, hok, ?_⟩
          dsimp only
          intro j hj1 hj2
          have hjl : j - ed.linepos.toNat < ((cnt ed.buf).drop ed.linepos.toNat).length := by
            simp only [List.length_drop]
            omega
          have h := hclean (j - ed.linepos.toNat) hjl
          rw [nth_drop, show ed.linepos.toNat + (j - ed.linepos.toNat) = j by omega] at h
          exact h
        · rw [if_neg (by omega)]
          by_cases hplt : pos < next_line ed.buf ed.linepos
          · rw [if_pos hplt]
            have hscan : scan_next ((cnt ed.buf).drop ed.linepos.toNat) ed.linepos.toNat =
                next_line ed.buf ed.linepos := by
              rw [next_line, if_neg (by omega)]
            rcases scan_next_spec ((cnt ed.buf).drop ed.linepos.toNat) ed.linepos.toNat with
              hs | ⟨k, hr, hk, h10, hbefore⟩
            · omega
            · have hkval : next_line ed.buf ed.linepos = ((ed.linepos.toNat + k + 1 : Nat) : Int) := by
                rw [← hscan, hr]
              refine ih _ _ hlp (by dsimp only; omega) hpos (by dsimp only; exact hple)
                (Or.inl hok) ?_ ?_
              · dsimp only
                intro j hj1 hj2 hj3
                have h := hbefore (j - ed.linepos.toNat) (by omega)
                rw [nth_drop, show ed.linepos.toNat + (j - ed.linepos.toNat) = j by omega] at h
                exact h
              · have hdec : mv_meas { ed with col := pos - ed.linepos } pos < mv_meas ed pos := by
                  simp only [mv_meas]
                  split_ifs <;> omega
                omega
          · rw [if_neg hplt]
            have hok' : next_line ed.buf ed.linepos = 0 ∨
                get ed.buf (next_line ed.buf ed.linepos - 1) = 10 := by
              right
              rw [get, if_neg (by omega)]
              rw [show (next_line ed.buf ed.linepos - 1).toNat =
                (next_line ed.buf ed.linepos).toNat - 1 by omega]
              exact hn4
            split
            · refine ih _ _ (by dsimp only; omega) (by dsimp only; omega) hpos
                (by dsimp only; exact hple) (Or.inl hok')
                (by dsimp only; intro j hj1 hj2 _; exact absurd hj2 (by omega))
                (by simp only [mv_meas] at hm ⊢; split_ifs at hm ⊢ <;> omega)
            · refine ih _ _ (by dsimp only; omega) (by dsimp only; omega) hpos
                (by dsimp only; exact hple) (Or.inl hok')
                (by dsimp only; intro j hj1 hj2 _; exact absurd hj2 (by omega))
                (by simp only [mv_meas] at hm ⊢; split_ifs at hm ⊢ <;> omega)
      · rw [if_neg hgt]
        have hok : CursorOK ed := by
          rcases hokd with h | h
          · exact h
          · omega
        have heq : ed.linepos + ed.col = pos := by omega
        refine ⟨hlp, by dsimp only; omega, hcol, by dsimp only; omega, hok, ?_⟩
        dsimp only
        intro j hj1 hj2
        exact hH j hj1 hj2 (by omega)

/-- The moveto wrapper inherits the terminal-state guarantees of the loop
(the recentering branches only touch the viewport fields). -/
theorem moveto_wfout (env : Env) (ed : Editor) (pos : Int) (c : Bool)
    (hlp : 0 ≤ ed.linepos) (hcol : 0 ≤ ed.col) (hpos : 0 ≤ pos)
    (hple : pos ≤ text_length ed.buf)
    (hokd : CursorOK ed ∨ pos < ed.linepos)
    (hH : ∀ j : Nat, ed.linepos ≤ (j : Int) → (j : Int) < ed.linepos + ed.col →
      (j : Int) < pos → nth (cnt ed.buf) j ≠ 10) :
    0 ≤ (moveto env ed pos c).linepos ∧
    (moveto env ed pos c).linepos ≤ pos ∧
    0 ≤ (moveto env ed pos c).col ∧
    (moveto env ed pos c).linepos + (moveto env ed pos c).col ≤ text_length ed.buf ∧
    CursorOK (moveto env ed pos c) ∧
    ∀ j : Nat, (moveto env ed pos c).linepos ≤ (j : Int) →
      (j : Int) < (moveto env ed pos c).linepos + (moveto env ed pos c).col →
      nth (cnt ed.buf) j ≠ 10 := by
  have hfuel : mv_meas ed pos < mv_fuel ed pos := by
    simp only [mv_meas, mv_fuel]
    split_ifs <;> omega
  have h := moveto_loop_wfout env pos (mv_fuel ed pos) ed false hlp hcol hpos hple
    hokd hH hfuel
  have hbuf := congrArg MvFrame.buf
    (moveto_loop_frame env pos (mv_fuel ed pos) ed false)
  rw [moveto]
  dsimp only
  split
  all_goals first
    | exact h
    | (split <;> first
        | exact h
        | (split <;> first
            | exact h
            | (split <;> exact h)))

theorem moveto_lastcol (env : Env) (ed : Editor) (pos : Int) (c : Bool) :
    (moveto env ed pos c).lastcol = ed.lastcol :=
  congrArg MvFrame.lastcol (moveto_frame env ed pos c)

/-! ### Erasing the selection preserves the cursor invariants -/

theorem get_selection_bounds (ed : Editor) (s e : Int) (hW : WF ed)
    (h : get_selection ed = some (s, e)) :
    0 ≤ s ∧ s < e ∧ e ≤ text_length ed.buf ∧ s ≤ ed.linepos + ed.col := by
  obtain ⟨h1, h2, h3, h4, h5, h6, h7⟩ := hW
  rw [get_selection] at h
  split at h
  · exact absurd h (by simp)
  · rename_i hanc
    dsimp only at h
    split at h
    · exact absurd h (by simp)
    · rename_i hne
      have hab : 0 ≤ ed.anchor ∧ ed.anchor ≤ text_length ed.buf := by
        rcases h7 with h7 | h7
        · exact absurd h7 hanc
        · exact h7
      split at h
      · simp only [Option.some.injEq, Prod.mk.injEq] at h
        obtain ⟨hs, he⟩ := h
        subst hs; subst he
        refine ⟨by omega, by omega, by omega, by omega⟩
      · simp only [Option.some.injEq, Prod.mk.injEq] at h
        obtain ⟨hs, he⟩ := h
        subst hs; subst he
        refine ⟨by omega, by omega, by omega, by omega⟩

theorem erase_selection_spec (env : Env) (ed : Editor) (hW : WF ed) :
    0 ≤ (erase_selection env ed).1.linepos ∧
    0 ≤ (erase_selection env ed).1.col ∧
    (erase_selection env ed).1.linepos + (erase_selection env ed).1.col ≤
      text_length (erase_selection env ed).1.buf ∧
    CursorOK (erase_selection env ed).1 ∧
    (erase_selection env ed).1.lastcol = ed.lastcol ∧
    (∀ j : Nat, (erase_selection env ed).1.linepos ≤ (j : Int) →
      (j : Int) < (erase_selection env ed).1.linepos + (erase_selection env ed).1.col →
      nth (cnt (erase_selection env ed).1.buf) j ≠ 10) ∧
    (noCR (cnt ed.buf) = true → noCR (cnt (erase_selection env ed).1.buf) = true ∧
      ColOK (erase_selection env ed).1) := by
  cases hsel : get_selection ed with
  | none =>
    have he : erase_selection env ed = (ed, false) := by rw [erase_selection, hsel]
    rw [he]
    obtain ⟨h1, h2, h3, h4, h5, h6, h7⟩ := hW
    exact ⟨h1, h2, h4, h5, rfl,
      fun j hj1 hj2 => (colok_clean ed.buf ed.linepos ed.col h1 h6 j hj1 hj2).1,
      fun hCR => ⟨hCR, h6⟩⟩
  | some se =>
    obtain ⟨s, e⟩ := se
    obtain ⟨hs0, hse, hel, hsc⟩ := get_selection_bounds ed s e hW hsel
    obtain ⟨h1, h2, h3, h4, h5, h6, h7⟩ := hW
    have he : erase_selection env ed =
        ({ (replace (moveto env ed s false) s (e - s) [] true) with
           anchor := -1, refresh := true }, true) := by
      rw [erase_selection, hsel]
    rw [he]
    have hMbuf : (moveto env ed s false).buf = ed.buf := moveto_buf env ed s false
    have hMlast : (moveto env ed s false).lastcol = ed.lastcol := moveto_lastcol env ed s false
    have hexact : (moveto env ed s false).linepos + (moveto env ed s false).col = s :=
      moveto_exact env ed s false h1 h2 hs0 h4 h5 (Or.inl hsc)
    obtain ⟨w1, w2, w3, w4, w5, w6⟩ := moveto_wfout env ed s false h1 h2 hs0 (by omega)
      (Or.inl h5)
      (fun j hj1 hj2 _ => (colok_clean ed.buf ed.linepos ed.col h1 h6 j hj1 hj2).1)
    set M := moveto env ed s false with hMdef
    obtain ⟨r1, r2, r3, r4, r5, r6, r7, r8⟩ := replace_fields M s (e - s) [] true
    have hlenM : text_length M.buf = text_length ed.buf := by rw [hMbuf]
    have hvr : s + (e - s) ≤ text_length M.buf := by omega
    have hcnt : cnt (buf_replace M.buf s (e - s) []) =
        (cnt M.buf).take s.toNat ++ [] ++ (cnt M.buf).drop (s.toNat + (e - s).toNat) :=
      cnt_buf_replace M.buf s (e - s) [] hs0 hvr (by omega)
    have hlen2 : text_length (buf_replace M.buf s (e - s) []) =
        text_length M.buf - (e - s) := by
      have := length_buf_replace M.buf s (e - s) [] hs0 hvr (by omega)
      simpa using this
    have hclean2 : ∀ j : Nat, M.linepos ≤ (j : Int) → (j : Int) < M.linepos + M.col →
        nth (cnt (buf_replace M.buf s (e - s) [])) j ≠ 10 := by
      intro j hj1 hj2
      have hjs : (j : Int) < s := by omega
      have hlenMc := text_length_eq M.buf
      have htk : j < ((cnt M.buf).take s.toNat).length := by
        simp only [List.length_take]
        omega
      rw [hcnt, List.append_assoc, nth_append_left _ _ _ htk, nth_take _ _ _ (by omega),
        hMbuf]
      exact w6 j hj1 hj2
    refine ⟨?_, ?_, ?_, ?_, ?_, ?_, ?_⟩
    · dsimp only
      rw [r2]
      exact w1
    · dsimp only
      rw [r3]
      exact w3
    · dsimp only
      rw [r1, r2, r3, hlen2]
      omega
    · dsimp only [CursorOK]
      rw [r1, r2]
      rcases w5 with h | h
      · exact Or.inl h
      · refine Or.inr ?_
        rw [get_buf_replace_below M.buf s (e - s) [] _ hs0 (by omega) hvr (by omega)]
        exact h
    · dsimp only
      rw [r4]
      exact hMlast
    · dsimp only
      rw [r1, r2, r3]
      exact hclean2
    · intro hCR
      constructor
      · dsimp only
        rw [r1, hcnt]
        have : noCR (cnt M.buf) = true := by rw [hMbuf]; exact hCR
        exact noCR_splice _ _ _ _ this rfl
      · dsimp only [ColOK]
        rw [r1, r2, r3]
        refine colok_of_clean _ _ _ w1 w3 (by rw [hlen2]; omega) ?_ ?_
        · rw [hcnt]
          have : noCR (cnt M.buf) = true := by rw [hMbuf]; exact hCR
          exact noCR_splice _ _ _ _ this rfl
        · exact hclean2

/-! ### Invariants of the remaining navigation loops -/

theorem wordleft_loop_inv (b : Buf) :
    ∀ (f : Nat) (pos : Int) (phase : Nat) (ed : Editor),
      0 ≤ pos → ed.linepos ≤ pos → 0 ≤ ed.linepos →
      (ed.linepos = 0 ∨ get b (ed.linepos - 1) = 10) →
      (wordleft_loop b f pos phase ed).2.buf = ed.buf ∧
      (wordleft_loop b f pos phase ed).2.col = ed.col ∧
      (wordleft_loop b f pos phase ed).2.lastcol = ed.lastcol ∧
      (wordleft_loop b f pos phase ed).2.anchor = ed.anchor ∧
      0 ≤ (wordleft_loop b f pos phase ed).1 ∧
      (wordleft_loop b f pos phase ed).1 ≤ pos ∧
      (wordleft_loop b f pos phase ed).2.linepos ≤ (wordleft_loop b f pos phase ed).1 ∧
      0 ≤ (wordleft_loop b f pos phase ed).2.linepos ∧
      ((wordleft_loop b f pos phase ed).2.linepos = 0 ∨
        get b ((wordleft_loop b f pos phase ed).2.linepos - 1) = 10) := by
  intro f
  induction f with
  | zero =>
    intro pos phase ed h0 h1 h2 h3
    exact ⟨rfl, rfl, rfl, rfl, h0, le_refl _, h1, h2, h3⟩
  | succ f ih =>
    intro pos phase ed h0 h1 h2 h3
    rw [wordleft_loop]
    dsimp only
    split
    · rename_i hpos
      split

      · by_cases hlt : pos - 1 < ed.linepos
        · rw [if_pos hlt]
          have hge1 : 1 ≤ ed.linepos := by omega
          obtain ⟨hp0, hp1, hpls⟩ := prev_line_spec b ed.linepos hge1
          have hok' : prev_line b ed.linepos = 0 ∨ get b (prev_line b ed.linepos - 1) = 10 := by
            by_cases hz : prev_line b ed.linepos = 0
            · left; exact hz
            · right
              rcases hpls with h | h
              · exact absurd h hz
              · rw [get, if_neg (by omega)]
                rw [show (prev_line b ed.linepos - 1).toNat =
                  (prev_line b ed.linepos).toNat - 1 by omega]
                exact h
          obtain ⟨c1, c2, c3, c4, c5, c6, c7, c8, c9⟩ := ih (pos - 1) _
            { ed with linepos := prev_line b ed.linepos, line := ed.line - 1, refresh := true }
            (by omega) (by dsimp only; omega) (by dsimp only; omega) hok'
          exact ⟨c1, c2, c3, c4, c5, by omega, c7, c8, c9⟩
        · rw [if_neg hlt]
          obtain ⟨c1, c2, c3, c4, c5, c6, c7, c8, c9⟩ := ih (pos - 1) _ ed
            (by omega) (by omega) h2 h3
          exact ⟨c1, c2, c3, c4, c5, by omega, c7, c8, c9⟩
      · exact ⟨rfl, rfl, rfl, rfl, h0, le_refl _, h1, h2, h3⟩
    · exact ⟨rfl, rfl, rfl, rfl, h0, le_refl _, h1, h2, h3⟩

theorem wordright_loop_inv (b : Buf) (stop : Int) :
    ∀ (f : Nat) (pos : Int) (phase : Nat) (nxt : Int) (ed : Editor),
      0 ≤ pos → pos ≤ stop → ed.linepos ≤ pos → 0 ≤ ed.linepos →
      nxt = next_line b ed.linepos →
      (ed.linepos = 0 ∨ get b (ed.linepos - 1) = 10) →
      (wordright_loop b stop f pos phase nxt ed).2.buf = ed.buf ∧
      (wordright_loop b stop f pos phase nxt ed).2.col = ed.col ∧
      (wordright_loop b stop f pos phase nxt ed).2.lastcol = ed.lastcol ∧
      (wordright_loop b stop f pos phase nxt ed).2.anchor = ed.anchor ∧
      0 ≤ (wordright_loop b stop f pos phase nxt ed).1 ∧
      (wordright_loop b stop f pos phase nxt ed).1 ≤ stop ∧
      (wordright_loop b stop f pos phase nxt ed).2.linepos ≤
        (wordright_loop b stop f pos phase nxt ed).1 ∧
      0 ≤ (wordright_loop b stop f pos phase nxt ed).2.linepos ∧
      ((wordright_loop b stop f pos phase nxt ed).2.linepos = 0 ∨
        get b ((wordright_loop b stop f pos phase nxt ed).2.linepos - 1) = 10) := by
  intro f
  induction f with
  | zero =>
    intro pos phase nxt ed h0 h1 h2 h3 h4 h5
    exact ⟨rfl, rfl, rfl, rfl, h0, h1, h2, h3, h5⟩
  | succ f ih =>
    intro pos phase nxt ed h0 h1 h2 h3 h4 h5
    rw [wordright_loop]
    dsimp only
    split
    · rename_i hps
      split
      · by_cases hcross : pos + 1 = nxt
        · rw [if_pos hcross]
          have hnl : nxt = 0 ∨ get b (nxt - 1) = 10 := by
            rcases next_line_spec b ed.linepos h3 with hn | ⟨hn2, hn3, hn4⟩
            · omega
            · right
              rw [get, if_neg (by omega)]
              rw [show (nxt - 1).toNat = (next_line b ed.linepos).toNat - 1 by omega]
              exact hn4
          obtain ⟨c1, c2, c3, c4, c5, c6, c7, c8, c9⟩ := ih (pos + 1) _ (next_line b nxt)
            { ed with linepos := nxt, line := ed.line + 1, refresh := true }
            (by omega) (by omega) (by dsimp only; omega) (by dsimp only; omega)
            rfl hnl
          exact ⟨c1, c2, c3, c4, c5, c6, c7, c8, c9⟩
        · rw [if_neg hcross]
          exact ih (pos + 1) _ _ ed (by omega) (by omega) (by omega) h3 h4 h5
      · exact ⟨rfl, rfl, rfl, rfl, h0, h1, h2, h3, h5⟩
    · exact ⟨rfl, rfl, rfl, rfl, h0, h1, h2, h3, h5⟩

theorem bottom_loop_inv (env : Env) (b : Buf) :
    ∀ (f : Nat) (ed : Editor),
      0 ≤ ed.linepos → ed.linepos ≤ text_length b →
      (ed.linepos = 0 ∨ get b (ed.linepos - 1) = 10) →
      (bottom_loop env b f ed).buf = ed.buf ∧
      (bottom_loop env b f ed).col = ed.col ∧
      (bottom_loop env b f ed).lastcol = ed.lastcol ∧
      (bottom_loop env b f ed).anchor = ed.anchor ∧
      0 ≤ (bottom_loop env b f ed).linepos ∧
      (bottom_loop env b f ed).linepos ≤ text_length b ∧
      ((bottom_loop env b f ed).linepos = 0 ∨
        get b ((bottom_loop env b f ed).linepos - 1) = 10) := by
  intro f
  induction f with
  | zero =>
    intro ed h0 h1 h2
    exact ⟨rfl, rfl, rfl, rfl, h0, h1, h2⟩
  | succ f ih =>
    intro ed h0 h1 h2
    rw [bottom_loop]
    dsimp only
    split
    · exact ⟨rfl, rfl, rfl, rfl, h0, h1, h2⟩
    · rename_i hnp
      rcases next_line_spec b ed.linepos h0 with hn | ⟨hn2, hn3, hn4⟩
      · omega
      · have hok' : next_line b ed.linepos = 0 ∨ get b (next_line b ed.linepos - 1) = 10 := by
          right
          rw [get, if_neg (by omega)]
          rw [show (next_line b ed.linepos - 1).toNat =
            (next_line b ed.linepos).toNat - 1 by omega]
          exact hn4
        split
        · exact ih _ (by dsimp only; omega) (by dsimp only; omega) hok'
        · exact ih _ (by dsimp only; omega) (by dsimp only; omega) hok'

theorem pagedown_loop_inv (b : Buf) :
    ∀ (f : Nat) (ed : Editor),
      0 ≤ ed.linepos → ed.linepos ≤ text_length b →
      (ed.linepos = 0 ∨ get b (ed.linepos - 1) = 10) →
      (pagedown_loop b f ed).buf = ed.buf ∧
      (pagedown_loop b f ed).col = ed.col ∧
      (pagedown_loop b f ed).lastcol = ed.lastcol ∧
      (pagedown_loop b f ed).anchor = ed.anchor ∧
      0 ≤ (pagedown_loop b f ed).linepos ∧
      (pagedown_loop b f ed).linepos ≤ text_length b ∧
      ((pagedown_loop b f ed).linepos = 0 ∨
        get b ((pagedown_loop b f ed).linepos - 1) = 10) := by
  intro f
  induction f with
  | zero =>
    intro ed h0 h1 h2
    exact ⟨rfl, rfl, rfl, rfl, h0, h1, h2⟩
  | succ f ih =>
    intro ed h0 h1 h2
    rw [pagedown_loop]
    split
    · exact ⟨rfl, rfl, rfl, rfl, h0, h1, h2⟩
    · rename_i hnp
      rcases next_line_spec b ed.linepos h0 with hn | ⟨hn2, hn3, hn4⟩
      · omega
      · have hok' : next_line b ed.linepos = 0 ∨ get b (next_line b ed.linepos - 1) = 10 := by
          right
          rw [get, if_neg (by omega)]
          rw [show (next_line b ed.linepos - 1).toNat =
            (next_line b ed.linepos).toNat - 1 by omega]
          exact hn4
        exact ih _ (by dsimp only; omega) (by dsimp only; omega) hok'

theorem pageup_loop_inv (b : Buf) :
    ∀ (f : Nat) (ed : Editor),
      0 ≤ ed.linepos →
      (ed.linepos = 0 ∨ get b (ed.linepos - 1) = 10) →
      (pageup_loop b f ed).1.buf = ed.buf ∧
      0 ≤ (pageup_loop b f ed).1.linepos ∧
      ((pageup_loop b f ed).1.linepos = 0 ∨
        get b ((pageup_loop b f ed).1.linepos - 1) = 10) := by
  intro f
  induction f with
  | zero =>
    intro ed h0 h1
    exact ⟨rfl, h0, h1⟩
  | succ f ih =>
    intro ed h0 h1
    rw [pageup_loop]
    dsimp only
    split
    · exact ⟨rfl, h0, h1⟩
    · rename_i hnp
      have hge1 : 1 ≤ ed.linepos := by
        rcases Int.lt_or_le 0 ed.linepos with h | h
        · omega
        · have hz : ed.linepos = 0 := by omega
          rw [prev_line, if_pos hz] at hnp
          omega
      obtain ⟨hp0, hp1, hpls⟩ := prev_line_spec b ed.linepos hge1
      have hok' : prev_line b ed.linepos = 0 ∨ get b (prev_line b ed.linepos - 1) = 10 := by
        by_cases hz : prev_line b ed.linepos = 0
        · left; exact hz
        · right
          rcases hpls with h | h
          · exact absurd h hz
          · rw [get, if_neg (by omega)]
            rw [show (prev_line b ed.linepos - 1).toNat =
              (prev_line b ed.linepos).toNat - 1 by omega]
            exact h
      split
      · exact ih _ (by dsimp only; omega) hok'
      · exact ih _ (by dsimp only; omega) hok'

/-! ### Per-operation preservation of the cursor well-formedness -/

theorem adjust_CursorOK (env : Env) (ed : Editor) (h : CursorOK ed) :
    CursorOK (adjust env ed) := by
  obtain ⟨e1, e2, e3, e4, e5, e6⟩ := adjust_spec env ed
  rcases h with h | h
  · exact Or.inl (by rw [e1]; exact h)
  · exact Or.inr (by rw [e1, e2]; exact h)

theorem up_wf (env : Env) (ed : Editor) (s : Bool) (hW : WF ed) :
    CursorWF (up env ed s) := by
  obtain ⟨h1, h2, h3, h4, h5, h6, h7⟩ := hW
  obtain ⟨a, r, hus⟩ := update_selection_ex ed s
  rw [up]
  dsimp only
  split
  · exact ⟨h1, h2, h3, h4, h5, h6⟩
  · rename_i hnp
    rw [hus]
    dsimp only
    have hge1 : 1 ≤ ed.linepos := by
      by_cases hz : ed.linepos = 0
      · rw [prev_line, if_pos hz] at hnp
        omega
      · omega
    obtain ⟨hp0, hp1, hpls⟩ := prev_line_spec ed.buf ed.linepos hge1
    have hok' : prev_line ed.buf ed.linepos = 0 ∨
        get ed.buf (prev_line ed.buf ed.linepos - 1) = 10 := by
      by_cases hz : prev_line ed.buf ed.linepos = 0
      · left; exact hz
      · right
        rcases hpls with h | h
        · exact absurd h hz
        · rw [get, if_neg (by omega)]
          rw [show (prev_line ed.buf ed.linepos - 1).toNat =
            (prev_line ed.buf ed.linepos).toNat - 1 by omega]
          exact h
    split
    · exact adjust_CursorWF env _ (by dsimp only; omega) (by dsimp only; exact h3)
        (by dsimp only; omega) hok'
    · exact adjust_CursorWF env _ (by dsimp only; omega) (by dsimp only; exact h3)
        (by dsimp only; omega) hok'

theorem down_wf (env : Env) (ed : Editor) (s : Bool) (hW : WF ed) :
    CursorWF (down env ed s) := by
  obtain ⟨h1, h2, h3, h4, h5, h6, h7⟩ := hW
  obtain ⟨a, r, hus⟩ := update_selection_ex ed s
  rw [down]
  dsimp only
  split
  · exact ⟨h1, h2, h3, h4, h5, h6⟩
  · rename_i hnp
    rw [hus]
    dsimp only
    rcases next_line_spec ed.buf ed.linepos h1 with hn | ⟨hn2, hn3, hn4⟩
    · omega
    · have hok' : next_line ed.buf ed.linepos = 0 ∨
          get ed.buf (next_line ed.buf ed.linepos - 1) = 10 := by
        right
        rw [get, if_neg (by omega)]
        rw [show (next_line ed.buf ed.linepos - 1).toNat =
          (next_line ed.buf ed.linepos).toNat - 1 by omega]
        exact hn4
      split
      · exact adjust_CursorWF env _ (by dsimp only; omega) (by dsimp only; exact h3)
          (by dsimp only; omega) hok'
      · exact adjust_CursorWF env _ (by dsimp only; omega) (by dsimp only; exact h3)
          (by dsimp only; omega) hok'

theorem left_wf (env : Env) (ed : Editor) (s : Bool) (hW : WF ed) :
    CursorWF (left env ed s) := by
  obtain ⟨h1, h2, h3, h4, h5, h6, h7⟩ := hW
  obtain ⟨a, r, hus⟩ := update_selection_ex ed s
  rw [left, hus]
  dsimp only
  split
  · rename_i hc
    exact adjust_CursorWF env _ h1 (by dsimp only; omega) (by dsimp only; omega) h5
  · split
    · exact ⟨h1, h2, h3, h4, h5, h6⟩
    · rename_i hc hnp
      have hge1 : 1 ≤ ed.linepos := by
        by_cases hz : ed.linepos = 0
        · rw [prev_line, if_pos hz] at hnp
          omega
        · omega
      obtain ⟨hp0, hp1, hpls⟩ := prev_line_spec ed.buf ed.linepos hge1
      have hok' : prev_line ed.buf ed.linepos = 0 ∨
          get ed.buf (prev_line ed.buf ed.linepos - 1) = 10 := by
        by_cases hz : prev_line ed.buf ed.linepos = 0
        · left; exact hz
        · right
          rcases hpls with h | h
          · exact absurd h hz
          · rw [get, if_neg (by omega)]
            rw [show (prev_line ed.buf ed.linepos - 1).toNat =
              (prev_line ed.buf ed.linepos).toNat - 1 by omega]
            exact h
      have hll := line_length_nonneg ed.buf (prev_line ed.buf ed.linepos)
      split
      · exact adjust_CursorWF env _ (by dsimp only; omega) (by dsimp only; omega)
          (by dsimp only; omega) hok'
      · exact adjust_CursorWF env _ (by dsimp only; omega) (by dsimp only; omega)
          (by dsimp only; omega) hok'

theorem right_wf (env : Env) (ed : Editor) (s : Bool) (hW : WF ed) :
    CursorWF (right env ed s) := by
  obtain ⟨h1, h2, h3, h4, h5, h6, h7⟩ := hW
  obtain ⟨a, r, hus⟩ := update_selection_ex ed s
  rw [right, hus]
  dsimp only
  split
  · exact adjust_CursorWF env _ h1 (by dsimp only; omega) (by dsimp only; omega) h5
  · split
    · exact ⟨h1, h2, h3, h4, h5, h6⟩
    · rename_i hc hnp
      rcases next_line_spec ed.buf ed.linepos h1 with hn | ⟨hn2, hn3, hn4⟩
      · omega
      · have hok' : next_line ed.buf ed.linepos = 0 ∨
            get ed.buf (next_line ed.buf ed.linepos - 1) = 10 := by
          right
          rw [get, if_neg (by omega)]
          rw [show (next_line ed.buf ed.linepos - 1).toNat =
            (next_line ed.buf ed.linepos).toNat - 1 by omega]
          exact hn4
        split
        · exact adjust_CursorWF env _ (by dsimp only; omega) (by dsimp only; omega)
            (by dsimp only; omega) hok'
        · exact adjust_CursorWF env _ (by dsimp only; omega) (by dsimp only; omega)
            (by dsimp only; omega) hok'

theorem home_wf (env : Env) (ed : Editor) (s : Bool) (hW : WF ed) :
    CursorWF (home env ed s) := by
  obtain ⟨h1, h2, h3, h4, h5, h6, h7⟩ := hW
  obtain ⟨a, r, hus⟩ := update_selection_ex ed s
  rw [home, hus]
  exact adjust_CursorWF env _ h1 (by dsimp only; omega) (by dsimp only; omega) h5

theorem end_wf (env : Env) (ed : Editor) (s : Bool) (hW : WF ed) :
    CursorWF (end_ env ed s) := by
  obtain ⟨h1, h2, h3, h4, h5, h6, h7⟩ := hW
  obtain ⟨a, r, hus⟩ := update_selection_ex ed s
  rw [end_, hus]
  dsimp only
  have hll := line_length_nonneg ed.buf ed.linepos
  exact adjust_CursorWF env _ h1 (by dsimp only; omega) (by dsimp only; omega) h5

theorem top_wf (env : Env) (ed : Editor) (s : Bool) (hW : WF ed) :
    CursorWF (top env ed s) := by
  obtain ⟨a, r, hus⟩ := update_selection_ex ed s
  rw [top, hus]
  refine ⟨le_refl 0, le_refl 0, le_refl 0, ?_, Or.inl rfl, ?_⟩
  · dsimp only
    have := text_length_nonneg ed.buf
    omega
  · show (0 : Int) ≤ line_length ed.buf 0
    exact line_length_nonneg ed.buf 0

theorem bottom_wf (env : Env) (ed : Editor) (s : Bool) (hW : WF ed) :
    CursorWF (bottom env ed s) := by
  obtain ⟨h1, h2, h3, h4, h5, h6, h7⟩ := hW
  obtain ⟨a, r, hus⟩ := update_selection_ex ed s
  rw [bottom, hus]
  dsimp only
  obtain ⟨b1, b2, b3, b4, b5, b6, b7⟩ := bottom_loop_inv env ed.buf
    ((text_length ed.buf - ed.linepos).toNat + 1)
    { ed with anchor := a, refresh := r } h1 (by dsimp only; omega) h5
  have hll := line_length_nonneg
    (bottom_loop env ed.buf ((text_length ed.buf - ed.linepos).toNat + 1)
      { ed with anchor := a, refresh := r }).buf
    (bottom_loop env ed.buf ((text_length ed.buf - ed.linepos).toNat + 1)
      { ed with anchor := a, refresh := r }).linepos
  refine adjust_CursorWF env _ (by dsimp only; exact b5) (by dsimp only; exact hll)
    ?_ ?_
  · dsimp only
    rw [b1]
    exact b6
  · show _ = 0 ∨ get _ _ = 10
    dsimp only
    rw [b1]
    exact b7

theorem pagedown_wf (env : Env) (ed : Editor) (s : Bool) (hW : WF ed) :
    CursorWF (pagedown env ed s) := by
  obtain ⟨h1, h2, h3, h4, h5, h6, h7⟩ := hW
  obtain ⟨a, r, hus⟩ := update_selection_ex ed s
  rw [pagedown, hus]
  dsimp only
  obtain ⟨c1, c2, c3, c4, c5, c6, c7⟩ := pagedown_loop_inv ed.buf env.lines.toNat
    { ed with anchor := a, refresh := r } h1 (by dsimp only; omega) h5
  refine adjust_CursorWF env _ (by dsimp only; exact c5) ?_ ?_ ?_
  · dsimp only
    rw [c3]
    exact h3
  · dsimp only
    rw [c1]
    exact c6
  · show _ = 0 ∨ get _ _ = 10
    dsimp only
    rw [c1]
    exact c7

theorem wordleft_wf (env : Env) (ed : Editor) (s : Bool) (hW : WF ed) :
    CursorWF (wordleft env ed s) := by
  obtain ⟨h1, h2, h3, h4, h5, h6, h7⟩ := hW
  obtain ⟨a, r, hus⟩ := update_selection_ex ed s
  rw [wordleft, hus]
  dsimp only
  obtain ⟨c1, c2, c3, c4, c5, c6, c7, c8, c9⟩ := wordleft_loop_inv ed.buf
    ((ed.linepos + ed.col).toNat + 1) (ed.linepos + ed.col) 0
    { ed with anchor := a, refresh := r } (by omega) (by dsimp only; omega) h1 h5
  split
  · refine adjust_CursorWF env _ (by dsimp only; exact c8) (by dsimp only; omega) ?_ ?_
    · dsimp only
      rw [c1]
      dsimp only
      omega
    · show _ = 0 ∨ get _ _ = 10
      dsimp only
      rw [c1]
      exact c9
  · refine adjust_CursorWF env _ (by dsimp only; exact c8) (by dsimp only; omega) ?_ ?_
    · dsimp only
      rw [c1]
      dsimp only
      omega
    · show _ = 0 ∨ get _ _ = 10
      dsimp only
      rw [c1]
      exact c9

theorem wordright_wf (env : Env) (ed : Editor) (s : Bool) (hW : WF ed) :
    CursorWF (wordright env ed s) := by
  obtain ⟨h1, h2, h3, h4, h5, h6, h7⟩ := hW
  obtain ⟨a, r, hus⟩ := update_selection_ex ed s
  rw [wordright, hus]
  dsimp only
  obtain ⟨c1, c2, c3, c4, c5, c6, c7, c8, c9⟩ := wordright_loop_inv ed.buf
    (text_length ed.buf) ((text_length ed.buf - (ed.linepos + ed.col)).toNat + 1)
    (ed.linepos + ed.col) 0 (next_line ed.buf ed.linepos)
    { ed with anchor := a, refresh := r } (by omega) (by omega) (by dsimp only; omega) h1 rfl h5
  split
  · refine adjust_CursorWF env _ (by dsimp only; exact c8) (by dsimp only; omega) ?_ ?_
    · dsimp only
      rw [c1]
      dsimp only
      omega
    · show _ = 0 ∨ get _ _ = 10
      dsimp only
      rw [c1]
      exact c9
  · refine adjust_CursorWF env _ (by dsimp only; exact c8) (by dsimp only; omega) ?_ ?_
    · dsimp only
      rw [c1]
      dsimp only
      omega
    · show _ = 0 ∨ get _ _ = 10
      dsimp only
      rw [c1]
      exact c9

theorem pageup_cursorok (env : Env) (ed : Editor) (s : Bool) (hW : WF ed) :
    CursorOK (pageup env ed s) := by
  obtain ⟨h1, h2, h3, h4, h5, h6, h7⟩ := hW
  obtain ⟨a, r, hus⟩ := update_selection_ex ed s
  rw [pageup, hus]
  dsimp only
  split
  · exact adjust_CursorOK env _ (Or.inl rfl)
  · obtain ⟨p1, p2, p3⟩ := pageup_loop_inv ed.buf env.lines.toNat
      { ed with anchor := a, refresh := r } h1 h5
    split
    · rcases p3 with h | h
      · exact Or.inl h
      · refine Or.inr ?_
        rw [p1]
        exact h
    · refine adjust_CursorOK env _ ?_
      show _ = 0 ∨ get _ _ = 10
      dsimp only
      rcases p3 with h | h
      · exact Or.inl h
      · refine Or.inr ?_
        rw [p1]
        exact h

/-! ### Editing operations -/

theorem wf_wrap (P : Prop) (t : Editor) (h : CursorWF t) :
    CursorOK t ∧ (P → CursorWF t) :=
  ⟨h.2.2.2.2.1, fun _ => h⟩

theorem nth_buf_replace_below (b : Buf) (pos len : Int) (ins : List Int) (j : Nat)
    (h0 : 0 ≤ pos) (hl : 0 ≤ len) (h1 : pos + len ≤ text_length b)
    (hj : (j : Int) < pos) :
    nth (cnt (buf_replace b pos len ins)) j = nth (cnt b) j := by
  rw [cnt_buf_replace b pos len ins h0 h1 hl]
  have hlen := text_length_eq b
  have htk : j < ((cnt b).take pos.toNat).length := by
    simp only [List.length_take]
    omega
  rw [List.append_assoc, nth_append_left _ _ _ htk, nth_take]
  omega

theorem colok_transfer (b b' : Buf) (lp cl : Int) (h0 : 0 ≤ lp) (hcl : 0 ≤ cl)
    (hsum : lp + cl ≤ text_length b')
    (heq : ∀ j : Nat, lp ≤ (j : Int) → (j : Int) < lp + cl →
      nth (cnt b') j = nth (cnt b) j)
    (hok : ∀ j : Nat, lp ≤ (j : Int) → (j : Int) < lp + cl →
      nth (cnt b) j ≠ 10 ∧ nth (cnt b) j ≠ 13) :
    cl ≤ line_length b' lp := by
  have hlen := text_length_eq b'
  have h := scan_len_ge ((cnt b').drop lp.toNat) cl.toNat
    (by simp only [List.length_drop]; omega) ?_
  · rw [line_length]
    omega
  · intro i hi
    rw [nth_drop, heq (lp.toNat + i) (by omega) (by omega)]
    exact hok (lp.toNat + i) (by omega) (by omega)

theorem redo_eq_self (env : Env) (ed : Editor) (h : ed.undoIdx = ed.records.length) :
    redo env ed = ed := by
  rw [redo]
  rcases Nat.eq_zero_or_pos ed.undoIdx with h0 | h0
  · rw [if_neg (by omega), if_pos (by omega)]
  · rw [if_pos (by omega), if_pos (by omega)]

theorem insert_char_wf (env : Env) (ed : Editor) (ch : Int) (hW : WF ed) :
    CursorWF (insert_char env ed ch) := by
  obtain ⟨e1, e2, e3, e4, e5, e6, e7⟩ := erase_selection_spec env ed hW
  rw [insert_char]
  dsimp only
  obtain ⟨r1, r2, r3, r4, r5, r6, r7, r8⟩ := replace_fields (erase_selection env ed).1
    ((erase_selection env ed).1.linepos + (erase_selection env ed).1.col) 0 [ch] true
  have hlen := length_buf_replace (erase_selection env ed).1.buf
    ((erase_selection env ed).1.linepos + (erase_selection env ed).1.col) 0 [ch]
    (by omega) (by omega) (le_refl 0)
  simp only [List.length_cons, List.length_nil] at hlen
  have hokF : CursorOK (replace (erase_selection env ed).1
      ((erase_selection env ed).1.linepos + (erase_selection env ed).1.col) 0 [ch] true) := by
    rcases e4 with h | h
    · exact Or.inl (by rw [r2]; exact h)
    · refine Or.inr ?_
      rw [r2, r1]
      rw [get_buf_replace_below _ _ _ _ _ (by omega) (le_refl 0) (by omega) (by omega)]
      exact h
  have hwf := adjust_CursorWF env
    { replace (erase_selection env ed).1
        ((erase_selection env ed).1.linepos + (erase_selection env ed).1.col) 0 [ch] true with
      col := (replace (erase_selection env ed).1
        ((erase_selection env ed).1.linepos + (erase_selection env ed).1.col) 0
          [ch] true).col + 1
      lastcol := (replace (erase_selection env ed).1
        ((erase_selection env ed).1.linepos + (erase_selection env ed).1.col) 0
          [ch] true).col + 1 }
    (by dsimp only; rw [r2]; exact e1) (by dsimp only; rw [r3]; omega)
    (by dsimp only; rw [r2, r1, hlen]; omega) hokF
  split
  · exact hwf
  · exact hwf

theorem newline_wf (env : Env) (ed : Editor) (hW : WF ed) :
    CursorWF (newline env ed) := by
  obtain ⟨e1, e2, e3, e4, e5, e6, e7⟩ := erase_selection_spec env ed hW
  rw [newline]
  dsimp only
  obtain ⟨r1, r2, r3, r4, r5, r6, r7, r8⟩ := replace_fields (erase_selection env ed).1
    ((erase_selection env ed).1.linepos + (erase_selection env ed).1.col) 0 [10] true
  have hlen := length_buf_replace (erase_selection env ed).1.buf
    ((erase_selection env ed).1.linepos + (erase_selection env ed).1.col) 0 [10]
    (by omega) (by omega) (le_refl 0)
  simp only [List.length_cons, List.length_nil] at hlen
  have hcnt := cnt_buf_replace (erase_selection env ed).1.buf
    ((erase_selection env ed).1.linepos + (erase_selection env ed).1.col) 0 [10]
    (by omega) (by omega) (le_refl 0)
  have hlenE := text_length_eq (erase_selection env ed).1.buf
  have hlenF := text_length_eq (buf_replace (erase_selection env ed).1.buf
    ((erase_selection env ed).1.linepos + (erase_selection env ed).1.col) 0 [10])
  have hTK : (((cnt (erase_selection env ed).1.buf)).take
      ((erase_selection env ed).1.linepos + (erase_selection env ed).1.col).toNat).length =
      ((erase_selection env ed).1.linepos + (erase_selection env ed).1.col).toNat := by
    simp only [List.length_take]
    omega
  have h10 : nth (cnt (buf_replace (erase_selection env ed).1.buf
      ((erase_selection env ed).1.linepos + (erase_selection env ed).1.col) 0 [10]))
      ((erase_selection env ed).1.linepos + (erase_selection env ed).1.col).toNat = 10 := by
    rw [hcnt, List.append_assoc, nth_append_right _ _ _ (by omega), hTK, Nat.sub_self]
    rfl
  have hne : next_line (replace (erase_selection env ed).1
      ((erase_selection env ed).1.linepos + (erase_selection env ed).1.col) 0 [10] true).buf
      (replace (erase_selection env ed).1
        ((erase_selection env ed).1.linepos + (erase_selection env ed).1.col) 0
        [10] true).linepos ≠ -1 := by
    refine next_line_ne _ _ (by rw [r2]; exact e1)
      ((erase_selection env ed).1.linepos + (erase_selection env ed).1.col).toNat
      (by rw [r2]; omega) ?_ ?_
    · rw [r1]
      omega
    · rw [r1]
      exact h10
  rcases next_line_spec (replace (erase_selection env ed).1
      ((erase_selection env ed).1.linepos + (erase_selection env ed).1.col) 0 [10] true).buf
      (replace (erase_selection env ed).1
        ((erase_selection env ed).1.linepos + (erase_selection env ed).1.col) 0
        [10] true).linepos (by rw [r2]; exact e1) with hn | ⟨hn2, hn3, hn4⟩
  · exact absurd hn hne
  · have hok' : next_line (replace (erase_selection env ed).1
        ((erase_selection env ed).1.linepos + (erase_selection env ed).1.col) 0
        [10] true).buf
        (replace (erase_selection env ed).1
          ((erase_selection env ed).1.linepos + (erase_selection env ed).1.col) 0
          [10] true).linepos = 0 ∨
        get (replace (erase_selection env ed).1
          ((erase_selection env ed).1.linepos + (erase_selection env ed).1.col) 0
          [10] true).buf
          (next_line (replace (erase_selection env ed).1
            ((erase_selection env ed).1.linepos + (erase_selection env ed).1.col) 0
            [10] true).buf
            (replace (erase_selection env ed).1
              ((erase_selection env ed).1.linepos + (erase_selection env ed).1.col) 0
              [10] true).linepos - 1) = 10 := by
      right
      rw [get, if_neg (by omega)]
      rw [show (next_line (replace (erase_selection env ed).1
          ((erase_selection env ed).1.linepos + (erase_selection env ed).1.col) 0
          [10] true).buf
          (replace (erase_selection env ed).1
            ((erase_selection env ed).1.linepos + (erase_selection env ed).1.col) 0
            [10] true).linepos - 1).toNat =
        (next_line (replace (erase_selection env ed).1
          ((erase_selection env ed).1.linepos + (erase_selection env ed).1.col) 0
          [10] true).buf
          (replace (erase_selection env ed).1
            ((erase_selection env ed).1.linepos + (erase_selection env ed).1.col) 0
            [10] true).linepos).toNat - 1 by omega]
      exact hn4
    have hn3' := hn3
    rw [r1] at hn3'
    split
    · exact adjust_CursorWF env _ (by dsimp only; omega) (by dsimp only; omega)
        (by dsimp only; rw [r1]; exact hn3') hok'
    · exact adjust_CursorWF env _ (by dsimp only; omega) (by dsimp only; omega)
        (by dsimp only; rw [r1]; exact hn3') hok'

theorem line_start_nonneg (b : Buf) (p : Int) : 0 ≤ line_start b p := by
  rw [line_start]
  omega

theorem line_start_le (b : Buf) (p : Int) (hp : 0 ≤ p) : line_start b p ≤ p := by
  rw [line_start]
  have := scan_start_le (cnt b) p.toNat
  omega

theorem line_start_linestart (b : Buf) (p : Int) :
    line_start b p = 0 ∨ get b (line_start b p - 1) = 10 := by
  by_cases hz : scan_start (cnt b) p.toNat = 0
  · left
    rw [line_start, hz]
    rfl
  · rcases scan_start_linestart (cnt b) p.toNat with h | h
    · exact absurd h hz
    · right
      rw [line_start, get, if_neg (by omega)]
      rw [show ((((scan_start (cnt b) p.toNat : Nat) : Int)) - 1).toNat =
        scan_start (cnt b) p.toNat - 1 by omega]
      exact h

/-- A state whose cursor fields agree with a well-formed state, whose cursor
still fits in the buffer, and whose bytes left of the cursor are unchanged,
is itself cursor well-formed. -/
theorem del_like_wf (ed D : Editor) (hW : WF ed)
    (hlp : D.linepos = ed.linepos) (hcol : D.col = ed.col) (hlast : D.lastcol = ed.lastcol)
    (hsum : ed.linepos + ed.col ≤ text_length D.buf)
    (heq : ∀ j : Nat, (j : Int) < ed.linepos + ed.col →
      nth (cnt D.buf) j = nth (cnt ed.buf) j) :
    CursorWF D := by
  obtain ⟨h1, h2, h3, h4, h5, h6, h7⟩ := hW
  refine ⟨by omega, by omega, by omega, by omega, ?_, ?_⟩
  · rcases h5 with h | h
    · exact Or.inl (by omega)
    · have hge : 1 ≤ ed.linepos := by
        by_contra hc
        push_neg at hc
        rw [get, if_pos (by omega)] at h
        omega
      refine Or.inr ?_
      rw [hlp, get, if_neg (by omega)]
      rw [get, if_neg (by omega)] at h
      rw [heq (ed.linepos - 1).toNat (by omega)]
      exact h
  · show D.col ≤ line_length D.buf D.linepos
    rw [hcol, hlp]
    exact colok_transfer ed.buf D.buf ed.linepos ed.col h1 h2 hsum
      (fun j hj1 hj2 => heq j (by omega))
      (fun j hj1 hj2 => colok_clean ed.buf ed.linepos ed.col h1 h6 j hj1 hj2)

theorem sel_erase_wf (env : Env) (ed : Editor) (hW : WF ed) :
    CursorOK (erase_selection env ed).1 ∧
    (noCR (cnt ed.buf) = true → CursorWF (erase_selection env ed).1) := by
  obtain ⟨e1, e2, e3, e4, e5, e6, e7⟩ := erase_selection_spec env ed hW
  have h3 := hW.2.2.1
  exact ⟨e4, fun hCR => ⟨e1, e2, by rw [e5]; exact h3, e3, e4, (e7 hCR).2⟩⟩

theorem backspace_wf (env : Env) (ed : Editor) (hW : WF ed) :
    CursorOK (backspace env ed) ∧ (noCR (cnt ed.buf) = true → CursorWF (backspace env ed)) := by
  cases hsel : get_selection ed with
  | some se =>
    have h2' : (erase_selection env ed).2 = true := by
      rw [erase_selection, hsel]
    rw [backspace]
    dsimp only
    rw [if_pos h2']
    exact sel_erase_wf env ed hW
  | none =>
    have hr : erase_selection env ed = (ed, false) := by rw [erase_selection, hsel]
    obtain ⟨h1, h2, h3, h4, h5, h6, h7⟩ := hW
    rw [backspace, hr]
    dsimp only
    rw [if_neg Bool.false_ne_true]
    split
    · exact ⟨h5, fun _ => ⟨h1, h2, h3, h4, h5, h6⟩⟩
    · split
      · rename_i hcur hcol0
        have hge1 : 1 ≤ ed.linepos := by omega
        have hv1 : (ed.linepos - 1) + 1 ≤ text_length ed.buf := by omega
        obtain ⟨rA1, rA2, rA3, rA4, rA5, rA6, rA7, rA8⟩ :=
          replace_fields ed (ed.linepos - 1) 1 [] true
        have hlen1 := length_buf_replace ed.buf (ed.linepos - 1) 1 [] (by omega) hv1
          (by omega)
        simp only [List.length_nil] at hlen1
        split
        · rename_i h13
          have hPge : 0 ≤ ed.linepos - 1 - 1 := by
            by_contra hc
            push_neg at hc
            rw [rA1, get, if_pos (by omega)] at h13
            omega
          have hPin : (ed.linepos - 1 - 1).toNat <
              (cnt (buf_replace ed.buf (ed.linepos - 1) 1 [])).length := by
            rw [rA1, get, if_neg (by omega)] at h13
            by_contra hc
            push_neg at hc
            rw [nth_of_ge _ _ hc] at h13
            omega
          have hlenB := text_length_eq (buf_replace ed.buf (ed.linepos - 1) 1 [])
          have hv2 : (ed.linepos - 1 - 1) + 1 ≤
              text_length (replace ed (ed.linepos - 1) 1 [] true).buf := by
            rw [rA1]
            omega
          obtain ⟨rB1, rB2, rB3, rB4, rB5, rB6, rB7, rB8⟩ :=
            replace_fields (replace ed (ed.linepos - 1) 1 [] true)
              (ed.linepos - 1 - 1) 1 [] true
          have hlen2 := length_buf_replace (replace ed (ed.linepos - 1) 1 [] true).buf
            (ed.linepos - 1 - 1) 1 [] (by omega) hv2 (by omega)
          simp only [List.length_nil] at hlen2
          have hlenD : text_length (replace (replace ed (ed.linepos - 1) 1 [] true)
              (ed.linepos - 1 - 1) 1 [] true).buf = text_length ed.buf - 2 := by
            rw [rB1, hlen2, rA1, hlen1]
            omega
          have hPle : ed.linepos - 1 - 1 ≤ text_length (replace
              (replace ed (ed.linepos - 1) 1 [] true) (ed.linepos - 1 - 1) 1 [] true).buf := by
            rw [hlenD]
            omega
          apply wf_wrap
          split
          · exact adjust_CursorWF env _ (by dsimp only; exact line_start_nonneg _ _)
              (by dsimp only
                  have := line_start_le (replace (replace ed (ed.linepos - 1) 1 [] true)
                    (ed.linepos - 1 - 1) 1 [] true).buf (ed.linepos - 1 - 1) hPge
                  omega)
              (by dsimp only
                  have h0 := line_start_nonneg (replace (replace ed (ed.linepos - 1) 1 [] true)
                    (ed.linepos - 1 - 1) 1 [] true).buf (ed.linepos - 1 - 1)
                  have := line_start_le (replace (replace ed (ed.linepos - 1) 1 [] true)
                    (ed.linepos - 1 - 1) 1 [] true).buf (ed.linepos - 1 - 1) hPge
                  omega)
              (line_start_linestart _ _)
          · exact adjust_CursorWF env _ (by dsimp only; exact line_start_nonneg _ _)
              (by dsimp only
                  have := line_start_le (replace (replace ed (ed.linepos - 1) 1 [] true)
                    (ed.linepos - 1 - 1) 1 [] true).buf (ed.linepos - 1 - 1) hPge
                  omega)
              (by dsimp only
                  have h0 := line_start_nonneg (replace (replace ed (ed.linepos - 1) 1 [] true)
                    (ed.linepos - 1 - 1) 1 [] true).buf (ed.linepos - 1 - 1)
                  have := line_start_le (replace (replace ed (ed.linepos - 1) 1 [] true)
                    (ed.linepos - 1 - 1) 1 [] true).buf (ed.linepos - 1 - 1) hPge
                  omega)
              (line_start_linestart _ _)
        · have hPle : ed.linepos - 1 ≤ text_length (replace ed (ed.linepos - 1) 1 []
              true).buf := by
            rw [rA1, hlen1]
            omega
          apply wf_wrap
          split
          · exact adjust_CursorWF env _ (by dsimp only; exact line_start_nonneg _ _)
              (by dsimp only
                  have := line_start_le (replace ed (ed.linepos - 1) 1 [] true).buf
                    (ed.linepos - 1) (by omega)
                  omega)
              (by dsimp only
                  have h0 := line_start_nonneg (replace ed (ed.linepos - 1) 1 [] true).buf
                    (ed.linepos - 1)
                  have := line_start_le (replace ed (ed.linepos - 1) 1 [] true).buf
                    (ed.linepos - 1) (by omega)
                  omega)
              (line_start_linestart _ _)
          · exact adjust_CursorWF env _ (by dsimp only; exact line_start_nonneg _ _)
              (by dsimp only
                  have := line_start_le (replace ed (ed.linepos - 1) 1 [] true).buf
                    (ed.linepos - 1) (by omega)
                  omega)
              (by dsimp only
                  have h0 := line_start_nonneg (replace ed (ed.linepos - 1) 1 [] true).buf
                    (ed.linepos - 1)
                  have := line_start_le (replace ed (ed.linepos - 1) 1 [] true).buf
                    (ed.linepos - 1) (by omega)
                  omega)
              (line_start_linestart _ _)
      · rename_i hcur hcoln
        have hcolpos : 1 ≤ ed.col := by omega
        have hv1 : (ed.linepos + (ed.col - 1)) + 1 ≤ text_length ed.buf := by omega
        obtain ⟨rA1, rA2, rA3, rA4, rA5, rA6, rA7, rA8⟩ :=
          replace_fields { ed with col := ed.col - 1 } (ed.linepos + (ed.col - 1)) 1 [] true
        dsimp only at rA1 rA2 rA3 rA4
        have hlen1 := length_buf_replace ed.buf (ed.linepos + (ed.col - 1)) 1 []
          (by omega) hv1 (by omega)
        simp only [List.length_nil] at hlen1
        have hok' : CursorOK (replace { ed with col := ed.col - 1 }
            (ed.linepos + (ed.col - 1)) 1 [] true) := by
          rcases h5 with h | h
          · exact Or.inl (by rw [rA2]; exact h)
          · have hge : 1 ≤ ed.linepos := by
              by_contra hc
              push_neg at hc
              rw [get, if_pos (by omega)] at h
              omega
            refine Or.inr ?_
            rw [rA2, rA1]
            show get (buf_replace ed.buf (ed.linepos + (ed.col - 1)) 1 []) _ = 10
            rw [get_buf_replace_below _ _ _ _ _ (by omega) (by omega) hv1 (by omega)]
            exact h
        have hlpE : (replace { ed with col := ed.col - 1 } (ed.linepos + (ed.col - 1)) 1
            [] true).linepos = ed.linepos := by
          rw [rA2]
        have hlcE : (replace { ed with col := ed.col - 1 } (ed.linepos + (ed.col - 1)) 1
            [] true).col = ed.col - 1 := by
          rw [rA3]
        have hbufE : text_length (replace { ed with col := ed.col - 1 }
            (ed.linepos + (ed.col - 1)) 1 [] true).buf = text_length ed.buf - 1 := by
          rw [rA1, hlen1]
          omega
        apply wf_wrap
        exact adjust_CursorWF env _ (by dsimp only; rw [hlpE]; exact h1)
          (by dsimp only; rw [hlcE]; omega)
          (by dsimp only; rw [hlpE, hbufE]; omega)
          hok'

theorem del_wf (env : Env) (ed : Editor) (hW : WF ed) :
    CursorOK (del env ed) ∧ (noCR (cnt ed.buf) = true → CursorWF (del env ed)) := by
  cases hsel : get_selection ed with
  | some se =>
    have h2' : (erase_selection env ed).2 = true := by
      rw [erase_selection, hsel]
    rw [del]
    dsimp only
    rw [if_pos h2']
    exact sel_erase_wf env ed hW
  | none =>
    have hr : erase_selection env ed = (ed, false) := by rw [erase_selection, hsel]
    obtain ⟨h1, h2, h3, h4, h5, h6, h7⟩ := hW
    rw [del, hr]
    dsimp only
    rw [if_neg Bool.false_ne_true]
    split
    · exact ⟨h5, fun _ => ⟨h1, h2, h3, h4, h5, h6⟩⟩
    · rename_i hch
      have hin : (ed.linepos + ed.col).toNat < (cnt ed.buf).length := by
        rw [get, if_neg (by omega)] at hch
        by_contra hc
        push_neg at hc
        rw [nth_of_ge _ _ hc] at hch
        omega
      have hlenc := text_length_eq ed.buf
      have hv1 : (ed.linepos + ed.col) + 1 ≤ text_length ed.buf := by omega
      obtain ⟨rA1, rA2, rA3, rA4, rA5, rA6, rA7, rA8⟩ :=
        replace_fields ed (ed.linepos + ed.col) 1 [] true
      have hlen1 := length_buf_replace ed.buf (ed.linepos + ed.col) 1 [] (by omega) hv1
        (by omega)
      simp only [List.length_nil] at hlen1
      have hD1 : CursorWF (replace ed (ed.linepos + ed.col) 1 [] true) := by
        refine del_like_wf ed _ ⟨h1, h2, h3, h4, h5, h6, h7⟩ rA2 rA3 rA4 ?_ ?_
        · rw [rA1, hlen1]
          omega
        · intro j hj
          rw [rA1]
          exact nth_buf_replace_below ed.buf (ed.linepos + ed.col) 1 [] j (by omega)
            (by omega) hv1 (by omega)
      split
      · rename_i h13
        split
        · rename_i h10c
          have hin2 : (ed.linepos + ed.col).toNat <
              (cnt (replace ed (ed.linepos + ed.col) 1 [] true).buf).length := by
            rw [get, if_neg (by omega)] at h10c
            by_contra hc
            push_neg at hc
            rw [nth_of_ge _ _ hc] at h10c
            omega
          have hlenc2 := text_length_eq (replace ed (ed.linepos + ed.col) 1 [] true).buf
          have hE1len : text_length (replace ed (ed.linepos + ed.col) 1 [] true).buf =
              text_length ed.buf - 1 := by
            rw [rA1, hlen1]
            omega
          have hv2 : (ed.linepos + ed.col) + 1 ≤
              text_length (replace ed (ed.linepos + ed.col) 1 [] true).buf := by omega
          obtain ⟨rB1, rB2, rB3, rB4, rB5, rB6, rB7, rB8⟩ :=
            replace_fields (replace ed (ed.linepos + ed.col) 1 [] true)
              (ed.linepos + ed.col) 1 [] true
          have hlen2 := length_buf_replace (replace ed (ed.linepos + ed.col) 1 [] true).buf
            (ed.linepos + ed.col) 1 [] (by omega) hv2 (by omega)
          simp only [List.length_nil] at hlen2
          have hlenD2 : text_length (replace (replace ed (ed.linepos + ed.col) 1 [] true)
              (ed.linepos + ed.col) 1 [] true).buf = text_length ed.buf - 2 := by
            rw [rB1, hlen2, rA1, hlen1]
            omega
          have hD2 : CursorWF (replace (replace ed (ed.linepos + ed.col) 1 [] true)
              (ed.linepos + ed.col) 1 [] true) := by
            refine del_like_wf ed _ ⟨h1, h2, h3, h4, h5, h6, h7⟩ (by rw [rB2, rA2])
              (by rw [rB3, rA3]) (by rw [rB4, rA4]) ?_ ?_
            · rw [hlenD2]
              omega
            · intro j hj
              rw [rB1]
              rw [nth_buf_replace_below (replace ed (ed.linepos + ed.col) 1 [] true).buf
                (ed.linepos + ed.col) 1 [] j (by omega) (by omega) hv2 (by omega)]
              rw [rA1]
              exact nth_buf_replace_below ed.buf (ed.linepos + ed.col) 1 [] j (by omega)
                (by omega) hv1 (by omega)
          exact ⟨hD2.2.2.2.2.1, fun _ => hD2⟩
        · exact ⟨hD1.2.2.2.2.1, fun _ => hD1⟩
      · split
        · exact ⟨hD1.2.2.2.2.1, fun _ => hD1⟩
        · exact ⟨hD1.2.2.2.2.1, fun _ => hD1⟩

theorem select_all_wf (env : Env) (ed : Editor) (hW : WF ed) :
    CursorOK (select_all env ed) ∧
    (noCR (cnt ed.buf) = true → CursorWF (select_all env ed)) := by
  have hW' := hW
  obtain ⟨h1, h2, h3, h4, h5, h6, h7⟩ := hW'
  rw [select_all]
  obtain ⟨w1, w2, w3, w4, w5, w6⟩ := moveto_wfout env
    { ed with anchor := 0, refresh := true } (text_length ed.buf) false
    h1 h2 (text_length_nonneg ed.buf) (le_refl _) (Or.inl h5)
    (fun j hj1 hj2 _ => (colok_clean ed.buf ed.linepos ed.col h1 h6 j hj1 hj2).1)
  have hbuf : (moveto env { ed with anchor := 0, refresh := true }
      (text_length ed.buf) false).buf = ed.buf :=
    moveto_buf env { ed with anchor := 0, refresh := true } (text_length ed.buf) false
  have hlast : (moveto env { ed with anchor := 0, refresh := true }
      (text_length ed.buf) false).lastcol = ed.lastcol :=
    moveto_lastcol env { ed with anchor := 0, refresh := true } (text_length ed.buf) false
  refine ⟨w5, fun hCR => ⟨w1, w3, ?_, ?_, w5, ?_⟩⟩
  · rw [hlast]
    exact h3
  · rw [hbuf]
    exact w4
  · show (moveto env { ed with anchor := 0, refresh := true }
        (text_length ed.buf) false).col ≤ _
    refine colok_of_clean _ _ _ w1 w3 ?_ ?_ ?_
    · rw [hbuf]
      exact w4
    · rw [hbuf]
      exact hCR
    · intro j hj1 hj2
      rw [hbuf]
      exact w6 j hj1 hj2

theorem paste_wf (env : Env) (ed : Editor) (clip : List Int) (hW : WF ed)
    (hclip : noCR clip = true) :
    CursorOK (paste_selection env ed clip) ∧
    (noCR (cnt ed.buf) = true → CursorWF (paste_selection env ed clip)) := by
  obtain ⟨e1, e2, e3, e4, e5, e6, e7⟩ := erase_selection_spec env ed hW
  have h3 := hW.2.2.1
  rw [paste_selection]
  obtain ⟨r1, r2, r3, r4, r5, r6, r7, r8⟩ := replace_fields (erase_selection env ed).1
    ((erase_selection env ed).1.linepos + (erase_selection env ed).1.col) 0 clip true
  have hlen := length_buf_replace (erase_selection env ed).1.buf
    ((erase_selection env ed).1.linepos + (erase_selection env ed).1.col) 0 clip
    (by omega) (by omega) (le_refl 0)
  have hcnt := cnt_buf_replace (erase_selection env ed).1.buf
    ((erase_selection env ed).1.linepos + (erase_selection env ed).1.col) 0 clip
    (by omega) (by omega) (le_refl 0)
  have hokF : CursorOK (replace (erase_selection env ed).1
      ((erase_selection env ed).1.linepos + (erase_selection env ed).1.col) 0 clip true) := by
    rcases e4 with h | h
    · exact Or.inl (by rw [r2]; exact h)
    · refine Or.inr ?_
      rw [r2, r1]
      rw [get_buf_replace_below _ _ _ _ _ (by omega) (le_refl 0) (by omega) (by omega)]
      exact h
  have hHent : ∀ j : Nat,
      (replace (erase_selection env ed).1
        ((erase_selection env ed).1.linepos + (erase_selection env ed).1.col) 0
        clip true).linepos ≤ (j : Int) →
      (j : Int) < (replace (erase_selection env ed).1
        ((erase_selection env ed).1.linepos + (erase_selection env ed).1.col) 0
        clip true).linepos +
        (replace (erase_selection env ed).1
          ((erase_selection env ed).1.linepos + (erase_selection env ed).1.col) 0
          clip true).col →
      (j : Int) < (replace (erase_selection env ed).1
        ((erase_selection env ed).1.linepos + (erase_selection env ed).1.col) 0
        clip true).linepos +
        (replace (erase_selection env ed).1
          ((erase_selection env ed).1.linepos + (erase_selection env ed).1.col) 0
          clip true).col + (clip.length : Int) →
      nth (cnt (replace (erase_selection env ed).1
        ((erase_selection env ed).1.linepos + (erase_selection env ed).1.col) 0
        clip true).buf) j ≠ 10 := by
    intro j hj1 hj2 _
    rw [r2] at hj1
    rw [r2, r3] at hj2
    rw [r1]
    rw [nth_buf_replace_below _ _ _ _ _ (by omega) (le_refl 0) (by omega) (by omega)]
    exact e6 j hj1 hj2
  obtain ⟨w1, w2, w3, w4, w5, w6⟩ := moveto_wfout env
    (replace (erase_selection env ed).1
      ((erase_selection env ed).1.linepos + (erase_selection env ed).1.col) 0 clip true)
    ((replace (erase_selection env ed).1
      ((erase_selection env ed).1.linepos + (erase_selection env ed).1.col) 0
      clip true).linepos +
     (replace (erase_selection env ed).1
      ((erase_selection env ed).1.linepos + (erase_selection env ed).1.col) 0
      clip true).col + (clip.length : Int)) false
    (by rw [r2]; exact e1) (by rw [r3]; exact e2)
    (by rw [r2, r3]; omega)
    (by rw [r2, r3, r1, hlen]; omega)
    (Or.inl hokF) hHent
  have hbufM := moveto_buf env
    (replace (erase_selection env ed).1
      ((erase_selection env ed).1.linepos + (erase_selection env ed).1.col) 0 clip true)
    ((replace (erase_selection env ed).1
      ((erase_selection env ed).1.linepos + (erase_selection env ed).1.col) 0
      clip true).linepos +
     (replace (erase_selection env ed).1
      ((erase_selection env ed).1.linepos + (erase_selection env ed).1.col) 0
      clip true).col + (clip.length : Int)) false
  have hlastM := moveto_lastcol env
    (replace (erase_selection env ed).1
      ((erase_selection env ed).1.linepos + (erase_selection env ed).1.col) 0 clip true)
    ((replace (erase_selection env ed).1
      ((erase_selection env ed).1.linepos + (erase_selection env ed).1.col) 0
      clip true).linepos +
     (replace (erase_selection env ed).1
      ((erase_selection env ed).1.linepos + (erase_selection env ed).1.col) 0
      clip true).col + (clip.length : Int)) false
  refine ⟨w5, fun hCR => ⟨w1, w3, ?_, ?_, w5, ?_⟩⟩
  · rw [hlastM, r4, e5]
    exact h3
  · rw [hbufM]
    exact w4
  · show _ ≤ line_length _ _
    refine colok_of_clean _ _ _ w1 w3 ?_ ?_ ?_
    · rw [hbufM]
      exact w4
    · rw [hbufM, r1, hcnt]
      exact noCR_splice _ _ _ _ ((e7 hCR).1) hclip
    · intro j hj1 hj2
      rw [hbufM]
      exact w6 j hj1 hj2

theorem undo_cursorok (env : Env) (ed : Editor) (base : List Int) (hW : WF ed)
    (hR : Reaches base ed) : CursorOK (undo env ed) := by
  obtain ⟨h1, h2, h3, h4, h5, h6, h7⟩ := hW
  by_cases hk : ed.undoIdx = 0
  · rw [undo, if_pos hk]
    exact h5
  · obtain ⟨hv, hle, hc⟩ := hR
    have hstep := validLog_step base ed.records hv (ed.undoIdx - 1) (by omega)
    rw [show ed.undoIdx - 1 + 1 = ed.undoIdx by omega] at hstep
    obtain ⟨hgood, hchain⟩ := hstep
    have hgood' := hgood
    rw [goodRec_iff] at hgood'
    obtain ⟨hp, he, hi, hb, hu, hrl, hslice⟩ := hgood'
    have hcur : cnt ed.buf = redo_apply (chain base (ed.records.take (ed.undoIdx - 1)))
        (ed.records.getD (ed.undoIdx - 1) ⟨0, 0, 0, [], []⟩) := by
      rw [hc]
      exact hchain
    have hlenr : ((cnt ed.buf).length : Int) =
        ((chain base (ed.records.take (ed.undoIdx - 1))).length : Int) -
          (ed.records.getD (ed.undoIdx - 1) ⟨0, 0, 0, [], []⟩).erased +
          (ed.records.getD (ed.undoIdx - 1) ⟨0, 0, 0, [], []⟩).inserted := by
      rw [hcur]
      exact length_redo_apply _ _ hgood
    have hlenc := text_length_eq ed.buf
    have hval1 : (ed.records.getD (ed.undoIdx - 1) ⟨0, 0, 0, [], []⟩).pos +
        (ed.records.getD (ed.undoIdx - 1) ⟨0, 0, 0, [], []⟩).inserted ≤
        text_length ed.buf := by omega
    obtain ⟨w1, w2, w3, w4, w5, w6⟩ := moveto_wfout env ed
      (ed.records.getD (ed.undoIdx - 1) ⟨0, 0, 0, [], []⟩).pos false h1 h2 hp
      (by omega) (Or.inl h5)
      (fun j hj1 hj2 _ => (colok_clean ed.buf ed.linepos ed.col h1 h6 j hj1 hj2).1)
    have hbufM := moveto_buf env ed
      (ed.records.getD (ed.undoIdx - 1) ⟨0, 0, 0, [], []⟩).pos false
    rw [undo_eq env ed hk]
    dsimp only
    have hokE : CursorOK { moveto env ed
        (ed.records.getD (ed.undoIdx - 1) ⟨0, 0, 0, [], []⟩).pos false with
        buf := buf_replace (moveto env ed
          (ed.records.getD (ed.undoIdx - 1) ⟨0, 0, 0, [], []⟩).pos false).buf
          (ed.records.getD (ed.undoIdx - 1) ⟨0, 0, 0, [], []⟩).pos
          (ed.records.getD (ed.undoIdx - 1) ⟨0, 0, 0, [], []⟩).inserted
          (ed.records.getD (ed.undoIdx - 1) ⟨0, 0, 0, [], []⟩).undobuf
        dirty := true } := by
      rcases w5 with h | h
      · exact Or.inl h
      · refine Or.inr ?_
        show get (buf_replace _ _ _ _) _ = 10
        rw [get_buf_replace_below _ _ _ _ _ hp hi (by rw [hbufM]; exact hval1)
          (by dsimp only; omega)]
        exact h
    split
    · exact hokE
    · exact hokE

theorem redo_wf (env : Env) (ed : Editor) (base : List Int) (hW : WF ed)
    (hR : Reaches base ed) :
    CursorOK (redo env ed) ∧
    (noCR (cnt ed.buf) = true → (∀ u ∈ ed.records, noCR u.redobuf = true) →
      CursorWF (redo env ed)) := by
  have hW' := hW
  obtain ⟨h1, h2, h3, h4, h5, h6, h7⟩ := hW'
  obtain ⟨hv, hle, hc⟩ := hR
  by_cases hk : ed.undoIdx < ed.records.length
  · have hstep := validLog_step base ed.records hv ed.undoIdx hk
    obtain ⟨hgood, hchain⟩ := hstep
    have hgood' := hgood
    rw [← hc] at hgood'
    rw [goodRec_iff] at hgood'
    obtain ⟨hp, he, hi, hb, hu, hrl, hslice⟩ := hgood'
    have hlenc := text_length_eq ed.buf
    have hmem : ed.records.getD ed.undoIdx ⟨0, 0, 0, [], []⟩ ∈ ed.records := by
      rw [List.getD_eq_getElem ed.records ⟨0, 0, 0, [], []⟩ hk]
      exact List.getElem_mem hk
    have hval1 : (ed.records.getD ed.undoIdx ⟨0, 0, 0, [], []⟩).pos +
        (ed.records.getD ed.undoIdx ⟨0, 0, 0, [], []⟩).erased ≤ text_length ed.buf := by
      omega
    have hcnt := cnt_buf_replace ed.buf (ed.records.getD ed.undoIdx ⟨0, 0, 0, [], []⟩).pos
      (ed.records.getD ed.undoIdx ⟨0, 0, 0, [], []⟩).erased
      (ed.records.getD ed.undoIdx ⟨0, 0, 0, [], []⟩).redobuf hp hval1 he
    have hlen := length_buf_replace ed.buf
      (ed.records.getD ed.undoIdx ⟨0, 0, 0, [], []⟩).pos
      (ed.records.getD ed.undoIdx ⟨0, 0, 0, [], []⟩).erased
      (ed.records.getD ed.undoIdx ⟨0, 0, 0, [], []⟩).redobuf hp hval1 he
    rw [redo_eq env ed hk]
    dsimp only
    have hokd : CursorOK { ed with
        undoIdx := ed.undoIdx + 1
        buf := buf_replace ed.buf (ed.records.getD ed.undoIdx ⟨0, 0, 0, [], []⟩).pos
          (ed.records.getD ed.undoIdx ⟨0, 0, 0, [], []⟩).erased
          (ed.records.getD ed.undoIdx ⟨0, 0, 0, [], []⟩).redobuf
        dirty := true } ∨
        (ed.records.getD ed.undoIdx ⟨0, 0, 0, [], []⟩).pos < ed.linepos := by
      by_cases hlt : (ed.records.getD ed.undoIdx ⟨0, 0, 0, [], []⟩).pos < ed.linepos
      · exact Or.inr hlt
      · refine Or.inl ?_
        rcases h5 with h | h
        · exact Or.inl h
        · refine Or.inr ?_
          show get (buf_replace _ _ _ _) _ = 10
          rw [get_buf_replace_below _ _ _ _ _ hp he hval1 (by dsimp only; omega)]
          exact h
    have hHent : ∀ j : Nat, ed.linepos ≤ (j : Int) →
        (j : Int) < ed.linepos + ed.col →
        (j : Int) < (ed.records.getD ed.undoIdx ⟨0, 0, 0, [], []⟩).pos →
        nth (cnt (buf_replace ed.buf (ed.records.getD ed.undoIdx ⟨0, 0, 0, [], []⟩).pos
          (ed.records.getD ed.undoIdx ⟨0, 0, 0, [], []⟩).erased
          (ed.records.getD ed.undoIdx ⟨0, 0, 0, [], []⟩).redobuf)) j ≠ 10 := by
      intro j hj1 hj2 hj3
      rw [nth_buf_replace_below _ _ _ _ _ hp he hval1 (by omega)]
      exact (colok_clean ed.buf ed.linepos ed.col h1 h6 j hj1 hj2).1
    obtain ⟨w1, w2, w3, w4, w5, w6⟩ := moveto_wfout env
      { ed with
        undoIdx := ed.undoIdx + 1
        buf := buf_replace ed.buf (ed.records.getD ed.undoIdx ⟨0, 0, 0, [], []⟩).pos
          (ed.records.getD ed.undoIdx ⟨0, 0, 0, [], []⟩).erased
          (ed.records.getD ed.undoIdx ⟨0, 0, 0, [], []⟩).redobuf
        dirty := true }
      (ed.records.getD ed.undoIdx ⟨0, 0, 0, [], []⟩).pos false h1 h2 hp
      (by dsimp only; rw [hlen]; omega) hokd hHent
    have hbufM := moveto_buf env
      { ed with
        undoIdx := ed.undoIdx + 1
        buf := buf_replace ed.buf (ed.records.getD ed.undoIdx ⟨0, 0, 0, [], []⟩).pos
          (ed.records.getD ed.undoIdx ⟨0, 0, 0, [], []⟩).erased
          (ed.records.getD ed.undoIdx ⟨0, 0, 0, [], []⟩).redobuf
        dirty := true }
      (ed.records.getD ed.undoIdx ⟨0, 0, 0, [], []⟩).pos false
    have hlastM := moveto_lastcol env
      { ed with
        undoIdx := ed.undoIdx + 1
        buf := buf_replace ed.buf (ed.records.getD ed.undoIdx ⟨0, 0, 0, [], []⟩).pos
          (ed.records.getD ed.undoIdx ⟨0, 0, 0, [], []⟩).erased
          (ed.records.getD ed.undoIdx ⟨0, 0, 0, [], []⟩).redobuf
        dirty := true }
      (ed.records.getD ed.undoIdx ⟨0, 0, 0, [], []⟩).pos false
    refine ⟨w5, fun hCR hrec => ⟨w1, w3, ?_, ?_, w5, ?_⟩⟩
    · dsimp only
      rw [hlastM]
      dsimp only
      exact h3
    · dsimp only
      rw [hbufM]
      dsimp only
      exact w4
    · show _ ≤ line_length _ _
      dsimp only
      refine colok_of_clean _ _ _ w1 w3 ?_ ?_ ?_
      · rw [hbufM]
        dsimp only
        exact w4
      · rw [hbufM]
        dsimp only
        rw [hcnt]
        exact noCR_splice _ _ _ _ hCR (hrec _ hmem)
      · intro j hj1 hj2
        rw [hbufM]
        exact w6 j hj1 hj2
  · have hself : redo env ed = ed := redo_eq_self env ed (by omega)
    rw [hself]
    exact ⟨h5, fun _ _ => ⟨h1, h2, h3, h4, h5, h6⟩⟩

/-! ### The C4 claim -/

/-- C4 counterexample.  First part: starting from an empty document, the key
sequence a, b, cursor-left, X, Home, Ctrl-Z (undo) leaves a carriage-return
free buffer "ab" with linepos = 0 and col = 3, violating
col ≤ line_length(linepos) = 2 — undo's moveto overshoots to end of buffer
because the document has no newline, and the subsequent replace shrinks the
text under the cursor.  Second part: on a well-formed loaded buffer
containing a bare carriage return ("ab\x0dcd"), a single select-all lands
the cursor at col = 5 on a line of line_length 2, because moveto's line
walk only recognises newlines while line_length stops at the carriage
return — so the claim also fails for buffers with bare CR bytes, which it
explicitly includes. -/
theorem cursor_invariants_counterexample :
    (¬ ColOK (run_ops ⟨80, 24⟩ mk_editor
      [Op.insert_char 97, Op.insert_char 98, Op.left false, Op.insert_char 88,
       Op.home false, Op.undo]) ∧
     noCR (cnt (run_ops ⟨80, 24⟩ mk_editor
      [Op.insert_char 97, Op.insert_char 98, Op.left false, Op.insert_char 88,
       Op.home false, Op.undo]).buf) = true) ∧
    (WF { mk_editor with buf := ⟨[97, 98, 13, 99, 100], MINEXTEND, []⟩ } ∧
     ¬ ColOK (apply_op ⟨80, 24⟩
       { mk_editor with buf := ⟨[97, 98, 13, 99, 100], MINEXTEND, []⟩ } Op.select_all)) := by
  refine ⟨⟨?_, ?_⟩, ?_, ?_⟩ <;> decide

/-- **C4 (amended).**  The line-start invariant (linepos = 0 or the byte
before linepos is a newline) holds after every editing and navigation
operation, from any well-formed state whose undo log is consistent.  The
column invariant col ≤ line_length(linepos) — together with the rest of the
cursor well-formedness — is preserved by every operation except undo and
page-up, provided the buffer and the logged insertions contain no carriage
returns; undo (see the counterexample) and page-up (whose early-return path
skips the adjust clamp) can leave col past the end of the line, and bare
carriage returns break the column bound even for plain navigation. -/
theorem cursor_invariants_amended (env : Env) (ed : Editor) (op : Op) (base : List Int)
    (hW : WF ed) (hR : Reaches base ed) (hop : OpOK op) :
    CursorOK (apply_op env ed op) ∧
    (noCR (cnt ed.buf) = true →
      (∀ u ∈ ed.records, noCR u.redobuf = true) →
      op ≠ Op.undo → (∀ s, op ≠ Op.pageup s) →
      CursorWF (apply_op env ed op)) := by
  cases op with
  | up s =>
    exact ⟨(up_wf env ed s hW).2.2.2.2.1, fun _ _ _ _ => up_wf env ed s hW⟩
  | down s =>
    exact ⟨(down_wf env ed s hW).2.2.2.2.1, fun _ _ _ _ => down_wf env ed s hW⟩
  | left s =>
    exact ⟨(left_wf env ed s hW).2.2.2.2.1, fun _ _ _ _ => left_wf env ed s hW⟩
  | right s =>
    exact ⟨(right_wf env ed s hW).2.2.2.2.1, fun _ _ _ _ => right_wf env ed s hW⟩
  | wordleft s =>
    exact ⟨(wordleft_wf env ed s hW).2.2.2.2.1, fun _ _ _ _ => wordleft_wf env ed s hW⟩
  | wordright s =>
    exact ⟨(wordright_wf env ed s hW).2.2.2.2.1, fun _ _ _ _ => wordright_wf env ed s hW⟩
  | home s =>
    exact ⟨(home_wf env ed s hW).2.2.2.2.1, fun _ _ _ _ => home_wf env ed s hW⟩
  | end_ s =>
    exact ⟨(end_wf env ed s hW).2.2.2.2.1, fun _ _ _ _ => end_wf env ed s hW⟩
  | top s =>
    exact ⟨(top_wf env ed s hW).2.2.2.2.1, fun _ _ _ _ => top_wf env ed s hW⟩
  | bottom s =>
    exact ⟨(bottom_wf env ed s hW).2.2.2.2.1, fun _ _ _ _ => bottom_wf env ed s hW⟩
  | pageup s =>
    exact ⟨pageup_cursorok env ed s hW, fun _ _ _ hne => absurd rfl (hne s)⟩
  | pagedown s =>
    exact ⟨(pagedown_wf env ed s hW).2.2.2.2.1, fun _ _ _ _ => pagedown_wf env ed s hW⟩
  | insert_char ch =>
    exact ⟨(insert_char_wf env ed ch hW).2.2.2.2.1, fun _ _ _ _ => insert_char_wf env ed ch hW⟩
  | newline =>
    exact ⟨(newline_wf env ed hW).2.2.2.2.1, fun _ _ _ _ => newline_wf env ed hW⟩
  | backspace =>
    exact ⟨(backspace_wf env ed hW).1, fun hCR _ _ _ => (backspace_wf env ed hW).2 hCR⟩
  | del =>
    exact ⟨(del_wf env ed hW).1, fun hCR _ _ _ => (del_wf env ed hW).2 hCR⟩
  | select_all =>
    exact ⟨(select_all_wf env ed hW).1, fun hCR _ _ _ => (select_all_wf env ed hW).2 hCR⟩
  | paste clip =>
    exact ⟨(paste_wf env ed clip hW hop).1,
      fun hCR _ _ _ => (paste_wf env ed clip hW hop).2 hCR⟩
  | undo =>
    exact ⟨undo_cursorok env ed base hW hR, fun _ _ hne _ => absurd rfl hne⟩
  | redo =>
    exact ⟨(redo_wf env ed base hW hR).1,
      fun hCR hrec _ _ => (redo_wf env ed base hW hR).2 hCR hrec⟩

/-- Witness for the amended C4 theorem at a concrete input: the fresh empty
editor, a consistent empty log, and the cursor-down operation. -/
theorem cursor_invariants_amended_witness :
    WF mk_editor ∧ Reaches [] mk_editor ∧ OpOK (Op.down false) ∧
    noCR (cnt mk_editor.buf) = true ∧
    CursorOK (apply_op ⟨80, 24⟩ mk_editor (Op.down false)) ∧
    CursorWF (apply_op ⟨80, 24⟩ mk_editor (Op.down false)) := by
  have hW : WF mk_editor := by decide
  have hR : Reaches [] mk_editor := ⟨rfl, Nat.le_refl 0, rfl⟩
  have h := cursor_invariants_amended ⟨80, 24⟩ mk_editor (Op.down false) [] hW hR trivial
  exact ⟨hW, hR, trivial, by decide, h.1,
    h.2 (by decide) (fun u hu => absurd hu (List.not_mem_nil u)) (by decide)
      (fun s h => Op.noConfusion h)⟩

/-! ### C5: find_text postconditions, revised.  The cursor dichotomy of
moveto at a forward target (exact landing when a newline exists at or after
the position just before the target, or the target is the end of the text;
an overshoot to the end of the text otherwise) and the recentering of the
viewport. -/

/-- Minimality of next_line: it does not jump past the first newline at or
after the scan position. -/
theorem next_line_min (b : Buf) (p : Int) (h0 : 0 ≤ p) (j : Nat)
    (hpj : p ≤ (j : Int)) (hj : j < (cnt b).length) (hnl : nth (cnt b) j = 10) :
    next_line b p ≤ (j : Int) + 1 := by
  rw [next_line, if_neg (by omega)]
  rcases scan_next_spec ((cnt b).drop p.toNat) p.toNat with hs | ⟨k, hr, hk, h10, hbefore⟩
  · rw [hs]; omega
  · rw [hr]
    by_contra hcon
    push_neg at hcon
    have hlt : j - p.toNat < k := by omega
    have hne10 := hbefore (j - p.toNat) hlt
    rw [nth_drop, show p.toNat + (j - p.toNat) = j by omega] at hne10
    exact hne10 hnl

/-- The moveto loop parks the cursor exactly at a forward target that sits
immediately after a newline: the line walk, guided by next_line minimality,
never steps past such a target. -/
theorem moveto_loop_linestart (env : Env) (pos : Int) :
    ∀ (fuel : Nat) (ed : Editor) (s : Bool),
      0 ≤ ed.linepos → 0 ≤ ed.col → 1 ≤ pos →
      ed.linepos + ed.col ≤ pos →
      nth (cnt ed.buf) (pos - 1).toNat = 10 →
      mv_meas ed pos < fuel →
      (moveto_loop env pos fuel ed s).1.linepos + (moveto_loop env pos fuel ed s).1.col = pos := by
  intro fuel
  induction fuel with
  | zero => intro ed s _ _ _ _ _ hm; omega
  | succ f ih =>
    intro ed s hlp hcol hp1 hle h10 hm
    have hlen := text_length_eq ed.buf
    have hinr : (pos - 1).toNat < (cnt ed.buf).length := by
      by_contra hcc
      push_neg at hcc
      rw [nth_of_ge _ _ hcc] at h10
      omega
    rw [moveto_loop]
    dsimp only
    rw [if_neg (by omega)]
    by_cases hgt : pos > ed.linepos + ed.col
    · rw [if_pos hgt]
      have hne : next_line ed.buf ed.linepos ≠ -1 :=
        next_line_ne ed.buf ed.linepos hlp (pos - 1).toNat (by omega) hinr h10
      have hmin : next_line ed.buf ed.linepos ≤ pos := by
        have := next_line_min ed.buf ed.linepos hlp (pos - 1).toNat (by omega) hinr h10
        omega
      rw [if_neg hne, if_neg (by omega)]
      rcases next_line_spec ed.buf ed.linepos hlp with hn1 | ⟨hn2, hn3, hn4⟩
      · exact absurd hn1 hne
      · split
        · refine ih _ _ (by dsimp only; omega) (by dsimp only; omega) hp1
            (by dsimp only; omega) h10
            (by simp only [mv_meas] at hm ⊢; split_ifs at hm ⊢ <;> omega)
        · refine ih _ _ (by dsimp only; omega) (by dsimp only; omega) hp1
            (by dsimp only; omega) h10
            (by simp only [mv_meas] at hm ⊢; split_ifs at hm ⊢ <;> omega)
    · rw [if_neg hgt]
      dsimp only
      omega

/-- moveto parks the cursor exactly at a forward target that sits
immediately after a newline. -/
theorem moveto_linestart (env : Env) (ed : Editor) (pos : Int) (c : Bool)
    (hlp : 0 ≤ ed.linepos) (hcol : 0 ≤ ed.col) (hp1 : 1 ≤ pos)
    (hle : ed.linepos + ed.col ≤ pos)
    (h10 : nth (cnt ed.buf) (pos - 1).toNat = 10) :
    (moveto env ed pos c).linepos + (moveto env ed pos c).col = pos := by
  have hfuel : mv_meas ed pos < mv_fuel ed pos := by
    simp only [mv_meas, mv_fuel]
    split_ifs <;> omega
  have h := moveto_loop_linestart env pos (mv_fuel ed pos) ed false hlp hcol hp1 hle h10 hfuel
  rw [moveto]
  dsimp only
  split
  all_goals first
    | exact h
    | (split <;> first
        | exact h
        | (split <;> first
            | exact h
            | (split <;> exact h)))

/-- The moveto loop overshoots to the end of the text on a strictly forward
target when no newline occurs at or after the position just before it: the
line walk runs out of newlines and takes the end-of-buffer exit. -/
theorem moveto_loop_overshoot (env : Env) (pos : Int) :
    ∀ (fuel : Nat) (ed : Editor) (s : Bool),
      0 ≤ ed.linepos → 0 ≤ ed.col →
      ed.linepos + ed.col < pos →
      (∀ j : Nat, pos - 1 ≤ (j : Int) → j < (cnt ed.buf).length → nth (cnt ed.buf) j ≠ 10) →
      mv_meas ed pos < fuel →
      (moveto_loop env pos fuel ed s).1.linepos + (moveto_loop env pos fuel ed s).1.col =
        text_length ed.buf := by
  intro fuel
  induction fuel with
  | zero => intro ed s _ _ _ _ hm; omega
  | succ f ih =>
    intro ed s hlp hcol hlt hcln hm
    have hlen := text_length_eq ed.buf
    rw [moveto_loop]
    dsimp only
    rw [if_neg (by omega), if_pos hlt]
    rcases next_line_spec ed.buf ed.linepos hlp with hn1 | ⟨hn2, hn3, hn4⟩
    · rw [hn1, if_pos rfl]
      dsimp only
      omega
    · have hne : ¬ next_line ed.buf ed.linepos = -1 := by omega
      rw [if_neg hne]
      have hnlt : next_line ed.buf ed.linepos < pos := by
        by_contra hcon
        push_neg at hcon
        exact hcln ((next_line ed.buf ed.linepos).toNat - 1) (by omega) (by omega) hn4
      rw [if_neg (by omega)]
      split
      · refine ih _ _ (by dsimp only; omega) (by dsimp only; omega) (by dsimp only; omega)
          hcln (by simp only [mv_meas] at hm ⊢; split_ifs at hm ⊢ <;> omega)
      · refine ih _ _ (by dsimp only; omega) (by dsimp only; omega) (by dsimp only; omega)
          hcln (by simp only [mv_meas] at hm ⊢; split_ifs at hm ⊢ <;> omega)

/-- moveto parks the cursor at the end of the text on a strictly forward
target when no newline occurs at or after the position just before it. -/
theorem moveto_overshoot (env : Env) (ed : Editor) (pos : Int) (c : Bool)
    (hlp : 0 ≤ ed.linepos) (hcol : 0 ≤ ed.col)
    (hlt : ed.linepos + ed.col < pos)
    (hcln : ∀ j : Nat, pos - 1 ≤ (j : Int) → j < (cnt ed.buf).length →
      nth (cnt ed.buf) j ≠ 10) :
    (moveto env ed pos c).linepos + (moveto env ed pos c).col = text_length ed.buf := by
  have hfuel : mv_meas ed pos < mv_fuel ed pos := by
    simp only [mv_meas, mv_fuel]
    split_ifs <;> omega
  have h := moveto_loop_overshoot env pos (mv_fuel ed pos) ed false hlp hcol hlt hcln hfuel
  rw [moveto]
  dsimp only
  split
  all_goals first
    | exact h
    | (split <;> first
        | exact h
        | (split <;> first
            | exact h
            | (split <;> exact h)))

/-- The scroll flag of the moveto loop is a sticky accumulator: once set it
stays set. -/
theorem moveto_loop_scroll_mono (env : Env) (pos : Int) :
    ∀ (fuel : Nat) (ed : Editor), (moveto_loop env pos fuel ed true).2 = true := by
  intro fuel
  induction fuel with
  | zero => intro ed; rfl
  | succ f ih =>
    intro ed
    rw [moveto_loop]
    dsimp only
    split
    · split
      · exact ih _
      · split
        · exact ih _
        · exact ih _
    · split
      · split
        · rfl
        · split
          · exact ih _
          · split
            · exact ih _
            · exact ih _
      · rfl

/-- When the moveto loop reports no scrolling, it leaves the viewport
fields toppos and topline untouched. -/
theorem moveto_loop_noscroll (env : Env) (pos : Int) :
    ∀ (fuel : Nat) (ed : Editor) (s : Bool),
      (moveto_loop env pos fuel ed s).2 = false →
      (moveto_loop env pos fuel ed s).1.toppos = ed.toppos ∧
      (moveto_loop env pos fuel ed s).1.topline = ed.topline := by
  intro fuel
  induction fuel with
  | zero => intro ed s _; exact ⟨rfl, rfl⟩
  | succ f ih =>
    intro ed s
    rw [moveto_loop]
    dsimp only
    split
    · split
      · exact fun h => ih _ _ h
      · split
        · intro h
          rw [moveto_loop_scroll_mono] at h
          exact absurd h (by decide)
        · exact fun h => ih _ _ h
    · split
      · split
        · exact fun _ => ⟨rfl, rfl⟩
        · split
          · exact fun h => ih _ _ h
          · split
            · intro h
              rw [moveto_loop_scroll_mono] at h
              exact absurd h (by decide)
            · exact fun h => ih _ _ h
      · exact fun _ => ⟨rfl, rfl⟩

/-- The backward recentering loop lowers topline by exactly its step
count. -/
theorem recenter_back_spec (b : Buf) :
    ∀ (n : Nat) (tp tl : Int), (recenter_back b n tp tl).2 = tl - n := by
  intro n
  induction n with
  | zero => intro tp tl; simp [recenter_back]
  | succ m ih =>
    intro tp tl
    rw [recenter_back, ih]
    omega

/-- The forward recentering loop raises topline by exactly its step
count. -/
theorem recenter_fwd_spec (b : Buf) :
    ∀ (n : Nat) (tp tl : Int), (recenter_fwd b n tp tl).2 = tl + n := by
  intro n
  induction n with
  | zero => intro tp tl; simp [recenter_fwd]
  | succ m ih =>
    intro tp tl
    rw [recenter_fwd, ih]
    omega

/-- Centering postcondition of moveto with center set: either the walk
scrolled and the viewport is re-aimed so that topline becomes the cursor
line minus half a screen (clamped at zero), or the walk did not scroll and
toppos and topline are left untouched. -/
theorem moveto_center (env : Env) (ed : Editor) (pos : Int) :
    (moveto env ed pos true).topline =
      (if (moveto env ed pos true).line - env.lines / 2 < 0 then 0
       else (moveto env ed pos true).line - env.lines / 2) ∨
    ((moveto env ed pos true).toppos = ed.toppos ∧
     (moveto env ed pos true).topline = ed.topline) := by
  rw [moveto]
  dsimp only
  rcases Bool.eq_false_or_eq_true (moveto_loop env pos (mv_fuel ed pos) ed false).2 with hs | hf
  · rw [if_pos ⟨hs, rfl⟩]
    split
    · rename_i hc0
      split
      · rename_i hgt
        left
        dsimp only
        rw [recenter_back_spec]
        omega
      · split
        · rename_i hgt hlt
          left
          dsimp only
          rw [recenter_fwd_spec]
          omega
        · rename_i hgt hlt
          left
          omega
    · rename_i hc0
      split
      · rename_i hgt
        left
        dsimp only
        rw [recenter_back_spec]
        omega
      · split
        · rename_i hgt hlt
          left
          dsimp only
          rw [recenter_fwd_spec]
          omega
        · rename_i hgt hlt
          left
          omega
  · rw [if_neg (by rw [hf]; simp)]
    exact Or.inr (moveto_loop_noscroll env pos (mv_fuel ed pos) ed false hf)

/-- C5 (amended): for every well formed document and nonempty stored
needle, find_text behaves as follows.  On a miss it emits the BEL and
leaves content, cursor, anchor and dirty flag unchanged.  On a hit it
leaves the content unchanged, sets the selection anchor to the match start,
and moves the cursor to the match end whenever a newline occurs at or after
the position just before the match end or the match end is the end of the
text; when no newline occurs there, the cursor lands at the end of the
buffer instead.  The viewport is either left untouched (the move did not
scroll) or re-aimed so that the top line becomes the cursor line minus half
a screen, clamped at zero. -/
theorem find_text_postconditions_amended (env : Env) (ed : Editor) (needle : List Int)
    (hW : WF ed) (hne : 0 < needle.length) :
    ((find_text env ed needle).2 = true →
      cnt (find_text env ed needle).1.buf = cnt ed.buf ∧
      (find_text env ed needle).1.linepos = ed.linepos ∧
      (find_text env ed needle).1.col = ed.col ∧
      (find_text env ed needle).1.anchor = ed.anchor ∧
      (find_text env ed needle).1.dirty = ed.dirty) ∧
    (∀ off : Nat,
      strstr_clip ((cnt ed.buf).drop (ed.linepos + ed.col).toNat) needle = some off →
      cnt (find_text env ed needle).1.buf = cnt ed.buf ∧
      (find_text env ed needle).1.anchor = ed.linepos + ed.col + (off : Int) ∧
      (((∃ j : Nat, ed.linepos + ed.col + (off : Int) + needle.length - 1 ≤ (j : Int) ∧
          j < (cnt ed.buf).length ∧ nth (cnt ed.buf) j = 10) ∨
        ed.linepos + ed.col + (off : Int) + needle.length = text_length ed.buf) →
        (find_text env ed needle).1.linepos + (find_text env ed needle).1.col =
          ed.linepos + ed.col + (off : Int) + needle.length) ∧
      ((∀ j : Nat, ed.linepos + ed.col + (off : Int) + needle.length - 1 ≤ (j : Int) →
          j < (cnt ed.buf).length → nth (cnt ed.buf) j ≠ 10) →
        (find_text env ed needle).1.linepos + (find_text env ed needle).1.col =
          text_length ed.buf) ∧
      ((find_text env ed needle).1.topline =
        (if (find_text env ed needle).1.line - env.lines / 2 < 0 then 0
         else (find_text env ed needle).1.line - env.lines / 2) ∨
       ((find_text env ed needle).1.toppos = ed.toppos ∧
        (find_text env ed needle).1.topline = ed.topline))) := by
  obtain ⟨hlp, hcol, -, hsum, hok, -, -⟩ := hW
  have hc := cnt_close_gap ed.buf
  have htl : text_length (close_gap ed.buf) = text_length ed.buf := by
    rw [text_length_eq, text_length_eq, hc]
  constructor
  · intro hbel
    rcases hmatch : strstr_clip ((cnt (close_gap ed.buf)).drop
        (ed.linepos + ed.col).toNat) needle with _ | off
    · rw [find_text, if_pos hne] at hbel ⊢
      dsimp only at hbel ⊢
      rw [hmatch] at hbel ⊢
      exact ⟨hc, rfl, rfl, rfl, rfl⟩
    · exfalso
      rw [find_text, if_pos hne] at hbel
      dsimp only at hbel
      rw [hmatch] at hbel
      simp at hbel
  · intro off hoff
    have hoff' : strstr_clip ((cnt (close_gap ed.buf)).drop
        (ed.linepos + ed.col).toNat) needle = some off := by rw [hc]; exact hoff
    rw [find_text, if_pos hne]
    dsimp only
    rw [hoff']
    dsimp only
    set pos := ed.linepos + ed.col + (off : Int) with hposdef
    set ed1 : Editor := { { ed with buf := close_gap ed.buf } with anchor := pos } with hed1
    have hok1 : CursorOK ed1 := by
      show ed1.linepos = 0 ∨ get ed1.buf (ed1.linepos - 1) = 10
      rcases hok with h | h
      · left; exact h
      · right
        show get (close_gap ed.buf) (ed.linepos - 1) = 10
        rw [get_eq_of_cnt_eq _ _ hc]
        exact h
    refine ⟨?_, ?_, ?_, ?_, ?_⟩
    · show cnt (moveto env ed1 (pos + (needle.length : Int)) true).buf = cnt ed.buf
      rw [moveto_buf]
      exact hc
    · show (moveto env ed1 (pos + (needle.length : Int)) true).anchor = pos
      rw [moveto_anchor]
    · intro hguard
      show (moveto env ed1 (pos + (needle.length : Int)) true).linepos +
        (moveto env ed1 (pos + (needle.length : Int)) true).col =
        pos + (needle.length : Int)
      rcases hguard with ⟨j, hj1, hj2, hj3⟩ | h
      · rcases le_or_lt (pos + (needle.length : Int)) (j : Int) with hge | hlt2
        · apply moveto_exact
          · exact hlp
          · exact hcol
          · omega
          · show ed.linepos + ed.col ≤ text_length (close_gap ed.buf)
            rw [htl]
            exact hsum
          · exact hok1
          · right; left
            refine ⟨j, hge, ?_, ?_⟩
            · rw [hc]; exact hj2
            · rw [hc]; exact hj3
        · apply moveto_linestart
          · exact hlp
          · exact hcol
          · omega
          · show ed.linepos + ed.col ≤ pos + (needle.length : Int)
            omega
          · show nth (cnt (close_gap ed.buf)) (pos + (needle.length : Int) - 1).toNat = 10
            rw [hc]
            rw [show (pos + (needle.length : Int) - 1).toNat = j by omega]
            exact hj3
      · apply moveto_exact
        · exact hlp
        · exact hcol
        · omega
        · show ed.linepos + ed.col ≤ text_length (close_gap ed.buf)
          rw [htl]
          exact hsum
        · exact hok1
        · right; right
          rw [htl]
          exact h
    · intro hcln
      show (moveto env ed1 (pos + (needle.length : Int)) true).linepos +
        (moveto env ed1 (pos + (needle.length : Int)) true).col = text_length ed.buf
      have hlen1 : (cnt ed1.buf).length = (cnt ed.buf).length := by
        show (cnt (close_gap ed.buf)).length = (cnt ed.buf).length
        rw [hc]
      have hstep : ∀ j : Nat, pos + (needle.length : Int) - 1 ≤ (j : Int) →
          j < (cnt ed1.buf).length → nth (cnt ed1.buf) j ≠ 10 := by
        intro j h1 h2
        show nth (cnt (close_gap ed.buf)) j ≠ 10
        rw [hc]
        exact hcln j (by omega) (by omega)
      have h := moveto_overshoot env ed1 (pos + (needle.length : Int)) true hlp hcol
        (by show ed.linepos + ed.col < pos + (needle.length : Int); omega) hstep
      exact h.trans htl
    · rcases moveto_center env ed1 (pos + (needle.length : Int)) with h | h
      · left; exact h
      · right; exact ⟨h.1, h.2⟩

/-- Witness for C5: the amended theorem applied on the concrete scenario
document (the exact-landing clauses and the scenario conclusions), and on
the counterexample document (the end-of-buffer clause: finding "he" in
"hello" parks the cursor at 5). -/
theorem find_text_postconditions_amended_witness :
    WF { mk_editor with buf := ⟨[104, 101, 108, 108, 111, 32, 104, 101, 108, 108, 111, 10], 7, []⟩ } ∧
    (find_text ⟨80, 24⟩
      { mk_editor with buf := ⟨[104, 101, 108, 108, 111, 32, 104, 101, 108, 108, 111, 10], 7, []⟩ }
      [104, 101, 108, 108, 111]).1.anchor = 0 ∧
    (find_text ⟨80, 24⟩
      { mk_editor with buf := ⟨[104, 101, 108, 108, 111, 32, 104, 101, 108, 108, 111, 10], 7, []⟩ }
      [104, 101, 108, 108, 111]).1.linepos +
    (find_text ⟨80, 24⟩
      { mk_editor with buf := ⟨[104, 101, 108, 108, 111, 32, 104, 101, 108, 108, 111, 10], 7, []⟩ }
      [104, 101, 108, 108, 111]).1.col = 5 ∧
    (find_text ⟨80, 24⟩ (find_text ⟨80, 24⟩
      { mk_editor with buf := ⟨[104, 101, 108, 108, 111, 32, 104, 101, 108, 108, 111, 10], 7, []⟩ }
      [104, 101, 108, 108, 111]).1 [104, 101, 108, 108, 111]).1.anchor = 6 ∧
    (find_text ⟨80, 24⟩ (find_text ⟨80, 24⟩
      { mk_editor with buf := ⟨[104, 101, 108, 108, 111, 32, 104, 101, 108, 108, 111, 10], 7, []⟩ }
      [104, 101, 108, 108, 111]).1 [104, 101, 108, 108, 111]).1.linepos +
    (find_text ⟨80, 24⟩ (find_text ⟨80, 24⟩
      { mk_editor with buf := ⟨[104, 101, 108, 108, 111, 32, 104, 101, 108, 108, 111, 10], 7, []⟩ }
      [104, 101, 108, 108, 111]).1 [104, 101, 108, 108, 111]).1.col = 11 ∧
    (find_text ⟨80, 24⟩ (find_text ⟨80, 24⟩ (find_text ⟨80, 24⟩
      { mk_editor with buf := ⟨[104, 101, 108, 108, 111, 32, 104, 101, 108, 108, 111, 10], 7, []⟩ }
      [104, 101, 108, 108, 111]).1 [104, 101, 108, 108, 111]).1 [104, 101, 108, 108, 111]).2 = true ∧
    WF { mk_editor with buf := ⟨[104, 101, 108, 108, 111], 7, []⟩ } ∧
    (find_text ⟨80, 24⟩ { mk_editor with buf := ⟨[104, 101, 108, 108, 111], 7, []⟩ }
      [104, 101]).1.linepos +
    (find_text ⟨80, 24⟩ { mk_editor with buf := ⟨[104, 101, 108, 108, 111], 7, []⟩ }
      [104, 101]).1.col = 5 := by
  have h := find_text_postconditions_amended ⟨80, 24⟩
    { mk_editor with buf := ⟨[104, 101, 108, 108, 111, 32, 104, 101, 108, 108, 111, 10], 7, []⟩ }
    [104, 101, 108, 108, 111]
    (⟨by decide, by decide, by decide, by decide, Or.inl (by decide), by decide,
      Or.inl (by decide)⟩) (by decide)
  have ha := (h.2 0 (by decide)).2.1
  have hcur := (h.2 0 (by decide)).2.2.1 (Or.inl ⟨11, by decide, by decide, by decide⟩)
  have h2 := find_text_postconditions_amended ⟨80, 24⟩
    { mk_editor with buf := ⟨[104, 101, 108, 108, 111], 7, []⟩ } [104, 101]
    (⟨by decide, by decide, by decide, by decide, Or.inl (by decide), by decide,
      Or.inl (by decide)⟩) (by decide)
  have hov := (h2.2 0 (by decide)).2.2.2.1 (by
    intro j h1 hjl
    have hl5 : (cnt ({ mk_editor with
      buf := ⟨[104, 101, 108, 108, 111], 7, []⟩ } : Editor).buf).length = 5 := by decide
    have h5 : j < 5 := by omega
    interval_cases j <;> decide)
  refine ⟨⟨by decide, by decide, by decide, by decide, Or.inl (by decide), by decide,
    Or.inl (by decide)⟩, by rw [ha]; decide, ?_, by decide, by decide, by decide,
    ⟨by decide, by decide, by decide, by decide, Or.inl (by decide), by decide,
    Or.inl (by decide)⟩, by rw [hov]; decide⟩
  rw [hcur]
  decide

end Tedit
